import Mathlib

/-!
# Clipper2 (`CPP/Clipper2Lib/clipper.h`): point-in-polygon and collinear trimming

A shallow embedding of the integer-coordinate routines of `clipper.h`:
`PointInPolygon` (lines 444-505) and `TrimCollinear` (lines 386-432).

* `Point64` has exact (unbounded) integer coordinates: every claim below is
  stated for cross products computed without overflow.
* A `Path64` is a list of points; an iterator into it is a position
  (`cbegin()` is `0`, `cend()` is the length).
* Loops are recursions on a counter.  A loop that advances its iterator by
  exactly one per round up to a fixed end is counted by the distance to that
  end; the outer loop of `PointInPolygon`, which advances by a varying amount,
  carries explicit fuel and returns `none` if it runs out (it never does, see
  `pipLoop_total`).
-/

namespace Clipper2Lib

/-- A point with 64-bit integer coordinates in the source; here exact integers. -/
structure Point64 where
  x : Int
  y : Int
deriving DecidableEq

/-- `Path64`: `std::vector<Point64>`. -/
abbrev Path64 := List Point64

/-- The element a position of a path points to (`*it`, `p[i]`). -/
def Path64.elem (p : Path64) (i : Nat) : Point64 := p.getD i ⟨0, 0⟩

/-- The three results of `PointInPolygon`. -/
inductive PointInPolyResult where
  | IsOn
  | IsInside
  | IsOutside
deriving DecidableEq

/-- Modelled from the spec: `CrossProduct` lives in `clipper.core.h`, which is
not part of the sources at hand.  The spec describes it as the exact cross
product of the three points it is given (previous vertex, current vertex,
query point); this is the cross product of `pt2 - pt1` and `pt3 - pt2`. -/
def CrossProduct (pt1 pt2 pt3 : Point64) : Int :=
  (pt2.x - pt1.x) * (pt3.y - pt2.y) - (pt2.y - pt1.y) * (pt3.x - pt2.x)

/-! ## PointInPolygon -/

/-- The test of the inner loops of `PointInPolygon` (lines 458 and 463):
`cit->y < pt.y` when `is_above`, `cit->y > pt.y` otherwise. -/
def skipCond (pt : Point64) (is_above : Bool) (v : Point64) : Bool :=
  if is_above then decide (v.y < pt.y) else decide (v.y > pt.y)

/-- The inner loops of `PointInPolygon` (lines 458 and 463):
`while (cit != cend && cit->y < pt.y) ++cit;` when `is_above`, and the same
with `>` otherwise.  The counter is `cend - cit`. -/
def skipSide (pt : Point64) (polygon : Path64) (is_above : Bool) : Nat → Nat → Nat
  | 0, cit => cit
  | n + 1, cit =>
    if skipCond pt is_above (polygon.elem cit) then
      skipSide pt polygon is_above n (cit + 1)
    else cit

/-- Lines 501-504: the value returned once the vertices are exhausted. -/
def pipFinish (val : Int) : PointInPolyResult :=
  if val = 0 then PointInPolyResult.IsOutside else PointInPolyResult.IsInside

/-- The outer loop of `PointInPolygon` (lines 454-500).  The state is the one
of the source: the positions `cit` and `pit`, `val`, `is_above` and
`first_pass`. -/
def pipLoop (pt : Point64) (polygon : Path64) :
    Nat → Nat → Nat → Int → Bool → Bool → Option PointInPolyResult
  | 0, _, _, _, _, _ => none
  | fuel + 1, cit, pit, val, is_above, first_pass =>
    if cit = polygon.length then some (pipFinish val) else
    let cit := skipSide pt polygon is_above (polygon.length - cit) cit
    if cit = polygon.length then some (pipFinish val) else
    let pit := if first_pass then (if cit ≠ 0 then cit - 1 else pit) else cit - 1
    let c := polygon.elem cit
    let q := polygon.elem pit
    if c.y = pt.y then
      if c.x = pt.x ∨ (c.y = q.y ∧ (decide (pt.x < q.x) ≠ decide (pt.x < q.x))) then
        some PointInPolyResult.IsOn
      else pipLoop pt polygon fuel (cit + 1) pit val is_above false
    else if pt.x < c.x ∧ pt.x < q.x then
      pipLoop pt polygon fuel (cit + 1) pit val (!is_above) false
    else if pt.x > q.x ∧ pt.x > c.x then
      pipLoop pt polygon fuel (cit + 1) pit (1 - val) (!is_above) false
    else
      let d := CrossProduct q c pt
      if d = 0 then some PointInPolyResult.IsOn
      else if decide (d < 0) = is_above then
        pipLoop pt polygon fuel (cit + 1) pit (1 - val) (!is_above) false
      else pipLoop pt polygon fuel (cit + 1) pit val (!is_above) false

/-- `PointInPolygon` (lines 444-505).  Every round of the outer loop advances
`cit` by at least one, so `polygon.size() + 1` rounds are enough. -/
def PointInPolygon (pt : Point64) (polygon : Path64) : Option PointInPolyResult :=
  if polygon.length < 3 then some PointInPolyResult.IsOutside
  else
    let pit := polygon.length - 1
    pipLoop pt polygon (polygon.length + 1) 0 pit 0
      (decide ((polygon.elem pit).y < pt.y)) true

/-- The point `q` lies on the closed segment from `a` to `b`: the cross product
with the segment is zero and both coordinates lie within the segment's ranges. -/
def OnSegment (a b q : Point64) : Prop :=
  CrossProduct a b q = 0 ∧ min a.x b.x ≤ q.x ∧ q.x ≤ max a.x b.x ∧
    min a.y b.y ≤ q.y ∧ q.y ≤ max a.y b.y

instance (a b q : Point64) : Decidable (OnSegment a b q) := by
  unfold OnSegment; infer_instance

/-- The square of the spec's scenario, `[(0,0),(10,0),(10,10),(0,10)]`. -/
def square10 : Path64 := [⟨0, 0⟩, ⟨10, 0⟩, ⟨10, 10⟩, ⟨0, 10⟩]

/-! ## TrimCollinear -/

/-- Line 401: `while (srcIt != stop && !CrossProduct(*stop, *srcIt, *(srcIt + 1))) ++srcIt;`
The counter is `stop - srcIt`. -/
def trimFront (p : Path64) (stop : Nat) : Nat → Nat → Nat
  | 0, srcIt => srcIt
  | n + 1, srcIt =>
    if CrossProduct (p.elem stop) (p.elem srcIt) (p.elem (srcIt + 1)) = 0 then
      trimFront p stop n (srcIt + 1)
    else srcIt

/-- Line 403: `while (srcIt != stop && !CrossProduct(*(stop - 1), *stop, *srcIt)) --stop;`
The counter is `stop - srcIt`. -/
def trimBack (p : Path64) (srcIt : Nat) : Nat → Nat → Nat
  | 0, stop => stop
  | n + 1, stop =>
    if CrossProduct (p.elem (stop - 1)) (p.elem stop) (p.elem srcIt) = 0 then
      trimBack p srcIt n (stop - 1)
    else stop

/-- The scan of lines 410-423, `for (; srcIt != stop; ++srcIt)`; the counter is
`stop - srcIt`.  It returns the final `prevIt` and `dst`. -/
def trimScan (p : Path64) (is_open_path : Bool) :
    Nat → Nat → Nat → Path64 → Nat × Path64
  | 0, _, prevIt, dst => (prevIt, dst)
  | n + 1, srcIt, prevIt, dst =>
    if CrossProduct (p.elem prevIt) (p.elem srcIt) (p.elem (srcIt + 1)) ≠ 0 then
      trimScan p is_open_path n (srcIt + 1) srcIt (dst ++ [p.elem srcIt])
    else if is_open_path = false ∧ dst.length > 1 ∧
        CrossProduct (p.elem (prevIt - 1)) (p.elem prevIt) (p.elem srcIt) = 0 then
      trimScan p is_open_path n (srcIt + 1) (prevIt - 1) dst.dropLast
    else trimScan p is_open_path n (srcIt + 1) prevIt dst

/-- `TrimCollinear` on `Path64` (lines 386-432). -/
def TrimCollinear (p : Path64) (is_open_path : Bool) : Path64 :=
  let len := p.length
  if len < 3 then
    if is_open_path = false ∨ len < 2 ∨ p.elem 0 = p.elem 1 then [] else p
  else
    let srcIt0 := if is_open_path then 0 else trimFront p (len - 1) (len - 1) 0
    let stop := if is_open_path then len - 1 else trimBack p srcIt0 (len - 1 - srcIt0) (len - 1)
    if is_open_path = false ∧ srcIt0 = stop then []
    else
      let r := trimScan p is_open_path (stop - (srcIt0 + 1)) (srcIt0 + 1) srcIt0 [p.elem srcIt0]
      let prevIt := r.1
      let dst := r.2
      if is_open_path then dst ++ [p.elem stop]
      else if CrossProduct (p.elem prevIt) (p.elem stop) (dst.elem 0) ≠ 0 then dst ++ [p.elem stop]
      else if dst.length < 3 then []
      else dst

/-! ## Reference notions for TrimCollinear -/

/-- No interior vertex `r[i]` of an open path is exactly collinear with its two
neighbours `r[i-1]` and `r[i+1]`. -/
def NoCollinearOpen (r : Path64) : Prop :=
  ∀ i, i < r.length → 0 < i → i + 1 < r.length →
    CrossProduct (r.elem (i - 1)) (r.elem i) (r.elem (i + 1)) ≠ 0

/-- No vertex of a closed path is exactly collinear with its cyclic predecessor
and successor, the triples across the wrap-around included. -/
def NoCollinearClosed (r : Path64) : Prop :=
  ∀ i, i < r.length →
    CrossProduct (r.elem ((i + r.length - 1) % r.length)) (r.elem i)
      (r.elem ((i + 1) % r.length)) ≠ 0

instance (r : Path64) : Decidable (NoCollinearOpen r) := by
  unfold NoCollinearOpen; infer_instance

instance (r : Path64) : Decidable (NoCollinearClosed r) := by
  unfold NoCollinearClosed; infer_instance

/-- The positions the scan of lines 410-423 keeps when the cascade of lines
417-422 is never taken: `srcIt` is kept when it is not collinear with the last
kept position and its successor in the source. -/
def scanIdx (p : Path64) : Nat → Nat → Nat → List Nat
  | 0, _, _ => []
  | n + 1, srcIt, prevIt =>
    if CrossProduct (p.elem prevIt) (p.elem srcIt) (p.elem (srcIt + 1)) ≠ 0 then
      srcIt :: scanIdx p n (srcIt + 1) srcIt
    else scanIdx p n (srcIt + 1) prevIt

/-- Two positions kept one after the other by the scan: `b` was kept against `a`
and its own successor, and everything from `a` up to `b` lies on the line
through `p[a]` and `p[a+1]`. -/
def KeptStep (p : Path64) (a b : Nat) : Prop :=
  a < b ∧ CrossProduct (p.elem a) (p.elem b) (p.elem (b + 1)) ≠ 0 ∧
    ∀ j, a < j → j ≤ b → CrossProduct (p.elem a) (p.elem (a + 1)) (p.elem j) = 0

/-- Consecutive kept positions: everything from `a` up to `b` lies on the line
through `p[a]` and `p[a+1]`. -/
def Link (p : Path64) (a b : Nat) : Prop :=
  a < b ∧ ∀ j, a < j → j ≤ b → CrossProduct (p.elem a) (p.elem (a + 1)) (p.elem j) = 0

/-- The run of positions after the last kept one stays on the line through the
last kept vertex and its successor. -/
def RunOnLine (p : Path64) (prev src : Nat) : Prop :=
  ∀ j, prev < j → j ≤ src → CrossProduct (p.elem prev) (p.elem (prev + 1)) (p.elem j) = 0

/-- Where the scan of a closed path starts: `srcIt` after the loop of line 401. -/
def closedStart (p : Path64) : Nat :=
  trimFront p (p.length - 1) (p.length - 1) 0

/-- Where the scan of a closed path ends: `stop` after the loop of line 403. -/
def closedStop (p : Path64) : Nat :=
  trimBack p (closedStart p) (p.length - 1 - closedStart p) (p.length - 1)

/-- The positions kept by the scan of a closed path, between its start and its
stop, when the cascade is never taken. -/
def closedScan (p : Path64) : List Nat :=
  scanIdx p (closedStop p - (closedStart p + 1)) (closedStart p + 1) (closedStart p)

/-- What a list `K` of kept positions of a closed path `p` satisfies when it is
the result of trimming: at least three positions, increasing and in range;
every position strictly between two consecutive kept ones, or outside the first
and the last kept one, holds a vertex collinear with the two kept vertices
around it; and the kept vertices have no collinear cyclic triple. -/
def ClosedKept (p : Path64) (K : List Nat) : Prop :=
  3 ≤ K.length ∧
  (∀ i, i + 1 < K.length → K.getD i 0 < K.getD (i + 1) 0) ∧
  (∀ i, i < K.length → K.getD i 0 < p.length) ∧
  (∀ i, i + 1 < K.length → ∀ j, K.getD i 0 < j → j < K.getD (i + 1) 0 →
    CrossProduct (p.elem (K.getD i 0)) (p.elem j) (p.elem (K.getD (i + 1) 0)) = 0) ∧
  (∀ j, j < p.length → (j < K.getD 0 0 ∨ K.getD (K.length - 1) 0 < j) →
    CrossProduct (p.elem (K.getD (K.length - 1) 0)) (p.elem j) (p.elem (K.getD 0 0)) = 0) ∧
  NoCollinearClosed (K.map p.elem)

/-- What a list `K` of kept positions of an open path `p` satisfies when it is
the result of trimming: it starts at the first and ends at the last position,
is increasing and in range; every position strictly between two consecutive
kept ones holds a vertex collinear with them; and no interior kept vertex is
collinear with its neighbours. -/
def OpenKept (p : Path64) (K : List Nat) : Prop :=
  2 ≤ K.length ∧ K.getD 0 0 = 0 ∧ K.getD (K.length - 1) 0 = p.length - 1 ∧
  (∀ i, i + 1 < K.length → K.getD i 0 < K.getD (i + 1) 0) ∧
  (∀ i, i < K.length → K.getD i 0 < p.length) ∧
  (∀ i, i + 1 < K.length → ∀ j, K.getD i 0 < j → j < K.getD (i + 1) 0 →
    CrossProduct (p.elem (K.getD i 0)) (p.elem j) (p.elem (K.getD (i + 1) 0)) = 0) ∧
  NoCollinearOpen (K.map p.elem)

/-- Position `k` of `p` holds a vertex that is present in `r`. -/
def Kept (p r : Path64) (k : Nat) : Prop := k < p.length ∧ p.elem k ∈ r

/-- Position `a` is the nearest kept position before `j`: kept, before `j` with
nothing kept in between; or, on a closed path, the last kept position of all
when nothing is kept before `j`. -/
def NearestKeptBefore (p r : Path64) (is_open_path : Bool) (j a : Nat) : Prop :=
  Kept p r a ∧
    ((a < j ∧ ∀ m, m < p.length → a < m → m < j → ¬ Kept p r m) ∨
      (is_open_path = false ∧ j < a ∧ ∀ m, m < p.length → (m < j ∨ a < m) → ¬ Kept p r m))

/-- Position `b` is the nearest kept position after `j`: kept, after `j` with
nothing kept in between; or, on a closed path, the first kept position of all
when nothing is kept after `j`. -/
def NearestKeptAfter (p r : Path64) (is_open_path : Bool) (j b : Nat) : Prop :=
  Kept p r b ∧
    ((j < b ∧ ∀ m, m < p.length → j < m → m < b → ¬ Kept p r m) ∨
      (is_open_path = false ∧ b < j ∧ ∀ m, m < p.length → (j < m ∨ m < b) → ¬ Kept p r m))

/-- Every vertex of `p` that is absent from `r` is exactly collinear with the
nearest vertex kept before it and the nearest vertex kept after it. -/
def RemovedCollinear (p r : Path64) (is_open_path : Bool) : Prop :=
  ∀ j, j < p.length → ¬ Kept p r j →
    ∃ a, a < p.length ∧ ∃ b, b < p.length ∧
      NearestKeptBefore p r is_open_path j a ∧ NearestKeptAfter p r is_open_path j b ∧
      CrossProduct (p.elem a) (p.elem j) (p.elem b) = 0

instance (p r : Path64) (k : Nat) : Decidable (Kept p r k) := by
  unfold Kept; infer_instance

instance (p r : Path64) (o : Bool) (j a : Nat) : Decidable (NearestKeptBefore p r o j a) := by
  unfold NearestKeptBefore; infer_instance

instance (p r : Path64) (o : Bool) (j b : Nat) : Decidable (NearestKeptAfter p r o j b) := by
  unfold NearestKeptAfter; infer_instance

instance (p r : Path64) (o : Bool) : Decidable (RemovedCollinear p r o) := by
  unfold RemovedCollinear; infer_instance

/-- Modelled from the spec: `Rect64` is declared in `clipper.core.h`, which is not
part of the sources at hand.  The spec's data model gives it four scalar bounds
(left, top, right, bottom). -/
structure Rect64 where
  left : Int
  top : Int
  right : Int
  bottom : Int
deriving DecidableEq

/-- Modelled from the spec: the default-constructed `Rect64()`, the canonical
empty rect with all four bounds zero. -/
def Rect64.zero : Rect64 := ⟨0, 0, 0, 0⟩

/-- Modelled from the spec: `Rect64::IsEmpty`, declared in `clipper.core.h`.  The
spec's invariant reads: a rect is empty iff `left > right` or `top > bottom`. -/
def Rect64.IsEmpty (r : Rect64) : Bool :=
  decide (r.left > r.right) || decide (r.top > r.bottom)

/-- The largest `int64_t`, `std::numeric_limits<int64_t>::max()`. -/
def INT64_MAX : Int := 9223372036854775807

/-- The smallest `int64_t`, `std::numeric_limits<int64_t>::lowest()`. -/
def INT64_MIN : Int := -9223372036854775808

/-- `MaxInvalidRect64` (lines 25-29). -/
def MaxInvalidRect64 : Rect64 := ⟨INT64_MAX, INT64_MAX, INT64_MIN, INT64_MIN⟩

/-- The body of the loops of `Bounds` (lines 183-186 and 198-201). -/
def boundsStep (r : Rect64) (pt : Point64) : Rect64 :=
  let r1 := if pt.x < r.left then { r with left := pt.x } else r
  let r2 := if pt.x > r1.right then { r1 with right := pt.x } else r1
  let r3 := if pt.y < r2.top then { r2 with top := pt.y } else r2
  if pt.y > r3.bottom then { r3 with bottom := pt.y } else r3

/-- `Bounds(const Path64&)` (lines 178-190). -/
def Bounds (path : Path64) : Rect64 :=
  let r := path.foldl boundsStep MaxInvalidRect64
  if r.IsEmpty then Rect64.zero else r

/-- `Bounds(const Paths64&)` (lines 192-205). -/
def BoundsPaths (paths : List Path64) : Rect64 :=
  let r := paths.foldl (fun r path => path.foldl boundsStep r) MaxInvalidRect64
  if r.IsEmpty then Rect64.zero else r

/-- The coordinates of a point fit `int64_t`. -/
def Point64.InRange (pt : Point64) : Prop :=
  INT64_MIN ≤ pt.x ∧ pt.x ≤ INT64_MAX ∧ INT64_MIN ≤ pt.y ∧ pt.y ≤ INT64_MAX

instance (pt : Point64) : Decidable pt.InRange := by
  unfold Point64.InRange; infer_instance

/-- The reference bounding box of a list of points: all zero when there is no
point, otherwise the minimum and maximum of each coordinate. -/
def boundsRef : List Point64 → Rect64
  | [] => Rect64.zero
  | p :: ps =>
    ⟨ps.foldl (fun m q => min m q.x) p.x, ps.foldl (fun m q => min m q.y) p.y,
      ps.foldl (fun m q => max m q.x) p.x, ps.foldl (fun m q => max m q.y) p.y⟩

/-! ## TrimCollinear with checked reads -/

/-- A checked read of `p[i]` (or `*it` for the iterator at position `i`): `none`
when the position is outside the buffer. -/
def Path64.read (p : Path64) (i : Nat) : Option Point64 := p[i]?

/-- A checked read of `*(it - 1)` for the iterator at position `i`: `none` when
`it` is `cbegin()` or the position before it is outside the buffer. -/
def Path64.readPrev (p : Path64) (i : Nat) : Option Point64 :=
  if i = 0 then none else p[i - 1]?

/-- The loop of line 401 with checked reads of `*stop`, `*srcIt`, `*(srcIt + 1)`. -/
def trimFrontChecked (p : Path64) (stop : Nat) : Nat → Nat → Option Nat
  | 0, srcIt => some srcIt
  | n + 1, srcIt => do
    let a ← p.read stop
    let b ← p.read srcIt
    let c ← p.read (srcIt + 1)
    if CrossProduct a b c = 0 then trimFrontChecked p stop n (srcIt + 1) else some srcIt

/-- The loop of line 403 with checked reads of `*(stop - 1)`, `*stop`, `*srcIt`. -/
def trimBackChecked (p : Path64) (srcIt : Nat) : Nat → Nat → Option Nat
  | 0, stop => some stop
  | n + 1, stop => do
    let a ← p.readPrev stop
    let b ← p.read stop
    let c ← p.read srcIt
    if CrossProduct a b c = 0 then trimBackChecked p srcIt n (stop - 1) else some stop

/-- The scan of lines 410-423 with checked reads of `*prevIt`, `*srcIt`,
`*(srcIt + 1)` and, when the test of line 417 gets that far, `*(prevIt - 1)`. -/
def trimScanChecked (p : Path64) (is_open_path : Bool) :
    Nat → Nat → Nat → Path64 → Option (Nat × Path64)
  | 0, _, prevIt, dst => some (prevIt, dst)
  | n + 1, srcIt, prevIt, dst => do
    let a ← p.read prevIt
    let b ← p.read srcIt
    let c ← p.read (srcIt + 1)
    if CrossProduct a b c ≠ 0 then
      trimScanChecked p is_open_path n (srcIt + 1) srcIt (dst ++ [b])
    else if is_open_path = false ∧ dst.length > 1 then do
      let a' ← p.readPrev prevIt
      if CrossProduct a' a b = 0 then
        trimScanChecked p is_open_path n (srcIt + 1) (prevIt - 1) dst.dropLast
      else trimScanChecked p is_open_path n (srcIt + 1) prevIt dst
    else trimScanChecked p is_open_path n (srcIt + 1) prevIt dst

/-- `TrimCollinear` (lines 386-432) with every element read checked: `none` as
soon as a read falls outside `p` or `dst`. -/
def TrimCollinearChecked (p : Path64) (is_open_path : Bool) : Option Path64 :=
  let len := p.length
  if len < 3 then
    if is_open_path = false ∨ len < 2 then some []
    else do
      let a ← p.read 0
      let b ← p.read 1
      if a = b then some [] else some p
  else do
    let srcIt0 ← if is_open_path then some 0 else trimFrontChecked p (len - 1) (len - 1) 0
    let stop ← if is_open_path then some (len - 1)
      else trimBackChecked p srcIt0 (len - 1 - srcIt0) (len - 1)
    if is_open_path = false ∧ srcIt0 = stop then some []
    else do
      let first ← p.read srcIt0
      let r ← trimScanChecked p is_open_path (stop - (srcIt0 + 1)) (srcIt0 + 1) srcIt0 [first]
      let last ← p.read stop
      if is_open_path then some (r.2 ++ [last])
      else do
        let a ← p.read r.1
        let d0 ← Path64.read r.2 0
        if CrossProduct a last d0 ≠ 0 then some (r.2 ++ [last])
        else if r.2.length < 3 then some []
        else some r.2

/-! ## The floating-coordinate wrappers -/

/-- The values of a C++ `double` as far as comparisons are concerned: not-a-number,
the two infinities, and the finite values (rationals; every finite double is
one). -/
inductive Dbl where
  | nan
  | negInf
  | finite (q : Rat)
  | posInf
deriving DecidableEq

/-- The comparison `a < b` of two doubles: false as soon as one is not-a-number. -/
def Dbl.lt : Dbl → Dbl → Bool
  | Dbl.nan, _ => false
  | _, Dbl.nan => false
  | Dbl.negInf, Dbl.negInf => false
  | Dbl.negInf, _ => true
  | Dbl.finite _, Dbl.negInf => false
  | Dbl.finite q, Dbl.finite r => decide (q < r)
  | Dbl.finite _, Dbl.posInf => true
  | Dbl.posInf, _ => false

/-- The conversion of an integer such as `-8`, `8` or an `int` precision to
`double`. -/
def Dbl.ofInt (n : Int) : Dbl := Dbl.finite n

/-- The collaborators of the floating-coordinate wrappers, none of which is part
of the sources at hand (`clipper.core.h`, `clipper.offset.h`, `<cmath>`).  The
arithmetic on doubles is `std::pow(10, .)`, `1 / scale` and `delta * scale`.
`ScalePath`, `ScalePaths` and the members of `ClipperOffset` work on a state `σ`
of the program (the memory they allocate and fill): each takes the state before
the call and returns its result together with the state after it.  `trimRun` is
what a run of the integer `TrimCollinear` of this file leaves in that state; its
result is the one of `TrimCollinear`. -/
structure FloatOps (σ PathD PathsD JoinType EndType Offset : Type) where
  pow10 : Dbl → Dbl
  inv : Dbl → Dbl
  mul : Dbl → Dbl → Dbl
  scalePathToInt : PathD → Dbl → σ → Path64 × σ
  scalePathToFloat : Path64 → Dbl → σ → PathD × σ
  scalePathsToInt : PathsD → Dbl → σ → List Path64 × σ
  scalePathsToFloat : List Path64 → Dbl → σ → PathsD × σ
  newOffset : Dbl → σ → Offset × σ
  addPaths : Offset → List Path64 → JoinType → EndType → σ → Offset × σ
  execute : Offset → Dbl → σ → List Path64 × σ
  trimRun : Path64 → Bool → σ → σ

/-- The message of the exception thrown at lines 134 and 437. -/
def precisionError : String := "Error: Precision exceeds the allowed range."

/-- `TrimCollinear(const PathD&, int precision, bool)` (lines 434-442), from the
state `w` of the program: the result or the exception thrown, and the state the
calls made so far have left. -/
def TrimCollinearD {σ PathD PathsD JoinType EndType Offset : Type}
    (ops : FloatOps σ PathD PathsD JoinType EndType Offset) (path : PathD) (precision : Int)
    (is_open_path : Bool) (w : σ) : Except String PathD × σ :=
  if precision > 8 ∨ precision < -8 then (Except.error precisionError, w)
  else
    let scale := ops.pow10 (Dbl.ofInt precision)
    let r1 := ops.scalePathToInt path scale w
    let p := TrimCollinear r1.1 is_open_path
    let w2 := ops.trimRun r1.1 is_open_path r1.2
    let r3 := ops.scalePathToFloat p (ops.inv scale) w2
    (Except.ok r3.1, r3.2)

/-- `InflatePaths(const PathsD&, double delta, JoinType, EndType, double
miter_limit, double precision)` (lines 130-140), from the state `w` of the
program: the result or the exception thrown, and the state the calls made so far
have left. -/
def InflatePathsD {σ PathD PathsD JoinType EndType Offset : Type}
    (ops : FloatOps σ PathD PathsD JoinType EndType Offset) (paths : PathsD) (delta : Dbl)
    (jt : JoinType) (et : EndType) (miter_limit : Dbl) (precision : Dbl) (w : σ) :
    Except String PathsD × σ :=
  if Dbl.lt precision (Dbl.ofInt (-8)) ∨ Dbl.lt (Dbl.ofInt 8) precision then
    (Except.error precisionError, w)
  else
    let scale := ops.pow10 precision
    let r1 := ops.newOffset miter_limit w
    let r2 := ops.scalePathsToInt paths scale r1.2
    let r3 := ops.addPaths r1.1 r2.1 jt et r2.2
    let r4 := ops.execute r3.1 (ops.mul delta scale) r3.2
    let r5 := ops.scalePathsToFloat r4.1 (ops.inv scale) r4.2
    (Except.ok r5.1, r5.2)

/-- The calls a collaborator can record. -/
inductive Work where
  | scaledToInt
  | trimmed
  | offsetCreated
  | pathsAdded
  | offsetExecuted
  | scaledToFloat
deriving DecidableEq

/-- Collaborators that do nothing but record their call: the state is the list of
the calls made so far, in order. -/
def logOps : FloatOps (List Work) Unit Unit Unit Unit Unit where
  pow10 := fun x => x
  inv := fun x => x
  mul := fun x _ => x
  scalePathToInt := fun _ _ w => ([], w ++ [Work.scaledToInt])
  scalePathToFloat := fun _ _ w => ((), w ++ [Work.scaledToFloat])
  scalePathsToInt := fun _ _ w => ([], w ++ [Work.scaledToInt])
  scalePathsToFloat := fun _ _ w => ((), w ++ [Work.scaledToFloat])
  newOffset := fun _ w => ((), w ++ [Work.offsetCreated])
  addPaths := fun _ _ _ _ w => ((), w ++ [Work.pathsAdded])
  execute := fun _ _ w => ([], w ++ [Work.offsetExecuted])
  trimRun := fun _ _ w => w ++ [Work.trimmed]

/-! ## MakePath

A `std::string` is the list of its characters (bytes), an iterator into it is the
text still ahead of it, and characters are compared by their codes.  `char` is
taken signed, as on the x86-64 targets: a byte of 128 or more is a negative
`char`, so that `*iter <= ' '` holds for it and `*chrs > 0` does not. -/

/-- The value an `int64_t` holds after an arithmetic result `z`: `z` reduced
modulo `2^64` into the range of `int64_t`. -/
def wrap64 (z : Int) : Int :=
  (z + 9223372036854775808) % 18446744073709551616 - 9223372036854775808

/-- The loop of lines 255-259 of `GetInt`: while the character under the iterator
is a decimal digit, `val = val * 10 + (*iter++ - '0')`, in the arithmetic of
`int64_t` with wrap-around. -/
def getDigits : List Char → Int → Int × List Char
  | [], val => (val, [])
  | c :: cs, val =>
    if 48 ≤ c.toNat ∧ c.toNat ≤ 57 then
      getDigits cs (wrap64 (val * 10 + ((c.toNat : Int) - 48)))
    else (val, c :: cs)

/-- `details::GetInt` (lines 248-262): whether a number was read, the value left
in `val`, and the iterator after the call.  At the end of the text `*iter` is
read as a character other than `'-'`. -/
def GetInt (iter : List Char) : Bool × Int × List Char :=
  let is_neg := decide (iter.head? = some '-')
  let start_iter := if is_neg then iter.tail else iter
  let r := getDigits start_iter 0
  let val := if is_neg then wrap64 (-r.1) else r.1
  (decide (r.2.length ≠ start_iter.length), val, r.2)

/-- The comparison `c <= ' '` on a signed `char`: the codes up to 32, and the
bytes from 128 on, which are negative. -/
def leSpace (c : Char) : Prop := c.toNat ≤ 32 ∨ 128 ≤ c.toNat

instance (c : Char) : Decidable (leSpace c) := by
  unfold leSpace; infer_instance

/-- `details::SkipWhiteSpace` (lines 292-296): `while (iter != end_iter && *iter <= ' ') ++iter`. -/
def SkipWhiteSpace : List Char → List Char
  | [] => []
  | c :: cs => if leSpace c then SkipWhiteSpace cs else c :: cs

/-- `details::SkipSpacesWithOptionalComma` (lines 298-313), with `comma_seen` as a
parameter of the loop. -/
def SkipSpacesWithOptionalComma : List Char → Bool → List Char
  | [], _ => []
  | c :: cs, comma_seen =>
    if c = ' ' then SkipSpacesWithOptionalComma cs comma_seen
    else if c = ',' then
      if comma_seen then c :: cs else SkipSpacesWithOptionalComma cs true
    else c :: cs

/-- `details::has_one_match` (lines 315-321): the buffer after the call when the
scan stopped on a character other than the terminating zero (which is then
overwritten by a space), `none` when it stopped on that zero.  The scan goes on
while `*chrs > 0 && c != *chrs`, so it stops on a match and on a negative byte
alike.  The buffer is the list of its characters up to the terminating zero. -/
def has_one_match (c : Char) : List Char → Option (List Char)
  | [] => none
  | b :: bs =>
    if (0 < b.toNat ∧ b.toNat < 128) ∧ c ≠ b then
      (has_one_match c bs).map (fun bs' => b :: bs')
    else if b.toNat = 0 then none
    else some (' ' :: bs)

/-- `details::SkipUserDefinedChars` (lines 324-333), for skip strings shorter than
the 16 characters of its buffer. -/
def SkipUserDefinedChars : List Char → List Char → List Char
  | [], _ => []
  | c :: cs, buff =>
    if leSpace c then SkipUserDefinedChars cs buff
    else
      match has_one_match c buff with
      | some buff' => SkipUserDefinedChars cs buff'
      | none => c :: cs

/-- The loop of `MakePath` (lines 354-365).  Every round that does not leave the
loop reads at least one digit, so the fuel `s.size() + 1` given by `MakePath` is
never used up (`makePathLoop_total`). -/
def makePathLoop (user_defined_skip : Bool) (skip_chars : List Char) :
    Nat → List Char → Path64 → Option Path64
  | 0, _, _ => none
  | fuel + 1, s_iter, result =>
    if s_iter = [] then some result
    else
      let gx := GetInt s_iter
      if gx.1 = false then some result
      else
        let s1 := SkipSpacesWithOptionalComma gx.2.2 false
        let gy := GetInt s1
        if gy.1 = false then some result
        else
          let s2 :=
            if user_defined_skip then SkipUserDefinedChars gy.2.2 skip_chars
            else SkipSpacesWithOptionalComma gy.2.2 false
          makePathLoop user_defined_skip skip_chars fuel s2 (result ++ [⟨gx.2.1, gy.2.1⟩])

/-- `MakePath` (lines 345-367) on a text and a string of skip characters (empty by
default). -/
def MakePath (s : List Char) (skip_chars : List Char) : Option Path64 :=
  let user_defined_skip := decide (skip_chars.length > 0 ∧ skip_chars ≠ [' '])
  let s_iter :=
    if user_defined_skip then SkipUserDefinedChars s skip_chars else SkipWhiteSpace s
  makePathLoop user_defined_skip skip_chars (s.length + 1) s_iter []

/-- The decimal text of an integer as the spec words it: the decimal digits of
its magnitude, with a leading `'-'` for negatives. -/
def showInt (z : Int) : List Char :=
  if z < 0 then '-' :: Nat.toDigits 10 z.natAbs else Nat.toDigits 10 z.natAbs

/-- The text of a list of points written in decimal with separators of one's
choice: each point comes with the separator between its two coordinates and the
separator that follows it (not written after the last point). -/
def renderWith : List (Point64 × List Char × List Char) → List Char
  | [] => []
  | [e] => showInt e.1.x ++ e.2.1 ++ showInt e.1.y
  | e :: e' :: rest =>
    showInt e.1.x ++ e.2.1 ++ showInt e.1.y ++ e.2.2 ++ renderWith (e' :: rest)

/-- The canonical text of a list of points as the spec words it: decimal `x`, a
comma, decimal `y`, and one space between consecutive points. -/
def showPath (pts : List Point64) : List Char :=
  renderWith (pts.map (fun p => (p, [','], [' '])))

/-- A separator of the text format as the code reads it: a non-empty run of
spaces that may contain a single comma. -/
def IsSeparator (s : List Char) : Prop :=
  s ≠ [] ∧ (∀ c ∈ s, c = ' ' ∨ c = ',') ∧ s.count ',' ≤ 1

/-- A separator as the spec words it: a non-empty run of spaces, tabs, newlines
and carriage returns that may contain a single comma. -/
def IsWhitespaceSeparator (s : List Char) : Prop :=
  s ≠ [] ∧ (∀ c ∈ s, c = ' ' ∨ c = '\t' ∨ c = '\n' ∨ c = '\r' ∨ c = ',') ∧ s.count ',' ≤ 1

instance (s : List Char) : Decidable (IsSeparator s) := by
  unfold IsSeparator; infer_instance

instance (s : List Char) : Decidable (IsWhitespaceSeparator s) := by
  unfold IsWhitespaceSeparator; infer_instance

/-! ## MakePath: the shape of a text (proof devices) -/

/-- The value of a run of decimal digits read after the value `acc`. -/
def digitsValue (ds : List Char) (acc : Int) : Int :=
  ds.foldl (fun v c => v * 10 + ((c.toNat : Int) - 48)) acc

/-- The character is a decimal digit. -/
def IsDigit (c : Char) : Prop := 48 ≤ c.toNat ∧ c.toNat ≤ 57

instance (c : Char) : Decidable (IsDigit c) := by
  unfold IsDigit; infer_instance

/-- The text is empty or starts with a character that is not a digit. -/
def NoDigitAhead (rest : List Char) : Prop := ∀ c ∈ rest.head?, ¬ IsDigit c

/-- The text starts with a digit or a minus sign. -/
def StartsNumber (s : List Char) : Prop := ∃ c cs, s = c :: cs ∧ (IsDigit c ∨ c = '-')

/-- The text ahead does not start with a space or a comma. -/
def NoSepAhead (rest : List Char) : Prop := ∀ c ∈ rest.head?, c ≠ ' ' ∧ c ≠ ','

/-- What may follow the last number of a text for the scan to stop there: nothing,
or one space and then a text that starts with neither a digit, a minus sign, a
space nor a comma. -/
def StopsScan (tl : List Char) : Prop :=
  tl = [] ∨ ∃ t, tl = ' ' :: t ∧ ∀ c ∈ t.head?, ¬ IsDigit c ∧ c ≠ '-' ∧ c ≠ ' ' ∧ c ≠ ','

/-! ## PointInPolygon: the inner loops -/

theorem skipSide_ge (pt : Point64) (polygon : Path64) (ia : Bool) :
    ∀ n cit, cit ≤ skipSide pt polygon ia n cit := by
  intro n
  induction n with
  | zero => intro cit; simp [skipSide]
  | succ n ih =>
    intro cit
    simp only [skipSide]
    split
    · exact Nat.le_trans (Nat.le_succ cit) (ih (cit + 1))
    · exact Nat.le_refl cit

theorem skipSide_le (pt : Point64) (polygon : Path64) (ia : Bool) :
    ∀ n cit, skipSide pt polygon ia n cit ≤ cit + n := by
  intro n
  induction n with
  | zero => intro cit; simp [skipSide]
  | succ n ih =>
    intro cit
    simp only [skipSide]
    split
    · have := ih (cit + 1); omega
    · omega

/-- Every vertex the inner loop passes is strictly on the skipped side. -/
theorem skipSide_skipped (pt : Point64) (polygon : Path64) (ia : Bool) :
    ∀ n cit j, cit ≤ j → j < skipSide pt polygon ia n cit →
      skipCond pt ia (polygon.elem j) = true := by
  intro n
  induction n with
  | zero => intro cit j h1 h2; simp [skipSide] at h2; omega
  | succ n ih =>
    intro cit j h1 h2
    simp only [skipSide] at h2
    split at h2
    · next hc =>
      rcases Nat.eq_or_lt_of_le h1 with h | h
      · subst h; exact hc
      · exact ih (cit + 1) j h h2
    · omega

/-- Where the inner loop stops short of its counter, the vertex is not on the skipped side. -/
theorem skipSide_stop (pt : Point64) (polygon : Path64) (ia : Bool) :
    ∀ n cit, skipSide pt polygon ia n cit < cit + n →
      skipCond pt ia (polygon.elem (skipSide pt polygon ia n cit)) = false := by
  intro n
  induction n with
  | zero => intro cit h; simp [skipSide] at h
  | succ n ih =>
    intro cit h
    simp only [skipSide] at h ⊢
    split
    · next hc =>
      rw [if_pos hc] at h
      exact ih (cit + 1) (by omega)
    · next hc => simpa using hc

theorem skipCond_of_y_eq (pt v : Point64) (ia : Bool) (h : v.y = pt.y) :
    skipCond pt ia v = false := by
  cases ia <;> simp [skipCond, h]

/-- The inner loop never passes a vertex that lies on the query's horizontal line. -/
theorem skipSide_le_of_y_eq (pt : Point64) (polygon : Path64) (ia : Bool) (n cit k : Nat)
    (hk : cit ≤ k) (hy : (polygon.elem k).y = pt.y) :
    skipSide pt polygon ia n cit ≤ k := by
  by_contra hlt
  have h1 := skipSide_skipped pt polygon ia n cit k hk (by omega)
  rw [skipCond_of_y_eq pt _ ia hy] at h1
  exact Bool.false_ne_true h1

theorem pipLoop_vertex (pt : Point64) (polygon : Path64) (k : Nat)
    (hk : k < polygon.length) (hv : polygon.elem k = pt) :
    ∀ fuel cit pit val ia fp, cit ≤ k → polygon.length < fuel + cit →
      pipLoop pt polygon fuel cit pit val ia fp = some PointInPolyResult.IsOn := by
  intro fuel
  induction fuel with
  | zero => intro cit pit val ia fp h1 h2; omega
  | succ fuel ih =>
    intro cit pit val ia fp h1 h2
    have hy : (polygon.elem k).y = pt.y := by rw [hv]
    have hle := skipSide_le_of_y_eq pt polygon ia (polygon.length - cit) cit k h1 hy
    have hge := skipSide_ge pt polygon ia (polygon.length - cit) cit
    simp only [pipLoop]
    rw [if_neg (by omega), if_neg (by omega)]
    generalize skipSide pt polygon ia (polygon.length - cit) cit = c at hle hge
    rcases Nat.eq_or_lt_of_le hle with h | h
    · subst h
      simp [hv]
    · have ih' := fun pit val ia => ih (c + 1) pit val ia false (by omega) (by omega)
      generalize (if fp = true then (if c ≠ 0 then c - 1 else pit) else c - 1) = pit'
      split_ifs <;> first | rfl | exact ih' _ _ _

/-- Claim C3: for every polygon with at least 3 vertices (simple or not,
duplicates allowed) and every vertex `v` of it, `PointInPolygon v polygon`
returns On-boundary. -/
theorem PointInPolygon_vertex (polygon : Path64) (v : Point64)
    (hlen : 3 ≤ polygon.length) (hv : v ∈ polygon) :
    PointInPolygon v polygon = some PointInPolyResult.IsOn := by
  obtain ⟨k, hk, hkv⟩ := List.mem_iff_getElem.mp hv
  have hv' : polygon.elem k = v := by
    rw [Path64.elem, List.getD_eq_getElem _ _ hk, hkv]
  unfold PointInPolygon
  rw [if_neg (by omega)]
  exact pipLoop_vertex v polygon k hk hv' _ 0 _ _ _ _ (Nat.zero_le k) (by omega)

/-- One round of the outer loop that has stopped at the end `b` of an edge
`a → b` through the query point, which is level with neither end. -/
theorem pipLoop_edge (pt : Point64) (polygon : Path64) (ai j : Nat)
    (hj : j < polygon.length)
    (hcross : CrossProduct (polygon.elem ai) (polygon.elem j) pt = 0)
    (hx1 : min (polygon.elem ai).x (polygon.elem j).x ≤ pt.x)
    (hx2 : pt.x ≤ max (polygon.elem ai).x (polygon.elem j).x)
    (hya : (polygon.elem ai).y ≠ pt.y) (hyb : (polygon.elem j).y ≠ pt.y)
    (hside : ((polygon.elem ai).y < pt.y ∧ pt.y < (polygon.elem j).y) ∨
      ((polygon.elem j).y < pt.y ∧ pt.y < (polygon.elem ai).y)) :
    ∀ fuel cit pit val ia fp, cit ≤ j →
      (cit = j → ia = decide ((polygon.elem ai).y < pt.y)) →
      (j = 0 → fp = true ∧ pit = ai) → (j ≠ 0 → ai = j - 1) →
      polygon.length < fuel + cit →
      pipLoop pt polygon fuel cit pit val ia fp = some PointInPolyResult.IsOn := by
  intro fuel
  induction fuel with
  | zero => intro cit pit val ia fp h1 _ _ _ h2; omega
  | succ fuel ih =>
    intro cit pit val ia fp h1 hia h0 h1' h2
    have hge := skipSide_ge pt polygon ia (polygon.length - cit) cit
    have hub := skipSide_le pt polygon ia (polygon.length - cit) cit
    have hskip := skipSide_skipped pt polygon ia (polygon.length - cit) cit
    have hstop := skipSide_stop pt polygon ia (polygon.length - cit) cit
    -- the inner loop cannot pass `j`
    have hle : skipSide pt polygon ia (polygon.length - cit) cit ≤ j := by
      by_contra hlt
      have hb := hskip j h1 (by omega)
      rcases Nat.eq_or_lt_of_le h1 with h | h
      · have hia2 := hia h
        cases ia <;> simp [skipCond] at hb hia2 <;> omega
      · have ha := hskip (j - 1) (by omega) (by omega)
        have : ai = j - 1 := h1' (by omega)
        subst this
        cases ia <;> simp [skipCond] at hb ha <;> omega
    simp only [pipLoop]
    rw [if_neg (by omega), if_neg (by omega)]
    generalize skipSide pt polygon ia (polygon.length - cit) cit = c at hle hge hub hskip hstop
    rcases Nat.eq_or_lt_of_le hle with h | h
    · subst h
      have hpit : (if fp = true then (if c ≠ 0 then c - 1 else pit) else c - 1) = ai := by
        by_cases hc : c = 0
        · obtain ⟨hfp, hp⟩ := h0 hc
          simp [hfp, hc, hp]
        · rw [h1' hc]; simp [hc]
      rw [hpit]
      have hia' : ia = decide ((polygon.elem ai).y < pt.y) := by
        rcases Nat.eq_or_lt_of_le h1 with h | h
        · exact hia h
        · have ha := hskip (c - 1) (by omega) (by omega)
          have : ai = c - 1 := h1' (by omega)
          subst this
          cases ia <;> simp [skipCond] at ha ⊢ <;> omega
      rw [if_neg hyb, if_neg (by
        intro hh; rcases min_le_iff.mp hx1 with h | h <;> omega), if_neg (by
        intro hh; rcases le_max_iff.mp hx2 with h | h <;> omega)]
      simp [hcross]
    · have hne0 : j ≠ 0 := by omega
      have hai := h1' hne0
      have ih' := fun pit val ia (hh : c + 1 = j → ia = decide ((polygon.elem ai).y < pt.y)) =>
        ih (c + 1) pit val ia false (by omega) hh (by omega) h1' (by omega)
      generalize (if fp = true then (if c ≠ 0 then c - 1 else pit) else c - 1) = pit'
      have hflip : c + 1 = j → (!ia) = decide ((polygon.elem ai).y < pt.y) := by
        intro hcj
        have hst := hstop (by omega)
        have : ai = c := by omega
        subst this
        cases ia <;> simp [skipCond] at hst ⊢ <;> omega
      have hsame : (polygon.elem c).y = pt.y → c + 1 = j →
          ia = decide ((polygon.elem ai).y < pt.y) := by
        intro hy hcj
        have : ai = c := by omega
        subst this
        exact absurd hy hya
      split_ifs with g1 g2 <;> first | rfl | exact ih' _ _ _ hflip | exact ih' _ _ _ (hsame g1)

theorem Point64.eq_of_coords {a b : Point64} (hx : a.x = b.x) (hy : a.y = b.y) : a = b := by
  cases a; cases b; simp_all

/-- Claim C5: for every polygon with at least 3 vertices and every query point
`q` on a non-horizontal edge (the closed segment between the cyclically
consecutive vertices at positions `i` and `i + 1`, the closing edge included,
whose ends differ in `y`), `PointInPolygon q polygon` returns On-boundary. -/
theorem PointInPolygon_on_edge (polygon : Path64) (q : Point64) (i : Nat)
    (hlen : 3 ≤ polygon.length) (hi : i < polygon.length)
    (hne : (polygon.elem i).y ≠ (polygon.elem ((i + 1) % polygon.length)).y)
    (hon : OnSegment (polygon.elem i) (polygon.elem ((i + 1) % polygon.length)) q) :
    PointInPolygon q polygon = some PointInPolyResult.IsOn := by
  obtain ⟨hcross, hx1, hx2, hy1, hy2⟩ := hon
  have hjlt : (i + 1) % polygon.length < polygon.length := Nat.mod_lt _ (by omega)
  unfold PointInPolygon
  rw [if_neg (by omega)]
  by_cases hqa : (polygon.elem i).y = q.y
  · -- level with the first end: `q` is that vertex
    have hxa : (polygon.elem i).x = q.x := by
      unfold CrossProduct at hcross
      rw [← hqa] at hcross
      have h0 : ((polygon.elem i).y - (polygon.elem ((i + 1) % polygon.length)).y) *
          (q.x - (polygon.elem i).x) = 0 := by linear_combination hcross
      rcases mul_eq_zero.mp h0 with h | h <;> omega
    exact pipLoop_vertex q polygon i hi (Point64.eq_of_coords hxa hqa) _ 0 _ _ _ _
      (Nat.zero_le i) (by omega)
  by_cases hqb : (polygon.elem ((i + 1) % polygon.length)).y = q.y
  · have hxb : (polygon.elem ((i + 1) % polygon.length)).x = q.x := by
      unfold CrossProduct at hcross
      rw [← hqb] at hcross
      have h0 : ((polygon.elem ((i + 1) % polygon.length)).y - (polygon.elem i).y) *
          (q.x - (polygon.elem ((i + 1) % polygon.length)).x) = 0 := by
        linear_combination -hcross
      rcases mul_eq_zero.mp h0 with h | h <;> omega
    exact pipLoop_vertex q polygon _ hjlt (Point64.eq_of_coords hxb hqb) _ 0 _ _ _ _
      (Nat.zero_le _) (by omega)
  have hside : ((polygon.elem i).y < q.y ∧ q.y < (polygon.elem ((i + 1) % polygon.length)).y) ∨
      ((polygon.elem ((i + 1) % polygon.length)).y < q.y ∧ q.y < (polygon.elem i).y) := by
    rcases le_total (polygon.elem i).y (polygon.elem ((i + 1) % polygon.length)).y with h | h
    · rw [min_eq_left h] at hy1; rw [max_eq_right h] at hy2; left; omega
    · rw [min_eq_right h] at hy1; rw [max_eq_left h] at hy2; right; omega
  by_cases hwrap : i + 1 = polygon.length
  · have hj0 : (i + 1) % polygon.length = 0 := by rw [hwrap, Nat.mod_self]
    have hil : polygon.length - 1 = i := by omega
    apply pipLoop_edge q polygon i ((i + 1) % polygon.length) hjlt hcross hx1 hx2 hqa hqb hside
    · omega
    · intro _; rw [hil]
    · intro _; exact ⟨rfl, hil⟩
    · intro h; exact absurd hj0 h
    · omega
  · have hj : (i + 1) % polygon.length = i + 1 := Nat.mod_eq_of_lt (by omega)
    apply pipLoop_edge q polygon i ((i + 1) % polygon.length) hjlt hcross hx1 hx2 hqa hqb hside
    · omega
    · intro h; omega
    · intro h; omega
    · intro _; omega
    · omega

/-- The outer loop of `PointInPolygon` returns a result whenever its fuel
exceeds the number of vertices still ahead of `cit`. -/
theorem pipLoop_total (pt : Point64) (polygon : Path64) :
    ∀ fuel cit pit val ia fp, cit ≤ polygon.length → polygon.length < fuel + cit →
      ∃ r, pipLoop pt polygon fuel cit pit val ia fp = some r := by
  intro fuel
  induction fuel with
  | zero => intro cit pit val ia fp h1 h2; omega
  | succ fuel ih =>
    intro cit pit val ia fp h1 h2
    have hge := skipSide_ge pt polygon ia (polygon.length - cit) cit
    have hub := skipSide_le pt polygon ia (polygon.length - cit) cit
    simp only [pipLoop]
    generalize skipSide pt polygon ia (polygon.length - cit) cit = c at hge hub
    generalize (if fp = true then (if c ≠ 0 then c - 1 else pit) else c - 1) = pit'
    have ih' := fun pit val ia => ih (c + 1) pit val ia false
    split_ifs <;> first | exact ⟨_, rfl⟩ | exact ih' _ _ _ (by omega) (by omega)

/-- `PointInPolygon` always returns a result. -/
theorem PointInPolygon_total (pt : Point64) (polygon : Path64) :
    ∃ r, PointInPolygon pt polygon = some r := by
  unfold PointInPolygon
  split_ifs
  · exact ⟨_, rfl⟩
  · exact pipLoop_total pt polygon _ 0 _ _ _ _ (Nat.zero_le _) (by omega)

/-! ## PointInPolygon: the claims -/

/-- Claim C1, evaluated where the code departs from it: the point `(15,10)` lies
strictly to the right of every vertex of the square `[(0,0),(10,0),(10,10),(0,10)]`
(so it is outside the square and on none of its edges), and `PointInPolygon`
returns Inside. -/
theorem PointInPolygon_right_of_square :
    PointInPolygon ⟨15, 10⟩ square10 = some PointInPolyResult.IsInside ∧
      (∀ v ∈ square10, v.x < 15) ∧
      (∀ i < 4, ¬ OnSegment (square10.elem i) (square10.elem ((i + 1) % 4)) ⟨15, 10⟩) := by
  decide

/-- Claim C2, evaluated where the code departs from it: on the rectangle with
`x0 = y0 = 0`, `x1 = y1 = 10` the scenario's three queries are classified as the
claim says, but `(5,0)` on the bottom side is reported Outside, `(5,10)` on the
top side is reported Inside, and `(15,10)`, outside the rectangle, is reported
Inside. -/
theorem PointInPolygon_rectangle_sides :
    PointInPolygon ⟨5, 5⟩ square10 = some PointInPolyResult.IsInside ∧
      PointInPolygon ⟨15, 5⟩ square10 = some PointInPolyResult.IsOutside ∧
      PointInPolygon ⟨10, 5⟩ square10 = some PointInPolyResult.IsOn ∧
      PointInPolygon ⟨5, 0⟩ square10 = some PointInPolyResult.IsOutside ∧
      PointInPolygon ⟨5, 10⟩ square10 = some PointInPolyResult.IsInside ∧
      PointInPolygon ⟨15, 10⟩ square10 = some PointInPolyResult.IsInside := by
  decide

/-- The witness of claim C3: the vertex `(10,10)` of the scenario's square. -/
theorem PointInPolygon_vertex_witness :
    3 ≤ square10.length ∧ (⟨10, 10⟩ : Point64) ∈ square10 ∧
      PointInPolygon ⟨10, 10⟩ square10 = some PointInPolyResult.IsOn :=
  ⟨by decide, by decide, PointInPolygon_vertex square10 ⟨10, 10⟩ (by decide) (by decide)⟩

/-- Claim C4, evaluated where the code departs from it: `(5,0)` lies on the
horizontal edge from `(0,0)` to `(10,0)` of the square, and `PointInPolygon`
returns Outside: the horizontal-edge test of line 478 compares `pt.x < pit->x`
with itself and never holds. -/
theorem PointInPolygon_horizontal_edge :
    (square10.elem 0).y = 0 ∧ (square10.elem 1).y = 0 ∧
      OnSegment (square10.elem 0) (square10.elem 1) ⟨5, 0⟩ ∧
      PointInPolygon ⟨5, 0⟩ square10 = some PointInPolyResult.IsOutside := by
  decide

/-- The witness of claim C5: `(10,5)` on the edge from `(10,0)` to `(10,10)`. -/
theorem PointInPolygon_on_edge_witness :
    3 ≤ square10.length ∧ 1 < square10.length ∧
      (square10.elem 1).y ≠ (square10.elem ((1 + 1) % square10.length)).y ∧
      OnSegment (square10.elem 1) (square10.elem ((1 + 1) % square10.length)) ⟨10, 5⟩ ∧
      PointInPolygon ⟨10, 5⟩ square10 = some PointInPolyResult.IsOn :=
  ⟨by decide, by decide, by decide, by decide,
    PointInPolygon_on_edge square10 ⟨10, 5⟩ 1 (by decide) (by decide) (by decide) (by decide)⟩

/-! ## Exact collinearity -/

theorem CrossProduct_self_left (a c : Point64) : CrossProduct a a c = 0 := by
  unfold CrossProduct; ring

theorem CrossProduct_self_right (a b : Point64) : CrossProduct a b b = 0 := by
  unfold CrossProduct; ring

theorem CrossProduct_self_outer (a b : Point64) : CrossProduct a b a = 0 := by
  unfold CrossProduct; ring

theorem CrossProduct_swap (a b c : Point64) : CrossProduct b a c = - CrossProduct a b c := by
  unfold CrossProduct; ring

theorem CrossProduct_rotate (a b c : Point64) : CrossProduct b c a = CrossProduct a b c := by
  unfold CrossProduct; ring

theorem Point64.coord_ne {a b : Point64} (h : a ≠ b) : a.x ≠ b.x ∨ a.y ≠ b.y := by
  by_contra hc
  push_neg at hc
  exact h (Point64.eq_of_coords hc.1 hc.2)

/-- Three points on the line through two distinct points are collinear. -/
theorem collinear_of_line {a b c d e : Point64} (hab : a ≠ b)
    (hc : CrossProduct a b c = 0) (hd : CrossProduct a b d = 0)
    (he : CrossProduct a b e = 0) : CrossProduct c d e = 0 := by
  unfold CrossProduct at *
  rcases Point64.coord_ne hab with h | h
  · have h0 : (b.x - a.x) * ((d.x - c.x) * (e.y - d.y) - (d.y - c.y) * (e.x - d.x)) = 0 := by
      linear_combination (d.x - c.x) * he + (c.x - e.x) * hd + (e.x - d.x) * hc
    rcases mul_eq_zero.mp h0 with h1 | h1
    · omega
    · exact h1
  · have h0 : (b.y - a.y) * ((d.x - c.x) * (e.y - d.y) - (d.y - c.y) * (e.x - d.x)) = 0 := by
      linear_combination (d.y - c.y) * he + (c.y - e.y) * hd + (e.y - d.y) * hc
    rcases mul_eq_zero.mp h0 with h1 | h1
    · omega
    · exact h1

theorem cross_zero_swap12 {a b c : Point64} (h : CrossProduct a b c = 0) :
    CrossProduct b a c = 0 := by
  rw [CrossProduct_swap, h]; rfl

theorem cross_zero_rotate {a b c : Point64} (h : CrossProduct a b c = 0) :
    CrossProduct b c a = 0 := by
  rw [CrossProduct_rotate, h]

theorem cross_zero_swap23 {a b c : Point64} (h : CrossProduct a b c = 0) :
    CrossProduct a c b = 0 :=
  cross_zero_rotate (cross_zero_swap12 h)

/-- A vertex `b` not collinear with `a` and `c` stays so when `c` is replaced by
another point `d ≠ b` of the line through `b` and `c`. -/
theorem cross_ne_transfer {a b c d : Point64} (h : CrossProduct a b c ≠ 0)
    (hd : CrossProduct b c d = 0) (hbd : b ≠ d) : CrossProduct a b d ≠ 0 := by
  intro h0
  apply h
  exact collinear_of_line hbd (cross_zero_rotate h0) (CrossProduct_self_outer b d)
    (cross_zero_swap23 hd)

/-- The same with the first point moved along the line through `a` and `b`. -/
theorem cross_ne_transfer_left {a b c e : Point64} (h : CrossProduct a b c ≠ 0)
    (he : CrossProduct e a b = 0) (heb : e ≠ b) : CrossProduct e b c ≠ 0 := by
  intro h0
  apply h
  -- line through `e` and `b` carries `a`, `b`, `c`
  exact collinear_of_line heb (cross_zero_swap23 he) (CrossProduct_self_right e b) h0

theorem Path64.elem_eq_getElem (p : Path64) (i : Nat) (h : i < p.length) :
    p.elem i = p[i] := by
  rw [Path64.elem, List.getD_eq_getElem _ _ h]

/-- In a path without repeated vertices, positions with equal vertices are equal. -/
theorem Path64.elem_inj {p : Path64} (hp : p.Nodup) {i j : Nat} (hi : i < p.length)
    (hj : j < p.length) (h : p.elem i = p.elem j) : i = j := by
  rw [Path64.elem_eq_getElem p i hi, Path64.elem_eq_getElem p j hj] at h
  exact (List.Nodup.getElem_inj_iff hp).mp h

theorem Path64.elem_ne {p : Path64} (hp : p.Nodup) {i j : Nat} (hi : i < p.length)
    (hj : j < p.length) (h : i ≠ j) : p.elem i ≠ p.elem j :=
  fun he => h (Path64.elem_inj hp hi hj he)

/-! ## The scan of TrimCollinear -/

theorem scanIdx_bounds (p : Path64) :
    ∀ n src prev k, k ∈ scanIdx p n src prev → src ≤ k ∧ k < src + n := by
  intro n
  induction n with
  | zero => intro src prev k hk; simp [scanIdx] at hk
  | succ n ih =>
    intro src prev k hk
    simp only [scanIdx] at hk
    split_ifs at hk
    · rcases List.mem_cons.mp hk with h | h
      · omega
      · have := ih _ _ _ h; omega
    · have := ih _ _ _ hk; omega

theorem RunOnLine.extend {p : Path64} (hp : p.Nodup) {prev src : Nat} (h : RunOnLine p prev src)
    (hlt : prev < src) (hlen : src < p.length)
    (hc : CrossProduct (p.elem prev) (p.elem src) (p.elem (src + 1)) = 0) :
    RunOnLine p prev (src + 1) := by
  intro j h1 h2
  rcases Nat.eq_or_lt_of_le h2 with hj | hj
  · subst hj
    have hne : p.elem prev ≠ p.elem src := Path64.elem_ne hp (by omega) hlen (by omega)
    exact collinear_of_line hne (CrossProduct_self_outer _ _)
      (cross_zero_swap23 (h src hlt (Nat.le_refl _))) hc
  · exact h j h1 (by omega)

theorem scanIdx_chain {p : Path64} (hp : p.Nodup) :
    ∀ n src prev, prev < src → src + n ≤ p.length → RunOnLine p prev src →
      List.Chain (KeptStep p) prev (scanIdx p n src prev) ∧
        RunOnLine p ((scanIdx p n src prev).getLastD prev) (src + n) ∧
        prev ≤ (scanIdx p n src prev).getLastD prev ∧
        (scanIdx p n src prev).getLastD prev < src + n := by
  intro n
  induction n with
  | zero =>
    intro src prev h1 h2 h3
    simp only [scanIdx, List.getLastD]
    exact ⟨List.Chain.nil, h3, Nat.le_refl _, by omega⟩
  | succ n ih =>
    intro src prev h1 h2 h3
    simp only [scanIdx]
    split_ifs with hc
    · have hrun : RunOnLine p src (src + 1) := by
        intro j hj1 hj2
        have : j = src + 1 := by omega
        subst this
        exact CrossProduct_self_right _ _
      obtain ⟨c1, c2, c3, c4⟩ := ih (src + 1) src (by omega) (by omega) hrun
      refine ⟨List.Chain.cons ⟨h1, hc, fun j hj1 hj2 => h3 j hj1 hj2⟩ c1, ?_, ?_, ?_⟩
      · rw [List.getLastD_cons]; rw [show src + (n + 1) = src + 1 + n by omega]; exact c2
      · rw [List.getLastD_cons]; omega
      · rw [List.getLastD_cons]; omega
    · have hc0 : CrossProduct (p.elem prev) (p.elem src) (p.elem (src + 1)) = 0 := by
        by_contra h; exact hc h
      obtain ⟨c1, c2, c3, c4⟩ := ih (src + 1) prev (by omega) (by omega)
        (h3.extend hp h1 (by omega) hc0)
      refine ⟨c1, ?_, c3, by omega⟩
      rw [show src + (n + 1) = src + 1 + n by omega]; exact c2

/-- On an open path the scan keeps exactly the positions of `scanIdx`. -/
theorem trimScan_open (p : Path64) :
    ∀ n src prev dst, trimScan p true n src prev dst =
      ((scanIdx p n src prev).getLastD prev, dst ++ (scanIdx p n src prev).map p.elem) := by
  intro n
  induction n with
  | zero => intro src prev dst; simp [trimScan, scanIdx]
  | succ n ih =>
    intro src prev dst
    simp only [trimScan, scanIdx]
    split_ifs with hc h2
    · rw [ih, List.getLastD_cons, List.map_cons, List.append_assoc]; rfl
    · simp at h2
    · rw [ih]

/-- The cascade of lines 417-422 is not taken on a path without repeated
vertices: the kept vertex before `prevIt` keeps it off the line of the run. -/
theorem no_cascade {p : Path64} (hp : p.Nodup) {a prev src : Nat}
    (hk : KeptStep p a prev) (hlt : prev < src) (hlen : src < p.length)
    (hrun : RunOnLine p prev src) :
    CrossProduct (p.elem (prev - 1)) (p.elem prev) (p.elem src) ≠ 0 := by
  obtain ⟨hap, hne, hline⟩ := hk
  have h1 : CrossProduct (p.elem a) (p.elem prev) (p.elem src) ≠ 0 :=
    cross_ne_transfer hne (hrun src hlt (Nat.le_refl _))
      (Path64.elem_ne hp (by omega) hlen (by omega))
  have h2 : CrossProduct (p.elem (prev - 1)) (p.elem a) (p.elem prev) = 0 := by
    by_cases ha : a = prev - 1
    · rw [← ha]; exact CrossProduct_self_left _ _
    · exact collinear_of_line (Path64.elem_ne hp (by omega) (by omega) (by omega))
        (hline (prev - 1) (by omega) (by omega)) (CrossProduct_self_outer _ _)
        (hline prev hap (Nat.le_refl _))
  exact cross_ne_transfer_left h1 h2 (Path64.elem_ne hp (by omega) (by omega) (by omega))

/-- On a closed path without repeated vertices the scan keeps exactly the
positions of `scanIdx`. -/
theorem trimScan_closed {p : Path64} (hp : p.Nodup) :
    ∀ n src prev dst, prev < src → src + n ≤ p.length → RunOnLine p prev src →
      (1 < dst.length → ∃ a, KeptStep p a prev) →
      trimScan p false n src prev dst =
        ((scanIdx p n src prev).getLastD prev, dst ++ (scanIdx p n src prev).map p.elem) := by
  intro n
  induction n with
  | zero => intro src prev dst _ _ _ _; simp [trimScan, scanIdx]
  | succ n ih =>
    intro src prev dst h1 h2 h3 h4
    simp only [trimScan, scanIdx]
    split_ifs with hc hcas
    · have hrun : RunOnLine p src (src + 1) := by
        intro j hj1 hj2
        have : j = src + 1 := by omega
        subst this
        exact CrossProduct_self_right _ _
      rw [ih (src + 1) src _ (by omega) (by omega) hrun
        (fun _ => ⟨prev, h1, hc, fun j hj1 hj2 => h3 j hj1 hj2⟩),
        List.getLastD_cons, List.map_cons, List.append_assoc]
      rfl
    · obtain ⟨_, hlen, hz⟩ := hcas
      obtain ⟨a, ha⟩ := h4 hlen
      exact absurd hz (no_cascade hp ha h1 (by omega) h3)
    · have hc0 : CrossProduct (p.elem prev) (p.elem src) (p.elem (src + 1)) = 0 := by
        by_contra h; exact hc h
      rw [ih (src + 1) prev dst (by omega) (by omega) (h3.extend hp h1 (by omega) hc0) h4]

/-! ## The two trimming loops of a closed path -/

theorem trimFront_spec (p : Path64) (L : Nat) :
    ∀ n i, i ≤ trimFront p L n i ∧ trimFront p L n i ≤ i + n ∧
      (∀ j, i ≤ j → j < trimFront p L n i →
        CrossProduct (p.elem L) (p.elem j) (p.elem (j + 1)) = 0) ∧
      (trimFront p L n i < i + n →
        CrossProduct (p.elem L) (p.elem (trimFront p L n i))
          (p.elem (trimFront p L n i + 1)) ≠ 0) := by
  intro n
  induction n with
  | zero => intro i; simp [trimFront]; intro j h1 h2; omega
  | succ n ih =>
    intro i
    simp only [trimFront]
    split_ifs with hc
    · obtain ⟨a, b, c, d⟩ := ih (i + 1)
      refine ⟨by omega, by omega, ?_, fun h => d (by omega)⟩
      intro j h1 h2
      rcases Nat.eq_or_lt_of_le h1 with h | h
      · subst h; exact hc
      · exact c j h h2
    · exact ⟨Nat.le_refl _, by omega, fun j h1 h2 => by omega, fun _ => hc⟩

theorem trimBack_spec (p : Path64) (s : Nat) :
    ∀ n t0, n ≤ t0 → trimBack p s n t0 ≤ t0 ∧ t0 ≤ trimBack p s n t0 + n ∧
      (∀ j, trimBack p s n t0 < j → j ≤ t0 →
        CrossProduct (p.elem (j - 1)) (p.elem j) (p.elem s) = 0) ∧
      (t0 < trimBack p s n t0 + n →
        CrossProduct (p.elem (trimBack p s n t0 - 1)) (p.elem (trimBack p s n t0))
          (p.elem s) ≠ 0) := by
  intro n
  induction n with
  | zero => intro t0 _; simp [trimBack]; intro j h1 h2; omega
  | succ n ih =>
    intro t0 hn
    simp only [trimBack]
    split_ifs with hc
    · obtain ⟨a, b, c, d⟩ := ih (t0 - 1) (by omega)
      refine ⟨by omega, by omega, ?_, fun h => d (by omega)⟩
      intro j h1 h2
      rcases Nat.eq_or_lt_of_le h2 with h | h
      · subst h; exact hc
      · exact c j h1 (by omega)
    · exact ⟨Nat.le_refl _, by omega, fun j h1 h2 => by omega, fun _ => hc⟩

/-- The vertices the first trimming loop passes lie on the line through the
last vertex and the first one. -/
theorem front_on_line {p : Path64} (hp : p.Nodup) {L s : Nat} (hL : L < p.length)
    (hs : s < L)
    (h : ∀ j, j < s → CrossProduct (p.elem L) (p.elem j) (p.elem (j + 1)) = 0) :
    ∀ j, j ≤ s → CrossProduct (p.elem L) (p.elem 0) (p.elem j) = 0 := by
  intro j
  induction j with
  | zero => intro _; exact CrossProduct_self_right _ _
  | succ j ih =>
    intro hj
    have h1 := ih (by omega)
    have h2 := h j (by omega)
    exact collinear_of_line (Path64.elem_ne hp hL (by omega) (by omega : L ≠ j))
      (CrossProduct_self_outer _ _) (cross_zero_swap23 h1) h2

/-- The vertices the second trimming loop passes lie on the line through the
start of the scan and the last vertex. -/
theorem back_on_line {p : Path64} (hp : p.Nodup) {L s t : Nat} (hL : L < p.length)
    (hst : s < t) (htL : t ≤ L)
    (h : ∀ j, t < j → j ≤ L → CrossProduct (p.elem (j - 1)) (p.elem j) (p.elem s) = 0) :
    ∀ k, k ≤ L - t → CrossProduct (p.elem s) (p.elem L) (p.elem (L - k)) = 0 := by
  intro k
  induction k with
  | zero => intro _; exact CrossProduct_self_right _ _
  | succ k ih =>
    intro hk
    have h1 := ih (by omega)
    have h2 := h (L - k) (by omega) (by omega)
    rw [show L - k - 1 = L - (k + 1) by omega] at h2
    exact collinear_of_line (Path64.elem_ne hp (by omega) (by omega) (by omega : s ≠ L - k))
      (CrossProduct_self_outer _ _) (cross_zero_swap23 h1)
      (cross_zero_swap12 (cross_zero_rotate h2))

/-! ## Kept positions as a sequence -/

theorem KeptStep.link {p : Path64} {a b : Nat} (h : KeptStep p a b) : Link p a b :=
  ⟨h.1, h.2.2⟩

theorem chain_getD {R : Nat → Nat → Prop} {a : Nat} {l : List Nat} (h : List.Chain R a l) :
    ∀ i, i < l.length → R ((a :: l).getD i 0) ((a :: l).getD (i + 1) 0) := by
  induction h with
  | nil => intro i hi; simp at hi
  | @cons a b l hab _ ih =>
    intro i hi
    cases i with
    | zero => simpa using hab
    | succ i =>
      have := ih i (by simpa using hi)
      simpa using this

theorem map_elem_getD (p : Path64) (K : List Nat) (i : Nat) (hi : i < K.length) :
    Path64.elem (K.map p.elem) i = p.elem (K.getD i 0) := by
  unfold Path64.elem
  rw [List.getD_eq_getElem _ _ (by simpa using hi), List.getD_eq_getElem _ _ hi]
  simp [Path64.elem]

/-- Between two consecutive kept positions every vertex is collinear with the two
kept ones. -/
theorem Link.between {p : Path64} (hp : p.Nodup) {a b : Nat} (h : Link p a b)
    (hb : b < p.length) : ∀ j, a < j → j < b →
      CrossProduct (p.elem a) (p.elem j) (p.elem b) = 0 := by
  intro j h1 h2
  exact collinear_of_line (Path64.elem_ne hp (by omega) (by omega) (by omega : a ≠ a + 1))
    (CrossProduct_self_outer _ _) (h.2 j h1 (by omega)) (h.2 b h.1 (Nat.le_refl _))

/-- A kept vertex stays non-collinear when its successor in the source is
replaced by the next kept vertex. -/
theorem Link.noncol {p : Path64} (hp : p.Nodup) {a b c : Nat}
    (h : CrossProduct (p.elem a) (p.elem b) (p.elem (b + 1)) ≠ 0) (hl : Link p b c)
    (hc : c < p.length) : CrossProduct (p.elem a) (p.elem b) (p.elem c) ≠ 0 :=
  cross_ne_transfer h (hl.2 c hl.1 (Nat.le_refl _))
    (Path64.elem_ne hp (by have := hl.1; omega) hc (by have := hl.1; omega))

theorem seq_mono {k : Nat → Nat} {m : Nat} (h : ∀ i, i + 1 < m → k i < k (i + 1)) :
    ∀ j i, i < j → j < m → k i < k j := by
  intro j
  induction j with
  | zero => intro i h1; omega
  | succ j ih =>
    intro i h1 h2
    have hs := h j h2
    rcases Nat.eq_or_lt_of_le (Nat.lt_succ_iff.mp h1) with he | hl
    · subst he; exact hs
    · exact Nat.lt_trans (ih i hl (by omega)) hs

theorem getD_length_cons (a : Nat) (l : List Nat) :
    (a :: l).getD l.length 0 = l.getLastD a := by
  induction l generalizing a with
  | nil => rfl
  | cons b l ih =>
    have := ih b
    rw [List.getLastD_cons]
    simpa using this

theorem TrimCollinear_closed_unfold (p : Path64) (hlen : 3 ≤ p.length) :
    TrimCollinear p false =
      if closedStart p = closedStop p then []
      else if CrossProduct (p.elem (trimScan p false (closedStop p - (closedStart p + 1))
          (closedStart p + 1) (closedStart p) [p.elem (closedStart p)]).1)
          (p.elem (closedStop p))
          (Path64.elem (trimScan p false (closedStop p - (closedStart p + 1))
          (closedStart p + 1) (closedStart p) [p.elem (closedStart p)]).2 0) ≠ 0 then
        (trimScan p false (closedStop p - (closedStart p + 1))
          (closedStart p + 1) (closedStart p) [p.elem (closedStart p)]).2 ++ [p.elem (closedStop p)]
      else if (trimScan p false (closedStop p - (closedStart p + 1))
          (closedStart p + 1) (closedStart p) [p.elem (closedStart p)]).2.length < 3 then []
      else (trimScan p false (closedStop p - (closedStart p + 1))
          (closedStart p + 1) (closedStart p) [p.elem (closedStart p)]).2 := by
  unfold TrimCollinear closedStop closedStart
  simp only [if_neg (show ¬ p.length < 3 by omega), Bool.false_eq_true, if_false, true_and]

theorem closedStart_le_stop (p : Path64) : closedStart p ≤ closedStop p ∧
    closedStop p ≤ p.length - 1 := by
  have hf := trimFront_spec p (p.length - 1) (p.length - 1) 0
  have hb := trimBack_spec p (closedStart p) (p.length - 1 - closedStart p) (p.length - 1)
    (by omega)
  have h1 := hb.1
  have h2 := hb.2.1
  have h3 : closedStart p ≤ p.length - 1 := by
    have := hf.2.1; unfold closedStart; omega
  unfold closedStop
  omega

/-- The closed branch of `TrimCollinear` on a path without repeated vertices, in
terms of the kept positions. -/
theorem TrimCollinear_closed_eq {p : Path64} (hp : p.Nodup) (hlen : 3 ≤ p.length) :
    TrimCollinear p false =
      if closedStart p = closedStop p then []
      else if CrossProduct (p.elem ((closedScan p).getLastD (closedStart p)))
          (p.elem (closedStop p)) (p.elem (closedStart p)) ≠ 0 then
        ((closedStart p :: closedScan p) ++ [closedStop p]).map p.elem
      else if (closedStart p :: closedScan p).length < 3 then []
      else (closedStart p :: closedScan p).map p.elem := by
  rw [TrimCollinear_closed_unfold p hlen]
  by_cases hst : closedStart p = closedStop p
  · simp [hst]
  · rw [if_neg hst, if_neg hst]
    obtain ⟨hs, hL⟩ := closedStart_le_stop p
    have hscan := trimScan_closed hp (closedStop p - (closedStart p + 1)) (closedStart p + 1)
      (closedStart p) [p.elem (closedStart p)] (by omega) (by omega)
      (by
        intro j hj1 hj2
        have : j = closedStart p + 1 := by omega
        subst this
        exact CrossProduct_self_right _ _)
      (by simp)
    rw [hscan]
    simp [closedScan, Path64.elem]

/-- What the two trimming loops and the scan establish on a closed path without
repeated vertices. -/
theorem closed_facts {p : Path64} (hp : p.Nodup) (hlen : 3 ≤ p.length)
    (hst : closedStart p ≠ closedStop p) :
    closedStart p < closedStop p ∧ closedStop p ≤ p.length - 1 ∧
      List.Chain (KeptStep p) (closedStart p) (closedScan p) ∧
      RunOnLine p ((closedScan p).getLastD (closedStart p)) (closedStop p) ∧
      closedStart p ≤ (closedScan p).getLastD (closedStart p) ∧
      (closedScan p).getLastD (closedStart p) < closedStop p ∧
      CrossProduct (p.elem (closedStop p)) (p.elem (closedStart p))
        (p.elem (closedStart p + 1)) ≠ 0 ∧
      (∀ j, j < p.length → (j ≤ closedStart p ∨ closedStop p ≤ j) →
        CrossProduct (p.elem (closedStart p)) (p.elem (p.length - 1)) (p.elem j) = 0) := by
  obtain ⟨hs, hL⟩ := closedStart_le_stop p
  have hlt : closedStart p < closedStop p := by omega
  have hf := trimFront_spec p (p.length - 1) (p.length - 1) 0
  have hb := trimBack_spec p (closedStart p) (p.length - 1 - closedStart p) (p.length - 1)
    (by omega)
  have hfront := front_on_line hp (L := p.length - 1) (s := closedStart p) (by omega) (by omega)
    (fun j hj => hf.2.2.1 j (Nat.zero_le _) hj)
  have hback := back_on_line hp (L := p.length - 1) (s := closedStart p) (t := closedStop p)
    (by omega) hlt hL (fun j h1 h2 => hb.2.2.1 j h1 h2)
  have hne0 : CrossProduct (p.elem (p.length - 1)) (p.elem (closedStart p))
      (p.elem (closedStart p + 1)) ≠ 0 := hf.2.2.2 (by
      have : trimFront p (p.length - 1) (p.length - 1) 0 = closedStart p := rfl
      omega)
  have hline : ∀ j, j < p.length → (j ≤ closedStart p ∨ closedStop p ≤ j) →
      CrossProduct (p.elem (closedStart p)) (p.elem (p.length - 1)) (p.elem j) = 0 := by
    intro j hj hcase
    rcases hcase with h | h
    · exact collinear_of_line
        (Path64.elem_ne hp (by omega) (by omega) (by omega : p.length - 1 ≠ 0))
        (hfront _ (Nat.le_refl _)) (CrossProduct_self_outer _ _) (hfront j h)
    · have := hback (p.length - 1 - j) (by omega)
      rwa [show p.length - 1 - (p.length - 1 - j) = j by omega] at this
  have hchain := scanIdx_chain hp (closedStop p - (closedStart p + 1)) (closedStart p + 1)
    (closedStart p) (by omega) (by omega)
    (by
      intro j hj1 hj2
      have : j = closedStart p + 1 := by omega
      subst this
      exact CrossProduct_self_right _ _)
  rw [show closedStart p + 1 + (closedStop p - (closedStart p + 1)) = closedStop p by omega]
    at hchain
  refine ⟨hlt, hL, hchain.1, hchain.2.1, hchain.2.2.1, hchain.2.2.2, ?_, hline⟩
  have ht := hline (closedStop p) (by omega) (Or.inr (Nat.le_refl _))
  exact cross_ne_transfer_left hne0 (cross_zero_swap12 (cross_zero_rotate ht))
    (Path64.elem_ne hp (by omega) (by omega) (by omega))

theorem mod_pred_of_pos {i m : Nat} (h0 : 0 < i) (hi : i < m) : (i + m - 1) % m = i - 1 := by
  rw [show i + m - 1 = (i - 1) + m by omega, Nat.add_mod_right, Nat.mod_eq_of_lt (by omega)]

theorem mod_pred_zero {m : Nat} (hm : 0 < m) : (0 + m - 1) % m = m - 1 := by
  rw [show 0 + m - 1 = m - 1 by omega, Nat.mod_eq_of_lt (by omega)]

theorem mod_succ_last {m : Nat} (hm : 0 < m) : (m - 1 + 1) % m = 0 := by
  rw [show m - 1 + 1 = m by omega, Nat.mod_self]

/-- The kept positions of a closed path form a `ClosedKept` list once the links
between consecutive positions, the keep tests and the two wrap-around tests are
known. -/
theorem closedKept_of {p : Path64} (hp : p.Nodup) (K : List Nat) (hm : 3 ≤ K.length)
    (hb : ∀ i, i < K.length → K.getD i 0 < p.length)
    (hlink : ∀ i, i + 1 < K.length → Link p (K.getD i 0) (K.getD (i + 1) 0))
    (hkeep : ∀ i, i + 2 < K.length →
      CrossProduct (p.elem (K.getD i 0)) (p.elem (K.getD (i + 1) 0))
        (p.elem (K.getD (i + 1) 0 + 1)) ≠ 0)
    (hc1 : CrossProduct (p.elem (K.getD (K.length - 1) 0)) (p.elem (K.getD 0 0))
      (p.elem (K.getD 0 0 + 1)) ≠ 0)
    (hc2 : CrossProduct (p.elem (K.getD (K.length - 2) 0)) (p.elem (K.getD (K.length - 1) 0))
      (p.elem (K.getD 0 0)) ≠ 0)
    (hwrap : ∀ j, j < p.length → (j < K.getD 0 0 ∨ K.getD (K.length - 1) 0 < j) →
      CrossProduct (p.elem (K.getD (K.length - 1) 0)) (p.elem j) (p.elem (K.getD 0 0)) = 0) :
    ClosedKept p K := by
  refine ⟨hm, fun i hi => (hlink i hi).1, hb, ?_, hwrap, ?_⟩
  · intro i hi j h1 h2
    exact (hlink i hi).between hp (hb _ hi) j h1 h2
  · intro i hi
    rw [List.length_map] at hi ⊢
    rw [map_elem_getD p K _ (Nat.mod_lt _ (by omega)), map_elem_getD p K _ hi,
      map_elem_getD p K _ (Nat.mod_lt _ (by omega))]
    by_cases h0 : i = 0
    · subst h0
      rw [mod_pred_zero (by omega), Nat.mod_eq_of_lt (by omega : 0 + 1 < K.length)]
      exact (hlink 0 (by omega)).noncol hp hc1 (hb _ (by omega))
    · by_cases hl : i = K.length - 1
      · subst hl
        rw [mod_pred_of_pos (by omega) (by omega), mod_succ_last (by omega)]
        rw [show K.length - 1 - 1 = K.length - 2 by omega]
        exact hc2
      · rw [mod_pred_of_pos (by omega) (by omega), Nat.mod_eq_of_lt (by omega : i + 1 < K.length)]
        have hk := hkeep (i - 1) (by omega)
        rw [show i - 1 + 1 = i by omega] at hk
        exact (hlink i (by omega)).noncol hp hk (hb _ (by omega))

/-! ## The result of TrimCollinear on paths without repeated vertices -/

theorem getLastD_mem {l : List Nat} (a : Nat) (h : l ≠ []) : l.getLastD a ∈ l := by
  cases l with
  | nil => exact absurd rfl h
  | cons b l =>
    rw [List.getLastD_cons]
    induction l generalizing b with
    | nil => simp
    | cons c l ih =>
      rw [List.getLastD_cons]
      exact List.mem_cons_of_mem _ (ih c (by simp))

theorem getD_mem_cons (a : Nat) (l : List Nat) (i : Nat) (hi : i < (a :: l).length) :
    (a :: l).getD i 0 ∈ a :: l := by
  rw [List.getD_eq_getElem _ _ hi]
  exact List.getElem_mem _

/-- The structure of the result of `TrimCollinear` on a closed path without
repeated vertices: it is empty, or it lists the vertices at a `ClosedKept` list
of positions. -/
theorem TrimCollinear_closed_struct {p : Path64} (hp : p.Nodup) (hlen : 3 ≤ p.length) :
    TrimCollinear p false = [] ∨
      ∃ K : List Nat, TrimCollinear p false = K.map p.elem ∧ ClosedKept p K := by
  rw [TrimCollinear_closed_eq hp hlen]
  by_cases hst : closedStart p = closedStop p
  · left; rw [if_pos hst]
  rw [if_neg hst]
  obtain ⟨hlt, hL, hchain, hrun, hsp, hpt, hW1, hline⟩ := closed_facts hp hlen hst
  have hSb := scanIdx_bounds p (closedStop p - (closedStart p + 1)) (closedStart p + 1)
    (closedStart p)
  -- abbreviations
  generalize hs : closedStart p = s at *
  generalize ht : closedStop p = t at *
  have hS : closedScan p = scanIdx p (t - (s + 1)) (s + 1) s := by
    unfold closedScan; rw [hs, ht]
  rw [← hS] at hSb
  generalize closedScan p = S at *
  have hKb : ∀ i, i < (s :: S).length → (s :: S).getD i 0 < t := by
    intro i hi
    rcases List.mem_cons.mp (getD_mem_cons s S i hi) with h | h
    · omega
    · have := hSb _ h; omega
  have hadj := chain_getD hchain
  have hlast := getD_length_cons s S
  have hsL : p.elem s ≠ p.elem (p.length - 1) :=
    Path64.elem_ne hp (by omega) (by omega) (by omega)
  have htline := hline t (by omega) (Or.inr (Nat.le_refl _))
  by_cases hcross : CrossProduct (p.elem (S.getLastD s)) (p.elem t) (p.elem s) ≠ 0
  · rw [if_pos hcross]
    right
    refine ⟨(s :: S) ++ [t], rfl, ?_⟩
    have hSne : S ≠ [] := by
      intro h
      subst h
      exact hcross (CrossProduct_self_outer _ _)
    have hSlen : 0 < S.length := List.length_pos.mpr hSne
    have hlow : ∀ i, i < (s :: S).length → ((s :: S) ++ [t]).getD i 0 = (s :: S).getD i 0 :=
      fun i hi => List.getD_append _ _ _ _ hi
    have hhigh : ((s :: S) ++ [t]).getD (S.length + 1) 0 = t := by
      rw [List.getD_append_right _ _ _ _ (by simp)]; simp
    have hmlen : ((s :: S) ++ [t]).length = S.length + 2 := by simp
    apply closedKept_of hp
    · rw [hmlen]; omega
    · intro i hi
      rw [hmlen] at hi
      by_cases h : i < S.length + 1
      · rw [hlow i (by simpa using h)]
        have := hKb i (by simpa using h); omega
      · rw [show i = S.length + 1 by omega, hhigh]; omega
    · intro i hi
      rw [hmlen] at hi
      by_cases h : i < S.length
      · rw [hlow i (by simp; omega), hlow (i + 1) (by simp; omega)]
        exact (hadj i h).link
      · have hi' : i = S.length := by omega
        subst hi'
        rw [hlow _ (by simp), hhigh, hlast]
        exact ⟨hpt, hrun⟩
    · intro i hi
      rw [hmlen] at hi
      rw [hlow i (by simp; omega), hlow (i + 1) (by simp; omega)]
      exact (hadj i (by omega)).2.1
    · rw [hmlen, show S.length + 2 - 1 = S.length + 1 by omega, hhigh, hlow 0 (by simp)]
      exact hW1
    · rw [hmlen, show S.length + 2 - 1 = S.length + 1 by omega,
        show S.length + 2 - 2 = S.length by omega, hhigh, hlow 0 (by simp),
        hlow _ (by simp), hlast]
      exact hcross
    · intro j hj hcase
      rw [hmlen, show S.length + 2 - 1 = S.length + 1 by omega, hhigh, hlow 0 (by simp)] at *
      have hjl : CrossProduct (p.elem s) (p.elem (p.length - 1)) (p.elem j) = 0 := by
        apply hline j hj
        rcases hcase with h | h
        · left; simp at h; omega
        · right; omega
      exact collinear_of_line hsL htline hjl (CrossProduct_self_outer _ _)
  · rw [if_neg hcross]
    have hz : CrossProduct (p.elem (S.getLastD s)) (p.elem t) (p.elem s) = 0 := by
      by_contra h; exact hcross h
    by_cases hlen3 : (s :: S).length < 3
    · left; rw [if_pos hlen3]
    rw [if_neg hlen3]
    right
    refine ⟨s :: S, rfl, ?_⟩
    have hSlen : 2 ≤ S.length := by simp at hlen3; omega
    have hSne : S ≠ [] := by intro h; subst h; simp at hSlen
    have hprev_gt : s < S.getLastD s := by
      have := hSb _ (getLastD_mem s hSne); omega
    have hps : p.elem (S.getLastD s) ≠ p.elem s :=
      Path64.elem_ne hp (by omega) (by omega) (by omega)
    have hpt' : p.elem (S.getLastD s) ≠ p.elem t :=
      Path64.elem_ne hp (by omega) (by omega) (by omega)
    have hts : p.elem t ≠ p.elem s := Path64.elem_ne hp (by omega) (by omega) (by omega)
    -- the start of the scan lies on the line of the last run
    have hsrun : CrossProduct (p.elem (S.getLastD s)) (p.elem (S.getLastD s + 1)) (p.elem s) = 0 :=
      collinear_of_line hpt' (CrossProduct_self_outer _ _)
        (cross_zero_swap23 (hrun t hpt (Nat.le_refl _))) hz
    -- the last kept vertex lies on the wrap-around line
    have hprevl : CrossProduct (p.elem s) (p.elem (p.length - 1)) (p.elem (S.getLastD s)) = 0 :=
      collinear_of_line hts (CrossProduct_self_right _ _)
        (cross_zero_rotate (cross_zero_rotate htline)) (cross_zero_rotate hz)
    have hmlen : (s :: S).length = S.length + 1 := by simp
    apply closedKept_of hp
    · omega
    · intro i hi
      have := hKb i hi; omega
    · intro i hi
      exact (hadj i (by simpa using hi)).link
    · intro i hi
      exact (hadj i (by rw [hmlen] at hi; omega)).2.1
    · rw [hmlen, show S.length + 1 - 1 = S.length by omega, hlast]
      exact cross_ne_transfer_left hW1 hz hps
    · rw [hmlen, show S.length + 1 - 1 = S.length by omega,
        show S.length + 1 - 2 = S.length - 1 by omega, hlast]
      have hk := (hadj (S.length - 1) (by omega)).2.1
      rw [show S.length - 1 + 1 = S.length by omega, hlast] at hk
      exact cross_ne_transfer hk hsrun hps
    · intro j hj hcase
      rw [hmlen, show S.length + 1 - 1 = S.length by omega, hlast] at *
      by_cases hjt : j < s ∨ t ≤ j
      · have hjl : CrossProduct (p.elem s) (p.elem (p.length - 1)) (p.elem j) = 0 := by
          apply hline j hj
          rcases hjt with h | h
          · left; omega
          · right; exact h
        exact collinear_of_line hsL hprevl hjl (CrossProduct_self_outer _ _)
      · have hj1 : S.getLastD s < j := by
          rcases hcase with h | h
          · simp at h; omega
          · exact h
        exact collinear_of_line
          (Path64.elem_ne hp (by omega) (by omega) (by omega : S.getLastD s ≠ S.getLastD s + 1))
          (CrossProduct_self_outer _ _) (hrun j hj1 (by omega)) hsrun

/-- The open branch of `TrimCollinear` in terms of the kept positions. -/
theorem TrimCollinear_open_eq (p : Path64) (hlen : 3 ≤ p.length) :
    TrimCollinear p true =
      ((0 :: scanIdx p (p.length - 1 - 1) 1 0) ++ [p.length - 1]).map p.elem := by
  unfold TrimCollinear
  simp only [if_neg (show ¬ p.length < 3 by omega), if_true, Bool.true_eq_false, false_and,
    if_false]
  rw [trimScan_open]
  simp

/-- The structure of the result of `TrimCollinear` on an open path without
repeated vertices. -/
theorem TrimCollinear_open_struct {p : Path64} (hp : p.Nodup) (hlen : 3 ≤ p.length) :
    ∃ K : List Nat, TrimCollinear p true = K.map p.elem ∧ OpenKept p K := by
  rw [TrimCollinear_open_eq p hlen]
  refine ⟨_, rfl, ?_⟩
  obtain ⟨hchain, hrun, _, hpt⟩ := scanIdx_chain hp (p.length - 1 - 1) 1 0 (by omega) (by omega)
    (by
      intro j hj1 hj2
      have : j = 0 + 1 := by omega
      subst this
      exact CrossProduct_self_right _ _)
  have hSb := scanIdx_bounds p (p.length - 1 - 1) 1 0
  rw [show 1 + (p.length - 1 - 1) = p.length - 1 by omega] at hrun hpt hSb
  generalize scanIdx p (p.length - 1 - 1) 1 0 = S at *
  have hKb : ∀ i, i < (0 :: S).length → (0 :: S).getD i 0 < p.length - 1 := by
    intro i hi
    rcases List.mem_cons.mp (getD_mem_cons 0 S i hi) with h | h
    · omega
    · have := hSb _ h; omega
  have hadj := chain_getD hchain
  have hlast := getD_length_cons 0 S
  have hlow : ∀ i, i < (0 :: S).length →
      ((0 :: S) ++ [p.length - 1]).getD i 0 = (0 :: S).getD i 0 :=
    fun i hi => List.getD_append _ _ _ _ hi
  have hhigh : ((0 :: S) ++ [p.length - 1]).getD (S.length + 1) 0 = p.length - 1 := by
    rw [List.getD_append_right _ _ _ _ (by simp)]; simp
  have hmlen : ((0 :: S) ++ [p.length - 1]).length = S.length + 2 := by simp
  have hlink : ∀ i, i + 1 < S.length + 2 →
      Link p (((0 :: S) ++ [p.length - 1]).getD i 0)
        (((0 :: S) ++ [p.length - 1]).getD (i + 1) 0) := by
    intro i hi
    by_cases h : i < S.length
    · rw [hlow i (by simp; omega), hlow (i + 1) (by simp; omega)]
      exact (hadj i h).link
    · have hi' : i = S.length := by omega
      subst hi'
      rw [hlow _ (by simp), hhigh, hlast]
      exact ⟨hpt, hrun⟩
  have hbound : ∀ i, i < S.length + 2 → ((0 :: S) ++ [p.length - 1]).getD i 0 < p.length := by
    intro i hi
    by_cases h : i < S.length + 1
    · rw [hlow i (by simpa using h)]
      have := hKb i (by simpa using h); omega
    · rw [show i = S.length + 1 by omega, hhigh]; omega
  refine ⟨by rw [hmlen]; omega, by rw [hlow 0 (by simp)]; rfl, ?_, ?_, ?_, ?_, ?_⟩
  · rw [hmlen, show S.length + 2 - 1 = S.length + 1 by omega, hhigh]
  · intro i hi
    rw [hmlen] at hi
    exact (hlink i hi).1
  · intro i hi
    rw [hmlen] at hi
    exact hbound i hi
  · intro i hi j h1 h2
    rw [hmlen] at hi
    exact (hlink i hi).between hp (hbound _ hi) j h1 h2
  · intro i hi h0 h1
    rw [List.length_map, hmlen] at hi h1
    rw [map_elem_getD p _ _ (by rw [hmlen]; omega), map_elem_getD p _ _ (by rw [hmlen]; omega),
      map_elem_getD p _ _ (by rw [hmlen]; omega)]
    have hk := (hadj (i - 1) (by omega)).2.1
    rw [show i - 1 + 1 = i by omega] at hk
    rw [hlow (i - 1) (by simp; omega)]
    have hl := hlink i h1
    rw [hlow i (by simp; omega)] at hl ⊢
    exact hl.noncol hp hk (hbound _ h1)

/-! ## TrimCollinear: no collinear vertex is left (claim C6) -/

theorem NoCollinearOpen_of_length_le_two (r : Path64) (h : r.length ≤ 2) : NoCollinearOpen r := by
  intro i hi h0 h1; omega

theorem NoCollinearClosed_nil : NoCollinearClosed [] := by
  intro i hi; simp at hi

theorem TrimCollinear_short_length (p : Path64) (o : Bool) (h : p.length < 3) :
    TrimCollinear p o = [] ∨ TrimCollinear p o = p := by
  unfold TrimCollinear
  rw [if_pos h]
  split_ifs
  · left; rfl
  · right; rfl

theorem TrimCollinear_short_closed (p : Path64) (h : p.length < 3) :
    TrimCollinear p false = [] := by
  unfold TrimCollinear
  rw [if_pos h]
  simp

/-- Claim C6, amended: for every integer path `p` whose vertices are pairwise
distinct and every value of the open flag, the result of `TrimCollinear` contains
no vertex exactly collinear with its neighbours in the result: no interior vertex
for the open flag, no vertex (cyclically, wrap-around included) for a closed
path. -/
theorem TrimCollinear_no_collinear (p : Path64) (hp : p.Nodup) :
    NoCollinearOpen (TrimCollinear p true) ∧ NoCollinearClosed (TrimCollinear p false) := by
  by_cases hlen : p.length < 3
  · constructor
    · rcases TrimCollinear_short_length p true hlen with h | h <;> rw [h]
      · exact NoCollinearOpen_of_length_le_two _ (by simp)
      · exact NoCollinearOpen_of_length_le_two _ (by omega)
    · rw [TrimCollinear_short_closed p hlen]; exact NoCollinearClosed_nil
  · constructor
    · obtain ⟨K, hK, hk⟩ := TrimCollinear_open_struct hp (by omega)
      rw [hK]; exact hk.2.2.2.2.2.2
    · rcases TrimCollinear_closed_struct hp (by omega) with h | ⟨K, hK, hk⟩
      · rw [h]; exact NoCollinearClosed_nil
      · rw [hK]; exact hk.2.2.2.2.2

/-- The witness of claim C6 (amended): the scenario's path of the spec. -/
theorem TrimCollinear_no_collinear_witness :
    ([⟨0, 0⟩, ⟨5, 0⟩, ⟨10, 0⟩, ⟨10, 10⟩, ⟨0, 10⟩] : Path64).Nodup ∧
      NoCollinearOpen (TrimCollinear [⟨0, 0⟩, ⟨5, 0⟩, ⟨10, 0⟩, ⟨10, 10⟩, ⟨0, 10⟩] true) ∧
      NoCollinearClosed (TrimCollinear [⟨0, 0⟩, ⟨5, 0⟩, ⟨10, 0⟩, ⟨10, 10⟩, ⟨0, 10⟩] false) :=
  ⟨by decide, TrimCollinear_no_collinear _ (by decide)⟩

/-- Claim C6 as stated fails: the open path `[(0,0),(0,1),(1,0),(0,1)]`, which
returns to `(0,1)`, is trimmed to `[(0,0),(0,1),(0,1)]`, whose interior vertex is
collinear with its neighbours (the final vertex of an open path is always kept). -/
theorem TrimCollinear_open_spike :
    TrimCollinear [⟨0, 0⟩, ⟨0, 1⟩, ⟨1, 0⟩, ⟨0, 1⟩] true = [⟨0, 0⟩, ⟨0, 1⟩, ⟨0, 1⟩] ∧
      ¬ NoCollinearOpen (TrimCollinear [⟨0, 0⟩, ⟨0, 1⟩, ⟨1, 0⟩, ⟨0, 1⟩] true) := by
  decide

/-! ## Paths the scan leaves unchanged -/

/-- The scan keeps every position of a stretch in which each vertex is
non-collinear with its two neighbours in the source. -/
theorem trimScan_keep_all (p : Path64) (o : Bool) :
    ∀ n src prev dst, prev + 1 = src →
      (∀ k, src ≤ k → k < src + n →
        CrossProduct (p.elem (k - 1)) (p.elem k) (p.elem (k + 1)) ≠ 0) →
      trimScan p o n src prev dst = (prev + n, dst ++ (List.range' src n).map p.elem) := by
  intro n
  induction n with
  | zero => intro src prev dst _ _; simp [trimScan]
  | succ n ih =>
    intro src prev dst hps h
    have h0 := h src (Nat.le_refl _) (by omega)
    rw [show src - 1 = prev by omega] at h0
    simp only [trimScan]
    rw [if_pos h0, ih (src + 1) src _ rfl (fun k h1 h2 => h k (by omega) (by omega))]
    rw [List.range'_succ, List.map_cons, List.append_assoc]
    congr 1
    omega

theorem map_elem_range' (r : Path64) : (List.range' 0 r.length).map r.elem = r := by
  apply List.ext_getElem
  · simp
  · intro i h1 h2
    simp [Path64.elem, List.getElem?_eq_getElem h2]

theorem trimFront_eq_self (p : Path64) (L n i : Nat) (hn : 0 < n)
    (h : CrossProduct (p.elem L) (p.elem i) (p.elem (i + 1)) ≠ 0) : trimFront p L n i = i := by
  cases n with
  | zero => omega
  | succ n => simp only [trimFront]; rw [if_neg h]

theorem trimBack_eq_self (p : Path64) (s n t : Nat) (hn : 0 < n)
    (h : CrossProduct (p.elem (t - 1)) (p.elem t) (p.elem s) ≠ 0) : trimBack p s n t = t := by
  cases n with
  | zero => omega
  | succ n => simp only [trimBack]; rw [if_neg h]

/-- A closed path with at least three vertices and no collinear cyclic triple is
returned unchanged. -/
theorem TrimCollinear_fixed_closed (r : Path64) (hlen : 3 ≤ r.length)
    (h : NoCollinearClosed r) : TrimCollinear r false = r := by
  have h0 := h 0 (by omega)
  rw [mod_pred_zero (by omega), Nat.mod_eq_of_lt (by omega : 0 + 1 < r.length)] at h0
  have hL := h (r.length - 1) (by omega)
  rw [mod_pred_of_pos (by omega) (by omega), mod_succ_last (by omega)] at hL
  have hs : closedStart r = 0 := trimFront_eq_self r _ _ 0 (by omega) h0
  have ht : closedStop r = r.length - 1 := by
    unfold closedStop
    rw [hs]
    exact trimBack_eq_self r 0 _ _ (by omega) hL
  rw [TrimCollinear_closed_unfold r hlen, hs, ht]
  have hscan := trimScan_keep_all r false (r.length - 1 - (0 + 1)) (0 + 1) 0 [r.elem 0] rfl
    (fun k h1 h2 => by
      have hk := h k (by omega)
      rwa [mod_pred_of_pos (by omega) (by omega), Nat.mod_eq_of_lt (by omega)] at hk)
  rw [hscan]
  simp only []
  rw [if_neg (by omega)]
  have hd0 : Path64.elem ([r.elem 0] ++ List.map r.elem
      (List.range' (0 + 1) (r.length - 1 - (0 + 1)))) 0 = r.elem 0 := rfl
  rw [hd0, show 0 + (r.length - 1 - (0 + 1)) = r.length - 1 - 1 by omega, if_pos hL]
  conv_rhs => rw [← map_elem_range' r]
  rw [show r.length = (r.length - 1 - (0 + 1)) + 1 + 1 by omega]
  rw [List.range'_concat, List.range'_succ]
  simp

/-- An open path with at least three vertices and no collinear interior vertex is
returned unchanged. -/
theorem TrimCollinear_fixed_open (r : Path64) (hlen : 3 ≤ r.length)
    (h : NoCollinearOpen r) : TrimCollinear r true = r := by
  unfold TrimCollinear
  simp only [if_neg (show ¬ r.length < 3 by omega), if_true, Bool.true_eq_false, false_and,
    if_false]
  rw [trimScan_keep_all r true (r.length - 1 - (0 + 1)) (0 + 1) 0 [r.elem 0] rfl
    (fun k h1 h2 => h k (by omega) (by omega) (by omega))]
  conv_rhs => rw [← map_elem_range' r]
  rw [show r.length = (r.length - 1 - (0 + 1)) + 1 + 1 by omega]
  rw [List.range'_concat, List.range'_succ]
  simp

/-! ## TrimCollinear: idempotence (claim C7) -/

/-- Claim C7, amended: on integer paths whose vertices are pairwise distinct
`TrimCollinear` is idempotent, for either value of the open flag. -/
theorem TrimCollinear_idempotent (p : Path64) (is_open_path : Bool) (hp : p.Nodup) :
    TrimCollinear (TrimCollinear p is_open_path) is_open_path = TrimCollinear p is_open_path := by
  cases is_open_path with
  | false =>
    by_cases hlen : p.length < 3
    · rw [TrimCollinear_short_closed p hlen]; rfl
    · rcases TrimCollinear_closed_struct hp (by omega) with h | ⟨K, hK, hk⟩
      · rw [h]; rfl
      · rw [hK]
        exact TrimCollinear_fixed_closed _ (by rw [List.length_map]; exact hk.1) hk.2.2.2.2.2
  | true =>
    by_cases hlen : p.length < 3
    · rcases TrimCollinear_short_length p true hlen with h | h
      · rw [h]; rfl
      · rw [h]; exact h
    · obtain ⟨K, hK, hk⟩ := TrimCollinear_open_struct hp (by omega)
      rw [hK]
      obtain ⟨h2, hfirst, hlast, -, hb, -, hnc⟩ := hk
      by_cases h3 : 3 ≤ K.length
      · exact TrimCollinear_fixed_open _ (by rw [List.length_map]; exact h3) hnc
      · have hK2 : K.length = 2 := by omega
        have he0 : Path64.elem (K.map p.elem) 0 = p.elem 0 := by
          rw [map_elem_getD p K 0 (by omega), hfirst]
        have he1 : Path64.elem (K.map p.elem) 1 = p.elem (p.length - 1) := by
          rw [map_elem_getD p K 1 (by omega), ← hlast, hK2]
        have hne : p.elem 0 ≠ p.elem (p.length - 1) :=
          Path64.elem_ne hp (by omega) (by omega) (by omega)
        unfold TrimCollinear
        rw [List.length_map, hK2, he0, he1]
        simp [hne]

/-- The witness of claim C7 (amended): the scenario's path of the spec. -/
theorem TrimCollinear_idempotent_witness :
    ([⟨0, 0⟩, ⟨5, 0⟩, ⟨10, 0⟩, ⟨10, 10⟩, ⟨0, 10⟩] : Path64).Nodup ∧
      TrimCollinear (TrimCollinear [⟨0, 0⟩, ⟨5, 0⟩, ⟨10, 0⟩, ⟨10, 10⟩, ⟨0, 10⟩] false) false =
        TrimCollinear [⟨0, 0⟩, ⟨5, 0⟩, ⟨10, 0⟩, ⟨10, 10⟩, ⟨0, 10⟩] false :=
  ⟨by decide, TrimCollinear_idempotent _ false (by decide)⟩

/-- Claim C7 as stated fails: the open path `[(0,0),(0,1),(0,0)]` is trimmed to
the two identical points `[(0,0),(0,0)]`, which a second call turns into the
empty path. -/
theorem TrimCollinear_not_idempotent :
    TrimCollinear [⟨0, 0⟩, ⟨0, 1⟩, ⟨0, 0⟩] true = [⟨0, 0⟩, ⟨0, 0⟩] ∧
      TrimCollinear (TrimCollinear [⟨0, 0⟩, ⟨0, 1⟩, ⟨0, 0⟩] true) true = [] ∧
      TrimCollinear (TrimCollinear [⟨0, 0⟩, ⟨0, 1⟩, ⟨0, 0⟩] true) true ≠
        TrimCollinear [⟨0, 0⟩, ⟨0, 1⟩, ⟨0, 0⟩] true := by
  decide

/-! ## Inserting a point into an edge -/

theorem Path64.elem_eq (p : Path64) (k : Nat) : p.elem k = (p[k]?).getD ⟨0, 0⟩ := by
  unfold Path64.elem; simp

theorem Path64.elem_append_left (A C : Path64) (k : Nat) (h : k < A.length) :
    Path64.elem (A ++ C) k = A.elem k := by
  rw [Path64.elem_eq, Path64.elem_eq, List.getElem?_append_left h]

theorem Path64.elem_append_right (A C : Path64) (k : Nat) :
    Path64.elem (A ++ C) (A.length + k) = C.elem k := by
  rw [Path64.elem_eq, Path64.elem_eq, List.getElem?_append_right (by omega)]
  simp

theorem Path64.elem_take (P : Path64) (s k : Nat) (h : k < s) :
    Path64.elem (P.take s) k = P.elem k := by
  rw [Path64.elem_eq, Path64.elem_eq, List.getElem?_take_of_lt h]

theorem Path64.elem_drop (P : Path64) (s k : Nat) :
    Path64.elem (P.drop s) k = P.elem (s + k) := by
  rw [Path64.elem_eq, Path64.elem_eq, List.getElem?_drop]

theorem Path64.elem_cons_succ (x : Point64) (l : Path64) (k : Nat) :
    Path64.elem (x :: l) (k + 1) = l.elem k := by
  rw [Path64.elem_eq, Path64.elem_eq, List.getElem?_cons_succ]

theorem map_elem_range'_slice (p : Path64) (s n : Nat) (h : s + n ≤ p.length) :
    (List.range' s n).map p.elem = (p.drop s).take n := by
  apply List.ext_getElem
  · simp; omega
  · intro j h1 h2
    simp at h1
    simp [Path64.elem, List.getElem?_eq_getElem (by omega : s + j < p.length)]

theorem trimScan_add (p : Path64) (o : Bool) :
    ∀ n1 n2 src prev dst, trimScan p o (n1 + n2) src prev dst =
      trimScan p o n2 (src + n1) (trimScan p o n1 src prev dst).1
        (trimScan p o n1 src prev dst).2 := by
  intro n1
  induction n1 with
  | zero => intro n2 src prev dst; simp [trimScan]
  | succ n1 ih =>
    intro n2 src prev dst
    rw [show n1 + 1 + n2 = (n1 + n2) + 1 by omega]
    simp only [trimScan]
    split_ifs <;> rw [ih] <;> rw [show src + 1 + n1 = src + (n1 + 1) by omega]

/-- A stretch of the scan that starts from any last kept position and keeps
every position. -/
theorem trimScan_keep_from (p : Path64) (o : Bool) (n src prev : Nat) (dst : Path64)
    (h0 : CrossProduct (p.elem prev) (p.elem src) (p.elem (src + 1)) ≠ 0)
    (h : ∀ k, src < k → k < src + (n + 1) →
      CrossProduct (p.elem (k - 1)) (p.elem k) (p.elem (k + 1)) ≠ 0) :
    trimScan p o (n + 1) src prev dst =
      (src + n, dst ++ (List.range' src (n + 1)).map p.elem) := by
  simp only [trimScan]
  rw [if_pos h0, trimScan_keep_all p o n (src + 1) src _ rfl
    (fun k h1 h2 => h k (by omega) (by omega))]
  rw [List.range'_succ, List.map_cons, List.append_assoc]
  rfl

/-- A round of the scan on a collinear position that does not cascade changes
nothing. -/
theorem trimScan_skip (p : Path64) (n src prev : Nat) (dst : Path64)
    (h0 : CrossProduct (p.elem prev) (p.elem src) (p.elem (src + 1)) = 0)
    (h1 : 1 < dst.length → CrossProduct (p.elem (prev - 1)) (p.elem prev) (p.elem src) ≠ 0) :
    trimScan p false (n + 1) src prev dst = trimScan p false n (src + 1) prev dst := by
  simp only [trimScan]
  rw [if_neg (by simpa using h0), if_neg]
  rintro ⟨-, h2, h3⟩
  exact h1 h2 h3

/-- The triples of a closed path without collinear vertices, read off without
modular arithmetic. -/
theorem NoCollinearClosed.triples {P : Path64} (hlen : 3 ≤ P.length) (h : NoCollinearClosed P) :
    (∀ k, 0 < k → k + 1 < P.length →
      CrossProduct (P.elem (k - 1)) (P.elem k) (P.elem (k + 1)) ≠ 0) ∧
    CrossProduct (P.elem (P.length - 1)) (P.elem 0) (P.elem 1) ≠ 0 ∧
    CrossProduct (P.elem (P.length - 2)) (P.elem (P.length - 1)) (P.elem 0) ≠ 0 := by
  refine ⟨?_, ?_, ?_⟩
  · intro k h0 h1
    have hk := h k (by omega)
    rwa [mod_pred_of_pos h0 (by omega), Nat.mod_eq_of_lt h1] at hk
  · have h0 := h 0 (by omega)
    rwa [mod_pred_zero (by omega), Nat.mod_eq_of_lt (by omega : 0 + 1 < P.length)] at h0
  · have hL := h (P.length - 1) (by omega)
    rwa [mod_pred_of_pos (by omega) (by omega), mod_succ_last (by omega),
      show P.length - 1 - 1 = P.length - 2 by omega] at hL

/-- The elements of a path with a point inserted after position `i`. -/
theorem insert_elem (P : Path64) (i : Nat) (m : Point64) (hi : i < P.length) :
    (∀ k, k ≤ i → Path64.elem (P.take (i + 1) ++ m :: P.drop (i + 1)) k = P.elem k) ∧
    Path64.elem (P.take (i + 1) ++ m :: P.drop (i + 1)) (i + 1) = m ∧
    (∀ k, Path64.elem (P.take (i + 1) ++ m :: P.drop (i + 1)) (i + 2 + k) = P.elem (i + 1 + k)) := by
  have hlen : (P.take (i + 1)).length = i + 1 := by simp; omega
  refine ⟨?_, ?_, ?_⟩
  · intro k hk
    rw [Path64.elem_append_left _ _ _ (by omega), Path64.elem_take _ _ _ (by omega)]
  · have := Path64.elem_append_right (P.take (i + 1)) (m :: P.drop (i + 1)) 0
    rw [hlen] at this
    rw [this]; rfl
  · intro k
    have := Path64.elem_append_right (P.take (i + 1)) (m :: P.drop (i + 1)) (k + 1)
    rw [hlen] at this
    rw [show i + 2 + k = i + 1 + (k + 1) by omega, this, Path64.elem_cons_succ, Path64.elem_drop]

theorem insert_length (P : Path64) (i : Nat) (m : Point64) (hi : i < P.length) :
    (P.take (i + 1) ++ m :: P.drop (i + 1)).length = P.length + 1 := by
  simp; omega

/-- Trimming after inserting a point into an edge other than the closing one. -/
theorem trim_insert_inner (P Q : Path64) (i : Nat) (m : Point64) (hlen : 3 ≤ P.length)
    (hP : NoCollinearClosed P) (hi : i + 1 < P.length)
    (hcol : CrossProduct (P.elem i) (P.elem (i + 1)) m = 0)
    (hma : m ≠ P.elem i) (hmb : m ≠ P.elem (i + 1))
    (hQ : P.take (i + 1) ++ m :: P.drop (i + 1) = Q) :
    TrimCollinear Q false = P := by
  obtain ⟨Pmid, P0, PL⟩ := hP.triples hlen
  obtain ⟨Qlo, Qmid, Qhi⟩ := insert_elem P i m (by omega)
  have Qlen := insert_length P i m (by omega)
  rw [hQ] at Qlo Qmid Qhi Qlen
  have Qn : Q.elem P.length = P.elem (P.length - 1) := by
    have := Qhi (P.length - (i + 2))
    rwa [show i + 2 + (P.length - (i + 2)) = P.length by omega,
      show i + 1 + (P.length - (i + 2)) = P.length - 1 by omega] at this
  have Qb : Q.elem (i + 2) = P.elem (i + 1) := Qhi 0
  -- the inserted point keeps the edge's two ends non-collinear
  have f1 : ∀ x, CrossProduct x (P.elem i) (P.elem (i + 1)) ≠ 0 →
      CrossProduct x (P.elem i) m ≠ 0 :=
    fun x hx => cross_ne_transfer hx hcol (Ne.symm hma)
  have f2 : ∀ x, CrossProduct (P.elem i) (P.elem (i + 1)) x ≠ 0 →
      CrossProduct m (P.elem (i + 1)) x ≠ 0 :=
    fun x hx => cross_ne_transfer_left hx (cross_zero_rotate (cross_zero_rotate hcol)) hmb
  have f3 : CrossProduct (P.elem i) m (P.elem (i + 1)) = 0 := cross_zero_swap23 hcol
  have f1' : 0 < i → CrossProduct (P.elem (i - 1)) (P.elem i) m ≠ 0 :=
    fun h => f1 _ (Pmid i h hi)
  -- the two trimming loops do not move
  have hs : closedStart Q = 0 := by
    unfold closedStart
    rw [Qlen, show P.length + 1 - 1 = P.length by omega]
    apply trimFront_eq_self _ _ _ _ (by omega)
    rw [Qn, Qlo 0 (by omega)]
    by_cases h0 : i = 0
    · subst h0
      rw [Qmid]
      exact f1 _ P0
    · rw [Qlo 1 (by omega)]; exact P0
  have ht : closedStop Q = P.length := by
    unfold closedStop
    rw [hs, Qlen, show P.length + 1 - 1 = P.length by omega]
    apply trimBack_eq_self _ _ _ _ (by omega)
    rw [Qn, Qlo 0 (by omega)]
    by_cases h0 : i + 2 = P.length
    · rw [show P.length - 1 = i + 1 by omega, Qmid]
      have := f2 _ (by
        have := PL
        rwa [show P.length - 2 = i by omega, show P.length - 1 = i + 1 by omega] at this)
      exact this
    · have := Qhi (P.length - 1 - (i + 2))
      rw [show i + 2 + (P.length - 1 - (i + 2)) = P.length - 1 by omega,
        show i + 1 + (P.length - 1 - (i + 2)) = P.length - 2 by omega] at this
      rw [this]; exact PL
  -- the scan
  have hstage1 : trimScan Q false i (0 + 1) 0 [Q.elem 0] =
      (0 + i, [Q.elem 0] ++ (List.range' (0 + 1) i).map Q.elem) := by
    apply trimScan_keep_all Q false i (0 + 1) 0 _ rfl
    intro k h1 h2
    rw [Qlo (k - 1) (by omega), Qlo k (by omega)]
    by_cases hk : k = i
    · subst hk
      rw [Qmid]; exact f1' (by omega)
    · rw [Qlo (k + 1) (by omega)]; exact Pmid k (by omega) (by omega)
  have hstage2 : ∀ dst : Path64, dst.length = i + 1 → ∀ r,
      trimScan Q false (r + 1) (i + 1) i dst = trimScan Q false r (i + 2) i dst := by
    intro dst hd r
    apply trimScan_skip
    · rw [Qlo i (by omega), Qmid, Qb]; exact f3
    · intro h1
      rw [Qlo (i - 1) (by omega), Qlo i (by omega), Qmid]
      exact f1' (by omega)
  have hstage3 : ∀ dst : Path64, ∃ prev, Q.elem prev = P.elem (P.length - 2) ∧
      trimScan Q false (P.length - (i + 2)) (i + 2) i dst =
        (prev, dst ++ (List.range' (i + 2) (P.length - (i + 2))).map Q.elem) := by
    intro dst
    by_cases h0 : i + 2 = P.length
    · refine ⟨i, ?_, ?_⟩
      · rw [Qlo i (by omega)]; congr 1; omega
      · rw [show P.length - (i + 2) = 0 by omega]; simp [trimScan]
    · refine ⟨i + 2 + (P.length - (i + 2) - 1), ?_, ?_⟩
      · rw [Qhi]; congr 1; omega
      · rw [show P.length - (i + 2) = (P.length - (i + 2) - 1) + 1 by omega]
        apply trimScan_keep_from
        · rw [Qlo i (by omega), Qb]
          have := Qhi 1
          rw [show i + 2 + 1 = i + 2 + 1 from rfl] at this
          rw [this]
          exact Pmid (i + 1) (by omega) (by omega)
        · intro k h1 h2
          have e1 := Qhi (k - 1 - (i + 2))
          have e2 := Qhi (k - (i + 2))
          have e3 := Qhi (k + 1 - (i + 2))
          rw [show i + 2 + (k - 1 - (i + 2)) = k - 1 by omega,
            show i + 1 + (k - 1 - (i + 2)) = k - 1 - 1 by omega] at e1
          rw [show i + 2 + (k - (i + 2)) = k by omega,
            show i + 1 + (k - (i + 2)) = k - 1 by omega] at e2
          rw [show i + 2 + (k + 1 - (i + 2)) = k + 1 by omega,
            show i + 1 + (k + 1 - (i + 2)) = k - 1 + 1 by omega] at e3
          rw [e1, e2, e3]
          exact Pmid (k - 1) (by omega) (by omega)
  have hQlen3 : 3 ≤ Q.length := by omega
  rw [TrimCollinear_closed_unfold Q hQlen3, hs, ht, if_neg (by omega)]
  rw [show P.length - (0 + 1) = i + (1 + (P.length - (i + 2))) by omega, trimScan_add,
    hstage1]
  simp only []
  rw [show 1 + (P.length - (i + 2)) = (P.length - (i + 2)) + 1 by omega,
    show 0 + 1 + i = i + 1 by omega, show 0 + i = i by omega,
    hstage2 _ (by simp)]
  obtain ⟨prev, hprev, hscan⟩ := hstage3 ([Q.elem 0] ++ (List.range' (0 + 1) i).map Q.elem)
  rw [hscan]
  simp only []
  have hd0 : Path64.elem ([Q.elem 0] ++ List.map Q.elem (List.range' (0 + 1) i) ++
      List.map Q.elem (List.range' (i + 2) (P.length - (i + 2)))) 0 = Q.elem 0 := rfl
  rw [hd0, hprev, Qn, Qlo 0 (by omega), if_pos PL, ← Qn]
  -- the kept vertices are those of `P`
  have e1 : [Q.elem 0] ++ List.map Q.elem (List.range' (0 + 1) i) = P.take (i + 1) := by
    have : [Q.elem 0] ++ List.map Q.elem (List.range' (0 + 1) i) =
        (List.range' 0 (i + 1)).map Q.elem := by
      rw [List.range'_succ, List.map_cons]; rfl
    rw [this, map_elem_range'_slice Q 0 (i + 1) (by omega), List.drop_zero, ← hQ]
    exact List.take_left' (by simp; omega)
  have e2 : List.map Q.elem (List.range' (i + 2) (P.length - (i + 2))) ++ [Q.elem P.length] =
      P.drop (i + 1) := by
    have : List.map Q.elem (List.range' (i + 2) (P.length - (i + 2))) ++ [Q.elem P.length] =
        (List.range' (i + 2) (P.length - (i + 2) + 1)).map Q.elem := by
      rw [List.range'_concat, List.map_append, List.map_singleton]
      congr 3
      omega
    rw [this, map_elem_range'_slice Q _ _ (by omega), List.take_of_length_le (by simp; omega),
      ← hQ]
    have h3 : P.take (i + 1) ++ m :: P.drop (i + 1) = (P.take (i + 1) ++ [m]) ++ P.drop (i + 1) := by
      simp
    rw [h3]
    exact List.drop_left' (by simp; omega)
  rw [Qlo 0 (by omega)] at e1
  rw [List.append_assoc, e1, e2, List.take_append_drop]

/-- Trimming after appending a point of the closing edge. -/
theorem trim_insert_closing (P Q : Path64) (m : Point64) (hlen : 3 ≤ P.length)
    (hP : NoCollinearClosed P)
    (hcol : CrossProduct (P.elem (P.length - 1)) (P.elem 0) m = 0)
    (hmb : m ≠ P.elem 0)
    (hQ : P ++ [m] = Q) :
    TrimCollinear Q false = P := by
  obtain ⟨Pmid, P0, PL⟩ := hP.triples hlen
  have Qlen : Q.length = P.length + 1 := by rw [← hQ]; simp
  have Qlo : ∀ k, k < P.length → Q.elem k = P.elem k := by
    intro k hk; rw [← hQ]; exact Path64.elem_append_left _ _ _ hk
  have Qn : Q.elem P.length = m := by
    have := Path64.elem_append_right P [m] 0
    rw [← hQ]; exact this
  have f2 : CrossProduct m (P.elem 0) (P.elem 1) ≠ 0 :=
    cross_ne_transfer_left P0 (cross_zero_rotate (cross_zero_rotate hcol)) hmb
  have f3 : CrossProduct (P.elem (P.length - 1)) m (P.elem 0) = 0 := cross_zero_swap23 hcol
  have hs : closedStart Q = 0 := by
    unfold closedStart
    rw [Qlen, show P.length + 1 - 1 = P.length by omega]
    apply trimFront_eq_self _ _ _ _ (by omega)
    rw [Qn, Qlo 0 (by omega), Qlo (0 + 1) (by omega)]
    exact f2
  have ht : closedStop Q = P.length - 1 := by
    unfold closedStop
    rw [hs, Qlen, show P.length + 1 - 1 - 0 = (P.length - 1) + 1 by omega,
      show P.length + 1 - 1 = P.length by omega]
    simp only [trimBack]
    rw [if_pos (by rw [Qlo _ (by omega), Qn, Qlo 0 (by omega)]; exact f3)]
    apply trimBack_eq_self _ _ _ _ (by omega)
    rw [show P.length - 1 - 1 = P.length - 2 by omega, Qlo _ (by omega), Qlo _ (by omega),
      Qlo 0 (by omega)]
    exact PL
  have hscan : trimScan Q false (P.length - 1 - (0 + 1)) (0 + 1) 0 [Q.elem 0] =
      (0 + (P.length - 1 - (0 + 1)),
        [Q.elem 0] ++ (List.range' (0 + 1) (P.length - 1 - (0 + 1))).map Q.elem) := by
    apply trimScan_keep_all Q false _ (0 + 1) 0 _ rfl
    intro k h1 h2
    rw [Qlo (k - 1) (by omega), Qlo k (by omega), Qlo (k + 1) (by omega)]
    exact Pmid k (by omega) (by omega)
  rw [TrimCollinear_closed_unfold Q (by omega), hs, ht, if_neg (by omega), hscan]
  simp only []
  have hd0 : Path64.elem ([Q.elem 0] ++
      List.map Q.elem (List.range' (0 + 1) (P.length - 1 - (0 + 1)))) 0 = Q.elem 0 := rfl
  have hfin : CrossProduct (Q.elem (0 + (P.length - 1 - (0 + 1)))) (Q.elem (P.length - 1))
      (Q.elem 0) ≠ 0 := by
    rw [show 0 + (P.length - 1 - (0 + 1)) = P.length - 2 by omega, Qlo _ (by omega),
      Qlo _ (by omega), Qlo 0 (by omega)]
    exact PL
  rw [hd0, if_pos hfin]
  have : [Q.elem 0] ++ List.map Q.elem (List.range' (0 + 1) (P.length - 1 - (0 + 1))) ++
      [Q.elem (P.length - 1)] = (List.range' 0 P.length).map Q.elem := by
    conv_rhs => rw [show P.length = (P.length - 1 - (0 + 1)) + 1 + 1 by omega]
    rw [List.range'_concat, List.range'_succ]
    simp
    congr 2
    omega
  rw [this, map_elem_range'_slice Q 0 P.length (by omega), List.drop_zero, ← hQ]
  exact List.take_left' rfl

/-! ## TrimCollinear: the round trip of an inserted point (claim C9) -/

/-- Claim C9: for every closed integer path `P` with at least 3 vertices none of
which is collinear with its cyclic neighbours, and every point `m` strictly inside
the edge from position `i` to the next (cyclically; on the segment and distinct
from both ends), inserting `m` after position `i` (at the end for the closing
edge) and trimming the closed path gives back exactly `P`. -/
theorem TrimCollinear_insert_roundtrip (P : Path64) (i : Nat) (m : Point64)
    (hlen : 3 ≤ P.length) (hP : NoCollinearClosed P) (hi : i < P.length)
    (hon : OnSegment (P.elem i) (P.elem ((i + 1) % P.length)) m)
    (hma : m ≠ P.elem i) (hmb : m ≠ P.elem ((i + 1) % P.length)) :
    TrimCollinear (P.take (i + 1) ++ m :: P.drop (i + 1)) false = P := by
  by_cases hw : i + 1 < P.length
  · rw [Nat.mod_eq_of_lt hw] at hon hmb
    exact trim_insert_inner P _ i m hlen hP hw hon.1 hma hmb rfl
  · have hi' : i + 1 = P.length := by omega
    rw [hi', Nat.mod_self] at hon hmb
    rw [show i = P.length - 1 by omega] at hon
    apply trim_insert_closing P _ m hlen hP hon.1 hmb
    rw [hi', List.take_length, List.drop_length]

/-- The witness of claim C9: the scenario of the spec, `(5,0)` inserted into the
edge from `(0,0)` to `(10,0)` of the square. -/
theorem TrimCollinear_insert_roundtrip_witness :
    3 ≤ square10.length ∧ NoCollinearClosed square10 ∧ 0 < square10.length ∧
      OnSegment (square10.elem 0) (square10.elem ((0 + 1) % square10.length)) ⟨5, 0⟩ ∧
      (⟨5, 0⟩ : Point64) ≠ square10.elem 0 ∧
      (⟨5, 0⟩ : Point64) ≠ square10.elem ((0 + 1) % square10.length) ∧
      TrimCollinear [⟨0, 0⟩, ⟨5, 0⟩, ⟨10, 0⟩, ⟨10, 10⟩, ⟨0, 10⟩] false =
        [⟨0, 0⟩, ⟨10, 0⟩, ⟨10, 10⟩, ⟨0, 10⟩] :=
  ⟨by decide, by decide, by decide, by decide, by decide, by decide,
    TrimCollinear_insert_roundtrip square10 0 ⟨5, 0⟩ (by decide) (by decide) (by decide)
      (by decide) (by decide) (by decide)⟩

/-! ## Removed vertices -/

theorem getD_of_mem {K : List Nat} {x : Nat} (h : x ∈ K) : ∃ i, i < K.length ∧ K.getD i 0 = x := by
  obtain ⟨i, hi, hx⟩ := List.mem_iff_getElem.mp h
  exact ⟨i, hi, by rw [List.getD_eq_getElem _ _ hi, hx]⟩

theorem getD_mem {K : List Nat} {i : Nat} (hi : i < K.length) : K.getD i 0 ∈ K := by
  rw [List.getD_eq_getElem _ _ hi]; exact List.getElem_mem _

/-- On a path without repeated vertices, a position is kept exactly when it is
in the list of kept positions. -/
theorem kept_iff {p : Path64} (hp : p.Nodup) {K : List Nat}
    (hb : ∀ i, i < K.length → K.getD i 0 < p.length) (x : Nat) :
    Kept p (K.map p.elem) x ↔ x < p.length ∧ x ∈ K := by
  unfold Kept
  constructor
  · rintro ⟨h1, h2⟩
    refine ⟨h1, ?_⟩
    obtain ⟨k, hk, he⟩ := List.mem_map.mp h2
    obtain ⟨i, hi, hik⟩ := getD_of_mem hk
    have hkl : k < p.length := by rw [← hik]; exact hb i hi
    rw [← Path64.elem_inj hp hkl h1 he]; exact hk
  · rintro ⟨h1, h2⟩
    exact ⟨h1, List.mem_map.mpr ⟨x, h2, rfl⟩⟩

theorem getD_lt_of_lt {K : List Nat} (h : ∀ i, i + 1 < K.length → K.getD i 0 < K.getD (i + 1) 0)
    {i j : Nat} (hij : i < j) (hj : j < K.length) : K.getD i 0 < K.getD j 0 :=
  seq_mono (k := fun i => K.getD i 0) h j i hij hj

theorem getD_lt_imp {K : List Nat} (h : ∀ i, i + 1 < K.length → K.getD i 0 < K.getD (i + 1) 0)
    {i j : Nat} (hi : i < K.length) (hlt : K.getD i 0 < K.getD j 0) : i < j := by
  by_contra hc
  rcases Nat.eq_or_lt_of_le (Nat.le_of_not_lt hc) with he | hl
  · subst he; omega
  · have := getD_lt_of_lt h hl hi; omega

theorem between_exists (K : List Nat) (j : Nat) :
    ∀ t, K.getD 0 0 ≤ j → j < K.getD t 0 →
      ∃ i, i + 1 ≤ t ∧ K.getD i 0 ≤ j ∧ j < K.getD (i + 1) 0 := by
  intro t
  induction t with
  | zero => intro h1 h2; omega
  | succ t ih =>
    intro h1 h2
    by_cases h : j < K.getD t 0
    · obtain ⟨i, hi, h3, h4⟩ := ih h1 h
      exact ⟨i, by omega, h3, h4⟩
    · exact ⟨t, Nat.le_refl _, by omega, h2⟩

/-- A removed position strictly between two consecutive kept positions has them
as nearest kept neighbours. -/
theorem removed_between {p : Path64} (hp : p.Nodup) (o : Bool) {K : List Nat}
    (hb : ∀ i, i < K.length → K.getD i 0 < p.length)
    (hinc : ∀ i, i + 1 < K.length → K.getD i 0 < K.getD (i + 1) 0)
    (hbet : ∀ i, i + 1 < K.length → ∀ j, K.getD i 0 < j → j < K.getD (i + 1) 0 →
      CrossProduct (p.elem (K.getD i 0)) (p.elem j) (p.elem (K.getD (i + 1) 0)) = 0)
    {i j : Nat} (hi : i + 1 < K.length) (h1 : K.getD i 0 < j) (h2 : j < K.getD (i + 1) 0) :
    ∃ a, a < p.length ∧ ∃ b, b < p.length ∧
      NearestKeptBefore p (K.map p.elem) o j a ∧ NearestKeptAfter p (K.map p.elem) o j b ∧
      CrossProduct (p.elem a) (p.elem j) (p.elem b) = 0 := by
  refine ⟨K.getD i 0, hb i (by omega), K.getD (i + 1) 0, hb _ hi, ?_, ?_, hbet i hi j h1 h2⟩
  · refine ⟨(kept_iff hp hb _).mpr ⟨hb i (by omega), getD_mem (by omega)⟩, Or.inl ⟨h1, ?_⟩⟩
    intro x _ hx1 hx2 hk
    obtain ⟨_, hxK⟩ := (kept_iff hp hb x).mp hk
    obtain ⟨i', hi', hx⟩ := getD_of_mem hxK
    subst hx
    have a1 := getD_lt_imp hinc (by omega : i < K.length) hx1
    have a2 := getD_lt_imp hinc hi' (by omega : K.getD i' 0 < K.getD (i + 1) 0)
    omega
  · refine ⟨(kept_iff hp hb _).mpr ⟨hb _ hi, getD_mem hi⟩, Or.inl ⟨h2, ?_⟩⟩
    intro x _ hx1 hx2 hk
    obtain ⟨_, hxK⟩ := (kept_iff hp hb x).mp hk
    obtain ⟨i', hi', hx⟩ := getD_of_mem hxK
    subst hx
    have a1 := getD_lt_imp hinc (by omega : i < K.length) (by omega : K.getD i 0 < K.getD i' 0)
    have a2 := getD_lt_imp hinc hi' hx2
    omega

theorem removed_collinear_open {p : Path64} (hp : p.Nodup) {K : List Nat} (hK : OpenKept p K) :
    RemovedCollinear p (K.map p.elem) true := by
  obtain ⟨h2, hfirst, hlast, hinc, hb, hbet, -⟩ := hK
  intro j hj hnk
  have hjK : j ∉ K := fun h => hnk ((kept_iff hp hb j).mpr ⟨hj, h⟩)
  have h0 : K.getD 0 0 ≤ j := by omega
  have hL : j < K.getD (K.length - 1) 0 := by
    rw [hlast]
    have : j ≠ p.length - 1 := by
      intro h; apply hjK; rw [h, ← hlast]; exact getD_mem (by omega)
    omega
  obtain ⟨i, hi, h3, h4⟩ := between_exists K j (K.length - 1) h0 hL
  have hne : K.getD i 0 ≠ j := by
    intro h; apply hjK; rw [← h]; exact getD_mem (by omega)
  exact removed_between hp true hb hinc hbet (by omega) (by omega) h4

/-- Claim C10, evaluated where the code departs from it: the closed path
`[(0,0),(0,1),(0,1),(1,1),(2,1)]` is trimmed to the two vertices `[(0,0),(2,1)]`.
The cascade of lines 417-422 pops `(0,1)` and moves `prevIt` one position back in
the source, onto a vertex that was never kept; the closing test of line 427 then
compares against that vertex and appends `*stop` to a one-vertex `dst`, and the
size check of line 429 is not reached. -/
theorem TrimCollinear_closed_two_vertices :
    TrimCollinear [⟨0, 0⟩, ⟨0, 1⟩, ⟨0, 1⟩, ⟨1, 1⟩, ⟨2, 1⟩] false = [⟨0, 0⟩, ⟨2, 1⟩] ∧
      (TrimCollinear [⟨0, 0⟩, ⟨0, 1⟩, ⟨0, 1⟩, ⟨1, 1⟩, ⟨2, 1⟩] false).length = 2 := by
  decide

/-! ## TrimCollinear: paths of fewer than three points (claim C11) -/

/-- Claim C11: for every integer path with fewer than 3 points `TrimCollinear`
returns a result without error: the input unchanged when the path is open and
consists of exactly 2 distinct points; the empty path when it is open and consists
of 2 identical points; the empty path for every closed path of 0, 1 or 2 points. -/
theorem TrimCollinear_short (p : Path64) (hlen : p.length < 3) :
    (p.length = 2 → p.elem 0 ≠ p.elem 1 → TrimCollinear p true = p) ∧
    (p.length = 2 → p.elem 0 = p.elem 1 → TrimCollinear p true = []) ∧
    TrimCollinear p false = [] := by
  refine ⟨?_, ?_, ?_⟩
  · intro h2 hne
    unfold TrimCollinear
    rw [if_pos hlen, if_neg]
    simp only [Bool.true_eq_false, false_or, not_or]
    exact ⟨by omega, hne⟩
  · intro h2 he
    unfold TrimCollinear
    rw [if_pos hlen, if_pos (Or.inr (Or.inr he))]
  · unfold TrimCollinear
    rw [if_pos hlen, if_pos (Or.inl rfl)]

/-- The witness of claim C11: the open path `[(0,0),(1,2)]` and its closed and
degenerate companions. -/
theorem TrimCollinear_short_witness :
    ([⟨0, 0⟩, ⟨1, 2⟩] : Path64).length < 3 ∧
      TrimCollinear [⟨0, 0⟩, ⟨1, 2⟩] true = [⟨0, 0⟩, ⟨1, 2⟩] ∧
      TrimCollinear [⟨0, 0⟩, ⟨1, 2⟩] false = [] :=
  ⟨by decide,
    (TrimCollinear_short [⟨0, 0⟩, ⟨1, 2⟩] (by decide)).1 (by decide) (by decide),
    (TrimCollinear_short [⟨0, 0⟩, ⟨1, 2⟩] (by decide)).2.2⟩

/-! ## TrimCollinear: the final vertex of an open path (claim C12) -/

/-- Claim C12: for every open integer path `p` with at least 3 points,
`TrimCollinear p true` is non-empty and its last vertex is the last vertex of
`p`. -/
theorem TrimCollinear_open_last (p : Path64) (hlen : 3 ≤ p.length) :
    TrimCollinear p true ≠ [] ∧ (TrimCollinear p true).getLast? = p.getLast? := by
  rw [TrimCollinear_open_eq p hlen]
  constructor
  · simp
  · rw [List.map_append, List.map_singleton, List.getLast?_concat,
      Path64.elem_eq_getElem p _ (by omega), List.getLast?_eq_getElem?,
      List.getElem?_eq_getElem (by omega)]

/-- The witness of claim C12: the spec's path read as open. -/
theorem TrimCollinear_open_last_witness :
    3 ≤ ([⟨0, 0⟩, ⟨5, 0⟩, ⟨10, 0⟩, ⟨10, 10⟩, ⟨0, 10⟩] : Path64).length ∧
      TrimCollinear [⟨0, 0⟩, ⟨5, 0⟩, ⟨10, 0⟩, ⟨10, 10⟩, ⟨0, 10⟩] true ≠ [] ∧
      (TrimCollinear [⟨0, 0⟩, ⟨5, 0⟩, ⟨10, 0⟩, ⟨10, 10⟩, ⟨0, 10⟩] true).getLast? =
        some ⟨0, 10⟩ :=
  ⟨by decide, TrimCollinear_open_last _ (by decide)⟩

/-! ## PointInPolygon: polygons of fewer than three vertices (claim C13) -/

/-- Claim C13: for every query point and every polygon with 0, 1 or 2 vertices
`PointInPolygon` returns Outside, also when the query point is one of the
vertices. -/
theorem PointInPolygon_small (pt : Point64) (polygon : Path64) (hlen : polygon.length < 3) :
    PointInPolygon pt polygon = some PointInPolyResult.IsOutside := by
  unfold PointInPolygon
  rw [if_pos hlen]

/-- The witness of claim C13: a query point equal to a vertex of a two-vertex
polygon. -/
theorem PointInPolygon_small_witness :
    ([⟨0, 0⟩, ⟨1, 2⟩] : Path64).length < 3 ∧ (⟨1, 2⟩ : Point64) ∈ ([⟨0, 0⟩, ⟨1, 2⟩] : Path64) ∧
      PointInPolygon ⟨1, 2⟩ [⟨0, 0⟩, ⟨1, 2⟩] = some PointInPolyResult.IsOutside :=
  ⟨by decide, by decide, PointInPolygon_small _ _ (by decide)⟩

/-! ## Bounds (claim C14) -/

theorem boundsStep_eq (r : Rect64) (pt : Point64) :
    boundsStep r pt =
      ⟨min r.left pt.x, min r.top pt.y, max r.right pt.x, max r.bottom pt.y⟩ := by
  unfold boundsStep
  cases r with
  | mk l t rt b =>
    dsimp only
    split_ifs <;> dsimp only at * <;> simp only [Rect64.mk.injEq, min_def, max_def] <;>
      refine ⟨?_, ?_, ?_, ?_⟩ <;> split_ifs <;> omega

theorem foldl_boundsStep (pts : List Point64) :
    ∀ r : Rect64, pts.foldl boundsStep r =
      ⟨pts.foldl (fun m q => min m q.x) r.left, pts.foldl (fun m q => min m q.y) r.top,
        pts.foldl (fun m q => max m q.x) r.right, pts.foldl (fun m q => max m q.y) r.bottom⟩ := by
  induction pts with
  | nil => intro r; rfl
  | cons p ps ih => intro r; rw [List.foldl_cons, ih, boundsStep_eq]; rfl

theorem foldl_min_le (f : Point64 → Int) (pts : List Point64) :
    ∀ a : Int, pts.foldl (fun m q => min m (f q)) a ≤ a := by
  induction pts with
  | nil => intro a; exact le_refl a
  | cons p ps ih => intro a; exact le_trans (ih _) (min_le_left _ _)

theorem le_foldl_max (f : Point64 → Int) (pts : List Point64) :
    ∀ a : Int, a ≤ pts.foldl (fun m q => max m (f q)) a := by
  induction pts with
  | nil => intro a; exact le_refl a
  | cons p ps ih => intro a; exact le_trans (le_max_left _ _) (ih _)

/-- The fold of `Bounds` from the sentinel rect over points that fit `int64_t`. -/
theorem foldl_sentinel (pts : List Point64) (h : ∀ pt ∈ pts, pt.InRange) :
    pts.foldl boundsStep MaxInvalidRect64 =
      if pts = [] then MaxInvalidRect64 else boundsRef pts := by
  cases pts with
  | nil => rfl
  | cons p ps =>
    rw [if_neg (by simp), List.foldl_cons, foldl_boundsStep, boundsStep_eq]
    obtain ⟨h1, h2, h3, h4⟩ := h p (List.mem_cons_self _ _)
    unfold INT64_MIN at h1 h3
    unfold INT64_MAX at h2 h4
    simp only [MaxInvalidRect64, INT64_MAX, INT64_MIN, boundsRef]
    rw [min_eq_right h2, min_eq_right h4, max_eq_right h1, max_eq_right h3]

theorem boundsRef_not_empty (p : Point64) (ps : List Point64) :
    (boundsRef (p :: ps)).IsEmpty = false := by
  have h1 := foldl_min_le (fun q => q.x) ps p.x
  have h2 := le_foldl_max (fun q => q.x) ps p.x
  have h3 := foldl_min_le (fun q => q.y) ps p.y
  have h4 := le_foldl_max (fun q => q.y) ps p.y
  simp only [boundsRef, Rect64.IsEmpty, Bool.or_eq_false_iff, decide_eq_false_iff_not, not_lt,
    gt_iff_lt]
  exact ⟨le_trans h1 h2, le_trans h3 h4⟩

theorem finish_bounds (pts : List Point64) (h : ∀ pt ∈ pts, pt.InRange) :
    (if (pts.foldl boundsStep MaxInvalidRect64).IsEmpty then Rect64.zero
      else pts.foldl boundsStep MaxInvalidRect64) = boundsRef pts := by
  cases pts with
  | nil => rfl
  | cons p ps =>
    rw [foldl_sentinel (p :: ps) h, if_neg (List.cons_ne_nil p ps), boundsRef_not_empty p ps]
    rfl

theorem foldl_foldl_join (paths : List Path64) :
    ∀ r : Rect64, paths.foldl (fun r path => path.foldl boundsStep r) r =
      paths.flatten.foldl boundsStep r := by
  induction paths with
  | nil => intro r; rfl
  | cons p ps ih => intro r; rw [List.foldl_cons, ih, List.flatten_cons, List.foldl_append]

/-- The reference bounding box is the componentwise minimum and maximum: each
bound is attained by a point and bounds every point. -/
theorem boundsRef_spec (p : Point64) (ps : List Point64) :
    (∀ q ∈ p :: ps, (boundsRef (p :: ps)).left ≤ q.x ∧ q.x ≤ (boundsRef (p :: ps)).right ∧
      (boundsRef (p :: ps)).top ≤ q.y ∧ q.y ≤ (boundsRef (p :: ps)).bottom) ∧
    (∃ q ∈ p :: ps, q.x = (boundsRef (p :: ps)).left) ∧
    (∃ q ∈ p :: ps, q.x = (boundsRef (p :: ps)).right) ∧
    (∃ q ∈ p :: ps, q.y = (boundsRef (p :: ps)).top) ∧
    (∃ q ∈ p :: ps, q.y = (boundsRef (p :: ps)).bottom) := by
  have hmin : ∀ (f : Point64 → Int) (l : List Point64) (a : Int),
      (∀ q ∈ l, l.foldl (fun m q => min m (f q)) a ≤ f q) ∧
      (l.foldl (fun m q => min m (f q)) a = a ∨ ∃ q ∈ l, f q = l.foldl (fun m q => min m (f q)) a) := by
    intro f l
    induction l with
    | nil => intro a; exact ⟨fun q hq => absurd hq (List.not_mem_nil q), Or.inl rfl⟩
    | cons x l ih =>
      intro a
      obtain ⟨i1, i2⟩ := ih (min a (f x))
      refine ⟨?_, ?_⟩
      · intro q hq
        rcases List.mem_cons.mp hq with h | h
        · subst h
          exact le_trans (foldl_min_le f l _) (min_le_right _ _)
        · exact i1 q h
      · rw [List.foldl_cons]
        rcases i2 with h | ⟨q, hq, hf⟩
        · rw [h]
          rcases min_choice a (f x) with hc | hc
          · left; exact hc
          · right; exact ⟨x, List.mem_cons_self _ _, hc.symm⟩
        · right; exact ⟨q, List.mem_cons_of_mem _ hq, hf⟩
  have hmax : ∀ (f : Point64 → Int) (l : List Point64) (a : Int),
      (∀ q ∈ l, f q ≤ l.foldl (fun m q => max m (f q)) a) ∧
      (l.foldl (fun m q => max m (f q)) a = a ∨ ∃ q ∈ l, f q = l.foldl (fun m q => max m (f q)) a) := by
    intro f l
    induction l with
    | nil => intro a; exact ⟨fun q hq => absurd hq (List.not_mem_nil q), Or.inl rfl⟩
    | cons x l ih =>
      intro a
      obtain ⟨i1, i2⟩ := ih (max a (f x))
      refine ⟨?_, ?_⟩
      · intro q hq
        rcases List.mem_cons.mp hq with h | h
        · subst h
          exact le_trans (le_max_right _ _) (le_foldl_max f l _)
        · exact i1 q h
      · rw [List.foldl_cons]
        rcases i2 with h | ⟨q, hq, hf⟩
        · rw [h]
          rcases max_choice a (f x) with hc | hc
          · left; exact hc
          · right; exact ⟨x, List.mem_cons_self _ _, hc.symm⟩
        · right; exact ⟨q, List.mem_cons_of_mem _ hq, hf⟩
  have attained : ∀ (f : Point64 → Int) (v : Int),
      (v = f p ∨ ∃ q ∈ ps, f q = v) → ∃ q ∈ p :: ps, f q = v := by
    intro f v h
    rcases h with h | ⟨q, hq, hf⟩
    · exact ⟨p, List.mem_cons_self _ _, h.symm⟩
    · exact ⟨q, List.mem_cons_of_mem _ hq, hf⟩
  refine ⟨?_, attained (fun q => q.x) _ (hmin (fun q => q.x) ps p.x).2,
    attained (fun q => q.x) _ (hmax (fun q => q.x) ps p.x).2,
    attained (fun q => q.y) _ (hmin (fun q => q.y) ps p.y).2,
    attained (fun q => q.y) _ (hmax (fun q => q.y) ps p.y).2⟩
  intro q hq
  simp only [boundsRef]
  rcases List.mem_cons.mp hq with h | h
  · subst h
    exact ⟨foldl_min_le (fun q => q.x) ps _, le_foldl_max (fun q => q.x) ps _,
      foldl_min_le (fun q => q.y) ps _, le_foldl_max (fun q => q.y) ps _⟩
  · exact ⟨(hmin (fun q => q.x) ps p.x).1 q h, (hmax (fun q => q.x) ps p.x).1 q h,
      (hmin (fun q => q.y) ps p.y).1 q h, (hmax (fun q => q.y) ps p.y).1 q h⟩

/-- Claim C14: on integer paths whose coordinates fit `int64_t`, `Bounds` equals
its reference definition, for one path and for a collection of paths: the rect
with all four bounds zero when the input contains no point, and otherwise
left = minimum x, right = maximum x, top = minimum y, bottom = maximum y over all
points; a single-point path `(x, y)` gives left = right = x and top = bottom = y. -/
theorem Bounds_eq_reference (path : Path64) (paths : List Path64) (pt : Point64)
    (hpath : ∀ q ∈ path, q.InRange) (hpaths : ∀ q ∈ paths.flatten, q.InRange)
    (hpt : pt.InRange) :
    Bounds path = boundsRef path ∧ BoundsPaths paths = boundsRef paths.flatten ∧
      Bounds [] = Rect64.zero ∧ (paths.flatten = [] → BoundsPaths paths = Rect64.zero) ∧
      Bounds [pt] = ⟨pt.x, pt.y, pt.x, pt.y⟩ := by
  have h1 : Bounds path = boundsRef path := finish_bounds path hpath
  have h2 : BoundsPaths paths = boundsRef paths.flatten := by
    unfold BoundsPaths
    simp only []
    rw [foldl_foldl_join]
    exact finish_bounds _ hpaths
  refine ⟨h1, h2, rfl, ?_, ?_⟩
  · intro he; rw [h2, he]; rfl
  · have := finish_bounds [pt] (by
      intro q hq
      rw [List.mem_singleton.mp hq]; exact hpt)
    exact this

/-- The witness of claim C14: a path, a collection with an empty path, and a
single point. -/
theorem Bounds_eq_reference_witness :
    (∀ q ∈ ([⟨3, 4⟩, ⟨-1, 7⟩] : Path64), q.InRange) ∧
      Bounds [⟨3, 4⟩, ⟨-1, 7⟩] = ⟨-1, 4, 3, 7⟩ ∧
      BoundsPaths [[], [⟨3, 4⟩, ⟨-1, 7⟩], [⟨0, 0⟩]] = ⟨-1, 0, 3, 7⟩ ∧
      Bounds [⟨5, 6⟩] = ⟨5, 6, 5, 6⟩ :=
  ⟨by decide,
    (Bounds_eq_reference [⟨3, 4⟩, ⟨-1, 7⟩] [[], [⟨3, 4⟩, ⟨-1, 7⟩], [⟨0, 0⟩]] ⟨5, 6⟩
      (by decide) (by decide) (by decide)).1,
    (Bounds_eq_reference [⟨3, 4⟩, ⟨-1, 7⟩] [[], [⟨3, 4⟩, ⟨-1, 7⟩], [⟨0, 0⟩]] ⟨5, 6⟩
      (by decide) (by decide) (by decide)).2.1,
    (Bounds_eq_reference [⟨3, 4⟩, ⟨-1, 7⟩] [[], [⟨3, 4⟩, ⟨-1, 7⟩], [⟨0, 0⟩]] ⟨5, 6⟩
      (by decide) (by decide) (by decide)).2.2.2.2⟩

/-! ## PointInPolygon: On-boundary is never reported falsely (claim C19) -/

theorem pipFinish_ne_on (val : Int) : pipFinish val ≠ PointInPolyResult.IsOn := by
  unfold pipFinish; split_ifs <;> simp

/-- The invariant of the outer loop for the soundness of On-boundary: the vertex
before `cit` (cyclically) is not strictly on the side that `is_above` is about to
leave. -/
theorem pipLoop_on_sound (pt : Point64) (polygon : Path64) :
    ∀ fuel cit pit val ia fp, cit ≤ polygon.length →
      (cit = 0 → fp = true ∧ pit = polygon.length - 1 ∧
        (if ia = true then (polygon.elem pit).y ≤ pt.y else pt.y ≤ (polygon.elem pit).y)) →
      (0 < cit → fp = false ∧
        (if ia = true then (polygon.elem (cit - 1)).y ≤ pt.y
          else pt.y ≤ (polygon.elem (cit - 1)).y)) →
      pipLoop pt polygon fuel cit pit val ia fp = some PointInPolyResult.IsOn →
      (∃ i, i < polygon.length ∧ polygon.elem i = pt) ∨
        (∃ i, i < polygon.length ∧
          OnSegment (polygon.elem i) (polygon.elem ((i + 1) % polygon.length)) pt) := by
  intro fuel
  induction fuel with
  | zero => intro cit pit val ia fp _ _ _ h; simp [pipLoop] at h
  | succ fuel ih =>
    intro cit pit val ia fp hcit h0 h1 h
    have hge := skipSide_ge pt polygon ia (polygon.length - cit) cit
    have hub := skipSide_le pt polygon ia (polygon.length - cit) cit
    have hskip := skipSide_skipped pt polygon ia (polygon.length - cit) cit
    have hstop := skipSide_stop pt polygon ia (polygon.length - cit) cit
    simp only [pipLoop] at h
    by_cases hend : cit = polygon.length
    · rw [if_pos hend] at h
      exact absurd (Option.some.inj h) (pipFinish_ne_on val)
    rw [if_neg hend] at h
    generalize skipSide pt polygon ia (polygon.length - cit) cit = c at h hge hub hskip hstop
    by_cases hend2 : c = polygon.length
    · rw [if_pos hend2] at h
      exact absurd (Option.some.inj h) (pipFinish_ne_on val)
    rw [if_neg hend2] at h
    have hc : c < polygon.length := by omega
    -- the position `pit` takes in this round
    have hpit : ∃ pit', (if fp = true then (if c ≠ 0 then c - 1 else pit) else c - 1) = pit' ∧
        (pit' + 1) % polygon.length = c ∧ pit' < polygon.length ∧
        (if ia = true then (polygon.elem pit').y ≤ pt.y else pt.y ≤ (polygon.elem pit').y) := by
      by_cases hc0 : c = 0
      · have hcit0 : cit = 0 := by omega
        obtain ⟨hfp, hp, hs⟩ := h0 hcit0
        refine ⟨pit, by simp [hfp, hc0], ?_, by omega, hs⟩
        rw [hp, hc0, show polygon.length - 1 + 1 = polygon.length by omega, Nat.mod_self]
      · refine ⟨c - 1, by split_ifs <;> rfl, ?_, by omega, ?_⟩
        · rw [show c - 1 + 1 = c by omega, Nat.mod_eq_of_lt hc]
        · by_cases hmove : cit < c
          · have hs := hskip (c - 1) (by omega) (by omega)
            cases ia <;> simp [skipCond] at hs ⊢ <;> omega
          · have hcc : c = cit := by omega
            subst hcc
            exact (h1 (by omega)).2
    obtain ⟨pit', hpe, hmod, hplt, hside⟩ := hpit
    rw [hpe] at h
    have hst := hstop (by omega)
    have ih' := fun val ia' (hs : if ia' = true then (polygon.elem c).y ≤ pt.y
        else pt.y ≤ (polygon.elem c).y) (hh : pipLoop pt polygon fuel (c + 1) pit' val ia' false =
          some PointInPolyResult.IsOn) =>
      ih (c + 1) pit' val ia' false (by omega) (fun h => by omega)
        (fun _ => ⟨rfl, by rw [show c + 1 - 1 = c by omega]; exact hs⟩) hh
    by_cases hy : (polygon.elem c).y = pt.y
    · rw [if_pos hy] at h
      by_cases hx : (polygon.elem c).x = pt.x
      · left; exact ⟨c, hc, Point64.eq_of_coords hx hy⟩
      · rw [if_neg (by
          rintro (h | ⟨_, h⟩)
          · exact hx h
          · exact h rfl)] at h
        exact ih' val ia (by split_ifs <;> omega) h
    · rw [if_neg hy] at h
      have hflip : if (!ia) = true then (polygon.elem c).y ≤ pt.y
          else pt.y ≤ (polygon.elem c).y := by
        cases ia <;> simp [skipCond] at hst ⊢ <;> omega
      split_ifs at h with g1 g2 g3 g4
      · exact ih' _ _ hflip h
      · exact ih' _ _ hflip h
      · right
        refine ⟨pit', hplt, ?_⟩
        rw [hmod]
        refine ⟨g3, ?_, ?_, ?_, ?_⟩
        · rw [min_le_iff]; by_contra hh; push_neg at hh; exact g2 ⟨by omega, by omega⟩
        · rw [le_max_iff]; by_contra hh; push_neg at hh; exact g1 ⟨by omega, by omega⟩
        · rw [min_le_iff]
          cases ia <;> simp [skipCond] at hst hside <;> omega
        · rw [le_max_iff]
          cases ia <;> simp [skipCond] at hst hside <;> omega
      · exact ih' _ _ hflip h
      · exact ih' _ _ hflip h

/-- Claim C19: for every polygon and query point `q`, if `PointInPolygon` returns
On-boundary then `q` equals a vertex of the polygon or lies on the closed segment
between two cyclically consecutive vertices (zero cross product with the segment,
both coordinates within the segment's ranges). -/
theorem PointInPolygon_on_sound (q : Point64) (polygon : Path64)
    (h : PointInPolygon q polygon = some PointInPolyResult.IsOn) :
    (∃ i, i < polygon.length ∧ polygon.elem i = q) ∨
      (∃ i, i < polygon.length ∧
        OnSegment (polygon.elem i) (polygon.elem ((i + 1) % polygon.length)) q) := by
  unfold PointInPolygon at h
  by_cases hlen : polygon.length < 3
  · rw [if_pos hlen] at h; simp at h
  · rw [if_neg hlen] at h
    apply pipLoop_on_sound q polygon _ 0 _ _ _ _ (Nat.zero_le _) _ (fun h => absurd h (by omega)) h
    intro _
    refine ⟨rfl, rfl, ?_⟩
    by_cases hh : (polygon.elem (polygon.length - 1)).y < q.y
    · simp [hh]; omega
    · simp [hh]; omega

/-- The witness of claim C19: `(10,5)` on the square is reported On-boundary and
lies on the edge from `(10,0)` to `(10,10)`. -/
theorem PointInPolygon_on_sound_witness :
    PointInPolygon ⟨10, 5⟩ square10 = some PointInPolyResult.IsOn ∧
      ((∃ i, i < square10.length ∧ square10.elem i = ⟨10, 5⟩) ∨
        (∃ i, i < square10.length ∧
          OnSegment (square10.elem i) (square10.elem ((i + 1) % square10.length)) ⟨10, 5⟩)) :=
  ⟨by decide, PointInPolygon_on_sound ⟨10, 5⟩ square10 (by decide)⟩

/-! ## TrimCollinear never reads outside its buffers (claim C20) -/

theorem Path64.read_eq (p : Path64) (i : Nat) (h : i < p.length) :
    p.read i = some (p.elem i) := by
  unfold Path64.read
  rw [List.getElem?_eq_getElem h, Path64.elem_eq_getElem p i h]

theorem Path64.readPrev_eq (p : Path64) (i : Nat) (h0 : 0 < i) (h : i ≤ p.length) :
    p.readPrev i = some (p.elem (i - 1)) := by
  unfold Path64.readPrev
  rw [if_neg (by omega)]
  exact Path64.read_eq p (i - 1) (by omega)

theorem trimFrontChecked_eq (p : Path64) (stop : Nat) (hstop : stop < p.length) :
    ∀ n i, i + n ≤ stop → trimFrontChecked p stop n i = some (trimFront p stop n i) := by
  intro n
  induction n with
  | zero => intro i _; rfl
  | succ n ih =>
    intro i hi
    simp only [trimFrontChecked, trimFront]
    rw [Path64.read_eq p stop hstop, Path64.read_eq p i (by omega),
      Path64.read_eq p (i + 1) (by omega)]
    simp only [Option.bind_eq_bind, Option.some_bind]
    split_ifs
    · exact ih (i + 1) (by omega)
    · rfl

theorem trimBackChecked_eq (p : Path64) (s : Nat) :
    ∀ n t, s + n ≤ t → t < p.length → trimBackChecked p s n t = some (trimBack p s n t) := by
  intro n
  induction n with
  | zero => intro t _ _; rfl
  | succ n ih =>
    intro t h1 h2
    simp only [trimBackChecked, trimBack]
    rw [Path64.readPrev_eq p t (by omega) (by omega), Path64.read_eq p t h2,
      Path64.read_eq p s (by omega)]
    simp only [Option.bind_eq_bind, Option.some_bind]
    split_ifs
    · exact ih (t - 1) (by omega) (by omega)
    · rfl

/-- The invariant of the scan: `prevIt` stays at least `dst.size() - 1` positions
after the start `s` of the scan and before `srcIt`, and `dst` is never empty. -/
theorem trimScan_inv (p : Path64) (o : Bool) (s : Nat) :
    ∀ n src prev dst, s + dst.length ≤ prev + 1 → 1 ≤ dst.length → prev < src →
      s + (trimScan p o n src prev dst).2.length ≤ (trimScan p o n src prev dst).1 + 1 ∧
      1 ≤ (trimScan p o n src prev dst).2.length ∧
      (trimScan p o n src prev dst).1 < src + n := by
  intro n
  induction n with
  | zero => intro src prev dst h1 h2 h3; exact ⟨h1, h2, by simpa [trimScan] using h3⟩
  | succ n ih =>
    intro src prev dst h1 h2 h3
    simp only [trimScan]
    split_ifs with g1 g2
    · have := ih (src + 1) src (dst ++ [p.elem src]) (by simp; omega) (by simp) (by omega)
      exact ⟨this.1, this.2.1, by omega⟩
    · have := ih (src + 1) (prev - 1) dst.dropLast (by simp; omega) (by simp; omega) (by omega)
      exact ⟨this.1, this.2.1, by omega⟩
    · have := ih (src + 1) prev dst h1 h2 (by omega)
      exact ⟨this.1, this.2.1, by omega⟩

theorem trimScanChecked_eq (p : Path64) (o : Bool) (s : Nat) :
    ∀ n src prev dst, s + dst.length ≤ prev + 1 → 1 ≤ dst.length → prev < src →
      src + n < p.length →
      trimScanChecked p o n src prev dst = some (trimScan p o n src prev dst) := by
  intro n
  induction n with
  | zero => intro src prev dst _ _ _ _; rfl
  | succ n ih =>
    intro src prev dst h1 h2 h3 h4
    simp only [trimScanChecked, trimScan]
    rw [Path64.read_eq p prev (by omega), Path64.read_eq p src (by omega),
      Path64.read_eq p (src + 1) (by omega)]
    simp only [Option.bind_eq_bind, Option.some_bind]
    by_cases g1 : CrossProduct (p.elem prev) (p.elem src) (p.elem (src + 1)) ≠ 0
    · rw [if_pos g1, if_pos g1]
      exact ih (src + 1) src _ (by simp; omega) (by simp) (by omega) (by omega)
    · rw [if_neg g1, if_neg g1]
      by_cases g2 : o = false ∧ dst.length > 1
      · rw [if_pos g2, Path64.readPrev_eq p prev (by omega) (by omega)]
        simp only [Option.some_bind]
        by_cases g3 : CrossProduct (p.elem (prev - 1)) (p.elem prev) (p.elem src) = 0
        · rw [if_pos g3, if_pos ⟨g2.1, g2.2, g3⟩]
          exact ih (src + 1) (prev - 1) _ (by simp; omega) (by simp; omega) (by omega) (by omega)
        · rw [if_neg g3, if_neg (fun h => g3 h.2.2)]
          exact ih (src + 1) prev dst h1 h2 (by omega) (by omega)
      · rw [if_neg g2, if_neg (fun h => g2 ⟨h.1, h.2.1⟩)]
        exact ih (src + 1) prev dst h1 h2 (by omega) (by omega)

theorem trimFront_le (p : Path64) (L : Nat) : ∀ n i, trimFront p L n i ≤ i + n :=
  fun n i => (trimFront_spec p L n i).2.1

/-- Claim C20: for every integer path with at least 3 points and either value of
the open flag, every element read during `TrimCollinear` (source positions
`srcIt + 1`, `stop - 1`, `prevIt - 1`, and `dst[0]` among them) is within
bounds: the run with checked reads returns the same result and never fails.  The
scan keeps, after any number of rounds, `prevIt` at least `dst.size() - 1`
positions after its start, with `dst` non-empty, so the read of `prevIt - 1`
(made only when `dst.size() > 1`) never precedes the first element. -/
theorem TrimCollinear_reads_in_bounds (p : Path64) (is_open_path : Bool)
    (hlen : 3 ≤ p.length) :
    TrimCollinearChecked p is_open_path = some (TrimCollinear p is_open_path) ∧
      ∀ s n,
        s + (trimScan p is_open_path n (s + 1) s [p.elem s]).2.length ≤
          (trimScan p is_open_path n (s + 1) s [p.elem s]).1 + 1 ∧
        1 ≤ (trimScan p is_open_path n (s + 1) s [p.elem s]).2.length := by
  refine ⟨?_, fun s n => ?_⟩
  · unfold TrimCollinearChecked TrimCollinear
    simp only [if_neg (show ¬ p.length < 3 by omega)]
    cases is_open_path with
    | true =>
      simp only [if_true, Option.bind_eq_bind, Option.some_bind, Bool.true_eq_false, false_and,
        if_false]
      rw [Path64.read_eq p 0 (by omega)]
      simp only [Option.some_bind]
      rw [trimScanChecked_eq p true 0 _ _ _ _ (by simp) (by simp) (by omega) (by omega)]
      simp only [Option.some_bind]
      rw [Path64.read_eq p _ (by omega)]
      rfl
    | false =>
      simp only [Bool.false_eq_true, if_false, Option.bind_eq_bind, true_and]
      rw [trimFrontChecked_eq p _ (by omega) _ _ (by omega)]
      simp only [Option.some_bind]
      have hs := trimFront_le p (p.length - 1) (p.length - 1) 0
      generalize trimFront p (p.length - 1) (p.length - 1) 0 = s at hs
      rw [trimBackChecked_eq p s _ _ (by omega) (by omega)]
      simp only [Option.some_bind]
      have ht := trimBack_spec p s (p.length - 1 - s) (p.length - 1) (by omega)
      generalize trimBack p s (p.length - 1 - s) (p.length - 1) = t at ht
      by_cases hst : s = t
      · rw [if_pos hst, if_pos hst]
      · rw [if_neg hst, if_neg hst, Path64.read_eq p s (by omega)]
        simp only [Option.some_bind]
        rw [trimScanChecked_eq p false s _ _ _ _ (by simp) (by simp) (by omega) (by omega)]
        simp only [Option.some_bind]
        have hinv := trimScan_inv p false s (t - (s + 1)) (s + 1) s [p.elem s] (by simp)
          (by simp) (by omega)
        generalize trimScan p false (t - (s + 1)) (s + 1) s [p.elem s] = r at hinv
        rw [Path64.read_eq p t (by omega)]
        simp only [Option.some_bind]
        rw [Path64.read_eq p r.1 (by omega), Path64.read_eq r.2 0 (by omega)]
        simp only [Option.some_bind]
        split_ifs <;> rfl
  · have := trimScan_inv p is_open_path s n (s + 1) s [p.elem s] (by simp) (by simp) (by omega)
    exact ⟨this.1, this.2.1⟩

/-- The witness of claim C20: the closed path on which the cascade is taken. -/
theorem TrimCollinear_reads_in_bounds_witness :
    3 ≤ ([⟨0, 0⟩, ⟨0, 1⟩, ⟨0, 1⟩, ⟨1, 1⟩, ⟨2, 1⟩] : Path64).length ∧
      TrimCollinearChecked [⟨0, 0⟩, ⟨0, 1⟩, ⟨0, 1⟩, ⟨1, 1⟩, ⟨2, 1⟩] false =
        some (TrimCollinear [⟨0, 0⟩, ⟨0, 1⟩, ⟨0, 1⟩, ⟨1, 1⟩, ⟨2, 1⟩] false) :=
  ⟨by decide, (TrimCollinear_reads_in_bounds _ false (by decide)).1⟩

/-! ## The floating-coordinate wrappers reject an out-of-range precision (claim C18) -/

theorem Dbl.lt_ofInt (a b : Int) : Dbl.lt (Dbl.ofInt a) (Dbl.ofInt b) = decide (a < b) := by
  simp only [Dbl.lt, Dbl.ofInt, Int.cast_lt]

/-- Claim C18: for every input, every collaborator and every state of the
program, `TrimCollinear` on a floating path and `InflatePaths` on floating paths
fail with the 'Precision exceeds the allowed range' error if and only if
`precision < -8` or `precision > 8`, and then the state is the one the call
started from: no collaborator that scales, trims or offsets has run.  Precision 9
fails and precisions 8 and -8 are accepted.  With collaborators that record their
calls, the record is empty exactly when the call fails. -/
theorem precision_guard {σ PathD PathsD JoinType EndType Offset : Type}
    (ops : FloatOps σ PathD PathsD JoinType EndType Offset) (path : PathD) (paths : PathsD)
    (iprecision : Int) (is_open_path : Bool) (delta miter_limit precision : Dbl)
    (jt : JoinType) (et : EndType) (w : σ) :
    ((TrimCollinearD ops path iprecision is_open_path w).1 = Except.error precisionError ↔
        iprecision < -8 ∨ iprecision > 8) ∧
      ((TrimCollinearD ops path iprecision is_open_path w).1 = Except.error precisionError →
        (TrimCollinearD ops path iprecision is_open_path w).2 = w) ∧
      ((InflatePathsD ops paths delta jt et miter_limit precision w).1 =
          Except.error precisionError ↔
        Dbl.lt precision (Dbl.ofInt (-8)) = true ∨ Dbl.lt (Dbl.ofInt 8) precision = true) ∧
      ((InflatePathsD ops paths delta jt et miter_limit precision w).1 =
          Except.error precisionError →
        (InflatePathsD ops paths delta jt et miter_limit precision w).2 = w) ∧
      (InflatePathsD ops paths delta jt et miter_limit (Dbl.ofInt 9) w).1 =
        Except.error precisionError ∧
      (∃ r, (InflatePathsD ops paths delta jt et miter_limit (Dbl.ofInt 8) w).1 = Except.ok r) ∧
      (∃ r, (InflatePathsD ops paths delta jt et miter_limit (Dbl.ofInt (-8)) w).1 =
        Except.ok r) ∧
      (TrimCollinearD ops path 9 is_open_path w).1 = Except.error precisionError ∧
      (∃ r, (TrimCollinearD ops path 8 is_open_path w).1 = Except.ok r) ∧
      (∃ r, (TrimCollinearD ops path (-8) is_open_path w).1 = Except.ok r) ∧
      ((TrimCollinearD logOps () iprecision is_open_path []).2 = [] ↔
        (TrimCollinearD logOps () iprecision is_open_path []).1 =
          Except.error precisionError) ∧
      ((InflatePathsD logOps () delta () () miter_limit precision []).2 = [] ↔
        (InflatePathsD logOps () delta () () miter_limit precision []).1 =
          Except.error precisionError) ∧
      (TrimCollinearD logOps () 8 is_open_path []).2 =
        [Work.scaledToInt, Work.trimmed, Work.scaledToFloat] ∧
      (InflatePathsD logOps () delta () () miter_limit (Dbl.ofInt 8) []).2 =
        [Work.offsetCreated, Work.scaledToInt, Work.pathsAdded, Work.offsetExecuted,
          Work.scaledToFloat] := by
  have h9 : Dbl.lt (Dbl.ofInt 8) (Dbl.ofInt 9) = true := by rw [Dbl.lt_ofInt]; decide
  have h8a : Dbl.lt (Dbl.ofInt 8) (Dbl.ofInt (-8)) = false := by rw [Dbl.lt_ofInt]; decide
  have h8b : Dbl.lt (Dbl.ofInt 8) (Dbl.ofInt 8) = false := by rw [Dbl.lt_ofInt]; decide
  have h8c : Dbl.lt (Dbl.ofInt (-8)) (Dbl.ofInt (-8)) = false := by rw [Dbl.lt_ofInt]; decide
  refine ⟨?_, ?_, ?_, ?_, ?_, ?_, ?_, ?_, ?_, ?_, ?_, ?_, ?_, ?_⟩
  · unfold TrimCollinearD
    split_ifs with h
    · simp only [true_iff]; omega
    · simp only [false_iff, reduceCtorEq]; omega
  · unfold TrimCollinearD
    split_ifs with h
    · intro _; rfl
    · intro h'; exact absurd h' (by simp)
  · unfold InflatePathsD
    split_ifs with h
    · simp only [true_iff]; exact h
    · simp only [false_iff, reduceCtorEq]; exact h
  · unfold InflatePathsD
    split_ifs with h
    · intro _; rfl
    · intro h'; exact absurd h' (by simp)
  · unfold InflatePathsD; rw [if_pos (Or.inr h9)]
  · unfold InflatePathsD
    rw [if_neg (by rw [h8a, h8b]; simp)]
    exact ⟨_, rfl⟩
  · unfold InflatePathsD
    rw [if_neg (by rw [h8a, h8c]; simp)]
    exact ⟨_, rfl⟩
  · unfold TrimCollinearD; rw [if_pos (by omega)]
  · unfold TrimCollinearD; rw [if_neg (by omega)]; exact ⟨_, rfl⟩
  · unfold TrimCollinearD; rw [if_neg (by omega)]; exact ⟨_, rfl⟩
  · unfold TrimCollinearD
    split_ifs with h
    · simp
    · simp [logOps]
  · unfold InflatePathsD
    split_ifs with h
    · simp
    · simp [logOps]
  · unfold TrimCollinearD; rw [if_neg (by omega)]; rfl
  · unfold InflatePathsD
    rw [if_neg (by rw [h8a, h8b]; simp)]
    rfl

/-! ## MakePath: the digits of a number -/

theorem wrap64_of_range (z : Int) (h1 : INT64_MIN ≤ z) (h2 : z ≤ INT64_MAX) : wrap64 z = z := by
  unfold INT64_MIN at h1
  unfold INT64_MAX at h2
  unfold wrap64
  omega

theorem wrap64_step (a d : Int) : wrap64 (wrap64 a * 10 + d) = wrap64 (a * 10 + d) := by
  unfold wrap64
  omega

theorem wrap64_neg (a : Int) : wrap64 (-(wrap64 a)) = wrap64 (-a) := by
  unfold wrap64
  omega

theorem getDigits_stop (rest : List Char) (h : NoDigitAhead rest) (val : Int) :
    getDigits rest val = (val, rest) := by
  cases rest with
  | nil => rfl
  | cons c cs =>
    have hc : ¬ IsDigit c := h c (by simp)
    unfold IsDigit at hc
    simp only [getDigits]
    rw [if_neg hc]

theorem getDigits_append (X : List Char) (hX : ∀ c ∈ X, IsDigit c) (rest : List Char)
    (hrest : NoDigitAhead rest) :
    ∀ acc : Int, getDigits (X ++ rest) (wrap64 acc) = (wrap64 (digitsValue X acc), rest) := by
  induction X with
  | nil => intro acc; exact getDigits_stop rest hrest _
  | cons c X ih =>
    intro acc
    have hc : IsDigit c := hX c (List.mem_cons_self _ _)
    unfold IsDigit at hc
    rw [List.cons_append, getDigits, if_pos hc, wrap64_step,
      ih (fun c' h' => hX c' (List.mem_cons_of_mem _ h'))]
    rfl

theorem digitChar_toNat (d : Nat) (h : d < 10) : (Nat.digitChar d).toNat = 48 + d := by
  interval_cases d <;> rfl

theorem toDigitsCore_spec : ∀ fuel n (ds : List Char), n < fuel →
    ∃ X : List Char, Nat.toDigitsCore 10 fuel n ds = X ++ ds ∧ X ≠ [] ∧
      (∀ c ∈ X, IsDigit c) ∧ digitsValue X 0 = n := by
  intro fuel
  induction fuel with
  | zero => intro n ds h; omega
  | succ fuel ih =>
    intro n ds h
    have hd : (Nat.digitChar (n % 10)).toNat = 48 + n % 10 :=
      digitChar_toNat _ (Nat.mod_lt _ (by omega))
    simp only [Nat.toDigitsCore]
    by_cases h0 : n / 10 = 0
    · rw [if_pos h0]
      refine ⟨[Nat.digitChar (n % 10)], rfl, by simp, ?_, ?_⟩
      · intro c hc
        rw [List.mem_singleton.mp hc]
        unfold IsDigit; omega
      · simp only [digitsValue, List.foldl_cons, List.foldl_nil, hd]
        push_cast
        omega
    · rw [if_neg h0]
      obtain ⟨X, hX, hne, hdig, hval⟩ := ih (n / 10) (Nat.digitChar (n % 10) :: ds) (by omega)
      refine ⟨X ++ [Nat.digitChar (n % 10)], by rw [hX]; simp, by simp, ?_, ?_⟩
      · intro c hc
        rcases List.mem_append.mp hc with h1 | h1
        · exact hdig c h1
        · rw [List.mem_singleton.mp h1]
          unfold IsDigit; omega
      · unfold digitsValue at hval ⊢
        rw [List.foldl_append, hval]
        simp only [List.foldl_cons, List.foldl_nil, hd]
        push_cast
        omega

theorem toDigits_spec (n : Nat) : Nat.toDigits 10 n ≠ [] ∧
    (∀ c ∈ Nat.toDigits 10 n, IsDigit c) ∧ digitsValue (Nat.toDigits 10 n) 0 = n := by
  obtain ⟨X, hX, hne, hdig, hval⟩ := toDigitsCore_spec (n + 1) n [] (by omega)
  unfold Nat.toDigits
  rw [hX, List.append_nil]
  exact ⟨hne, hdig, hval⟩

/-! ## MakePath: reading the text of a number -/

theorem IsDigit.ne_minus {c : Char} (h : IsDigit c) : c ≠ '-' := by
  intro he; subst he; unfold IsDigit at h; revert h; decide

theorem IsDigit.ne_space {c : Char} (h : IsDigit c) : c ≠ ' ' := by
  intro he; subst he; unfold IsDigit at h; revert h; decide

theorem IsDigit.ne_comma {c : Char} (h : IsDigit c) : c ≠ ',' := by
  intro he; subst he; unfold IsDigit at h; revert h; decide

theorem toDigits_cons (n : Nat) : ∃ c cs, Nat.toDigits 10 n = c :: cs ∧ IsDigit c := by
  obtain ⟨hne, hdig, _⟩ := toDigits_spec n
  cases h : Nat.toDigits 10 n with
  | nil => exact absurd h hne
  | cons c cs => exact ⟨c, cs, rfl, hdig c (by rw [h]; exact List.mem_cons_self _ _)⟩

theorem showInt_startsNumber (z : Int) (rest : List Char) : StartsNumber (showInt z ++ rest) := by
  unfold showInt
  split_ifs
  · exact ⟨'-', _, rfl, Or.inr rfl⟩
  · obtain ⟨c, cs, h, hc⟩ := toDigits_cons z.natAbs
    exact ⟨c, cs ++ rest, by rw [h]; rfl, Or.inl hc⟩

/-- `GetInt` reads back the decimal text of a value that fits `int64_t`, up to the
first character that is not a digit. -/
theorem GetInt_showInt (z : Int) (h1 : INT64_MIN ≤ z) (h2 : z ≤ INT64_MAX) (rest : List Char)
    (hrest : NoDigitAhead rest) : GetInt (showInt z ++ rest) = (true, z, rest) := by
  obtain ⟨hne, hdig, hval⟩ := toDigits_spec z.natAbs
  have hg := getDigits_append (Nat.toDigits 10 z.natAbs) hdig rest hrest 0
  have hw0 : wrap64 0 = 0 := by decide
  rw [hw0, hval] at hg
  have hlen : rest.length ≠ (Nat.toDigits 10 z.natAbs ++ rest).length := by
    have : 0 < (Nat.toDigits 10 z.natAbs).length := List.length_pos.mpr hne
    rw [List.length_append]; omega
  unfold showInt
  by_cases hz : z < 0
  · rw [if_pos hz]
    unfold GetInt
    simp only [List.cons_append, List.head?_cons, decide_True, if_true, List.tail_cons]
    rw [hg]
    simp only [hlen, ne_eq, not_false_eq_true, decide_True]
    rw [wrap64_neg, show -((z.natAbs : Nat) : Int) = z by omega, wrap64_of_range z h1 h2]
  · rw [if_neg hz]
    obtain ⟨c, cs, hcs, hc⟩ := toDigits_cons z.natAbs
    have hhead : (Nat.toDigits 10 z.natAbs ++ rest).head? ≠ some '-' := by
      rw [hcs]
      simp only [List.cons_append, List.head?_cons, ne_eq, Option.some.injEq]
      exact hc.ne_minus
    unfold GetInt
    simp only [hhead, decide_False, Bool.false_eq_true, if_false]
    rw [hg]
    simp only [hlen, ne_eq, not_false_eq_true, decide_True]
    rw [show ((z.natAbs : Nat) : Int) = z by omega, wrap64_of_range z h1 h2]

/-- `GetInt` reads nothing from a text that starts with neither a digit nor a
minus sign. -/
theorem GetInt_fail (c : Char) (t : List Char) (h1 : ¬ IsDigit c) (h2 : c ≠ '-') :
    (GetInt (c :: t)).1 = false := by
  unfold GetInt
  have hhead : (c :: t).head? ≠ some '-' := by simpa using h2
  simp only [hhead, decide_False, Bool.false_eq_true, if_false]
  rw [getDigits_stop (c :: t) (by intro c' hc'; simp at hc'; rw [← hc']; exact h1)]
  simp

/-! ## MakePath: skipping a separator -/

theorem StartsNumber.noSepAhead {s : List Char} (h : StartsNumber s) : NoSepAhead s := by
  obtain ⟨c, cs, rfl, hc⟩ := h
  intro c' hc'
  simp only [List.head?_cons, Option.mem_def, Option.some.injEq] at hc'
  subst hc'
  rcases hc with hc | hc
  · exact ⟨hc.ne_space, hc.ne_comma⟩
  · subst hc; decide

theorem StartsNumber.ne_nil {s : List Char} (h : StartsNumber s) : s ≠ [] := by
  obtain ⟨c, cs, rfl, _⟩ := h
  exact List.cons_ne_nil _ _

theorem SkipSpacesWithOptionalComma_stop (rest : List Char) (h : NoSepAhead rest)
    (comma_seen : Bool) : SkipSpacesWithOptionalComma rest comma_seen = rest := by
  cases rest with
  | nil => rfl
  | cons c cs =>
    have hc := h c (by simp)
    rw [SkipSpacesWithOptionalComma, if_neg hc.1, if_neg hc.2]

theorem SkipSpacesWithOptionalComma_append (s rest : List Char)
    (hs : ∀ c ∈ s, c = ' ' ∨ c = ',') (hrest : NoSepAhead rest) (comma_seen : Bool)
    (hcount : s.count ',' + (if comma_seen then 1 else 0) ≤ 1) :
    SkipSpacesWithOptionalComma (s ++ rest) comma_seen = rest := by
  induction s generalizing comma_seen with
  | nil => exact SkipSpacesWithOptionalComma_stop rest hrest comma_seen
  | cons c cs ih =>
    have hcs : ∀ c ∈ cs, c = ' ' ∨ c = ',' := fun c' hc' => hs c' (List.mem_cons_of_mem _ hc')
    rcases hs c (List.mem_cons_self _ _) with hc | hc
    · subst hc
      rw [List.cons_append, SkipSpacesWithOptionalComma, if_pos rfl]
      apply ih hcs
      rw [List.count_cons] at hcount
      simpa using hcount
    · subst hc
      rw [List.count_cons_self] at hcount
      have hseen : comma_seen = false := by
        cases comma_seen
        · rfl
        · simp at hcount
      subst hseen
      rw [List.cons_append, SkipSpacesWithOptionalComma, if_neg (by decide), if_pos rfl]
      simp only [Bool.false_eq_true, if_false]
      apply ih hcs
      simp only [if_true]
      simp only [Bool.false_eq_true, if_false] at hcount
      omega

theorem IsSeparator.skip {s : List Char} (h : IsSeparator s) (rest : List Char)
    (hrest : NoSepAhead rest) : SkipSpacesWithOptionalComma (s ++ rest) false = rest :=
  SkipSpacesWithOptionalComma_append s rest h.2.1 hrest false (by simpa using h.2.2)

theorem IsSeparator.noDigitAfter {s : List Char} (h : IsSeparator s) (rest : List Char) :
    NoDigitAhead (s ++ rest) := by
  obtain ⟨hne, hs, _⟩ := h
  cases s with
  | nil => exact absurd rfl hne
  | cons c cs =>
    intro c' hc'
    simp only [List.cons_append, List.head?_cons, Option.mem_def, Option.some.injEq] at hc'
    subst hc'
    rcases hs c (List.mem_cons_self _ _) with hc | hc <;> subst hc <;>
      (unfold IsDigit; decide)

/-! ## MakePath: the loop on the text of a list of points -/

theorem StopsScan.noDigitFirst {tl : List Char} (h : StopsScan tl) : NoDigitAhead tl := by
  rcases h with rfl | ⟨t, rfl, _⟩
  · intro c hc; simp at hc
  · intro c hc
    simp only [List.head?_cons, Option.mem_def, Option.some.injEq] at hc
    subst hc; unfold IsDigit; decide

theorem makePathLoop_stop (c : Char) (t : List Char) (h1 : ¬ IsDigit c) (h2 : c ≠ '-')
    (fuel : Nat) (acc : Path64) :
    makePathLoop false [] (fuel + 1) (c :: t) acc = some acc := by
  rw [makePathLoop, if_neg (List.cons_ne_nil _ _)]
  simp only [GetInt_fail c t h1 h2, if_true]

theorem StopsScan.loop {tl : List Char} (h : StopsScan tl) (fuel : Nat) (acc : Path64) :
    makePathLoop false [] (fuel + 1) (SkipSpacesWithOptionalComma tl false) acc = some acc := by
  rcases h with rfl | ⟨t, rfl, ht⟩
  · rfl
  · rw [SkipSpacesWithOptionalComma, if_pos rfl]
    cases t with
    | nil => rfl
    | cons c t =>
      have hc := ht c (by simp)
      rw [SkipSpacesWithOptionalComma_stop _ (by
        intro c' hc'
        simp only [List.head?_cons, Option.mem_def, Option.some.injEq] at hc'
        subst hc'; exact ⟨hc.2.2.1, hc.2.2.2⟩)]
      exact makePathLoop_stop c t hc.1 hc.2.1 fuel acc

theorem renderWith_startsNumber (e : Point64 × List Char × List Char)
    (l : List (Point64 × List Char × List Char)) (tl : List Char) :
    StartsNumber (renderWith (e :: l) ++ tl) := by
  cases l with
  | nil =>
    simp only [renderWith, List.append_assoc]
    exact showInt_startsNumber _ _
  | cons e' rest =>
    simp only [renderWith, List.append_assoc]
    exact showInt_startsNumber _ _

/-- One round of the loop of `MakePath` on the text of a point followed by `R`. -/
theorem makePathLoop_point (pt : Point64) (hpt : pt.InRange) (sep : List Char)
    (hsep : IsSeparator sep) (R : List Char) (hR : NoDigitAhead R) (fuel : Nat)
    (acc : Path64) :
    makePathLoop false [] (fuel + 1) (showInt pt.x ++ (sep ++ (showInt pt.y ++ R))) acc =
      makePathLoop false [] fuel (SkipSpacesWithOptionalComma R false) (acc ++ [pt]) := by
  have hx := GetInt_showInt pt.x hpt.1 hpt.2.1 (sep ++ (showInt pt.y ++ R))
    (hsep.noDigitAfter _)
  have hy := GetInt_showInt pt.y hpt.2.2.1 hpt.2.2.2 R hR
  have hskip := hsep.skip (showInt pt.y ++ R) (showInt_startsNumber pt.y R).noSepAhead
  rw [makePathLoop, if_neg (showInt_startsNumber _ _).ne_nil]
  simp only [hx, hskip, hy, Bool.true_eq_false, Bool.false_eq_true, if_false]

theorem makePathLoop_render (l : List (Point64 × List Char × List Char))
    (hpts : ∀ e ∈ l, e.1.InRange)
    (hsep : ∀ e ∈ l, IsSeparator e.2.1 ∧ IsSeparator e.2.2)
    (tl : List Char) (htl : StopsScan tl) (hne : l ≠ []) (fuel : Nat)
    (hfuel : l.length < fuel) (acc : Path64) :
    makePathLoop false [] fuel (renderWith l ++ tl) acc = some (acc ++ l.map (fun e => e.1)) := by
  induction l generalizing fuel acc with
  | nil => exact absurd rfl hne
  | cons e l ih =>
    have he := hpts e (List.mem_cons_self _ _)
    have hs := hsep e (List.mem_cons_self _ _)
    obtain ⟨fuel, rfl⟩ : ∃ f, fuel = f + 1 := ⟨fuel - 1, by omega⟩
    cases l with
    | nil =>
      obtain ⟨fuel, rfl⟩ : ∃ f, fuel = f + 1 := ⟨fuel - 1, by simp at hfuel; omega⟩
      simp only [renderWith, List.append_assoc]
      rw [makePathLoop_point e.1 he e.2.1 hs.1 tl htl.noDigitFirst, htl.loop]
      rfl
    | cons e' rest =>
      simp only [renderWith, List.append_assoc]
      rw [makePathLoop_point e.1 he e.2.1 hs.1 _ (hs.2.noDigitAfter _),
        hs.2.skip _ (renderWith_startsNumber e' rest tl).noSepAhead,
        ih (fun x hx => hpts x (List.mem_cons_of_mem _ hx))
          (fun x hx => hsep x (List.mem_cons_of_mem _ hx)) (List.cons_ne_nil _ _) fuel
          (by simp only [List.length_cons] at hfuel ⊢; omega)]
      simp

theorem showInt_length_pos (z : Int) : 0 < (showInt z).length := by
  obtain ⟨c, cs, h, _⟩ := showInt_startsNumber z []
  rw [List.append_nil] at h
  rw [h]; simp

theorem renderWith_length (l : List (Point64 × List Char × List Char)) :
    l.length ≤ (renderWith l).length := by
  induction l with
  | nil => simp
  | cons e l ih =>
    cases l with
    | nil =>
      have := showInt_length_pos e.1.x
      simp only [renderWith, List.length_append, List.length_singleton]; omega
    | cons e' rest =>
      have := showInt_length_pos e.1.x
      simp only [renderWith, List.length_append, List.length_cons] at ih ⊢; omega

theorem SkipWhiteSpace_startsNumber {s : List Char} (h : StartsNumber s) :
    SkipWhiteSpace s = s := by
  obtain ⟨c, cs, rfl, hc⟩ := h
  have : ¬ leSpace c := by
    rcases hc with hc | hc
    · unfold IsDigit at hc; unfold leSpace; omega
    · subst hc; decide
  rw [SkipWhiteSpace, if_neg this]

/-- `MakePath` with the default skip characters on the text of a non-empty list
of points, written with separators of spaces and at most one comma and followed by
a text at which the scan stops. -/
theorem MakePath_render (l : List (Point64 × List Char × List Char))
    (hpts : ∀ e ∈ l, e.1.InRange)
    (hsep : ∀ e ∈ l, IsSeparator e.2.1 ∧ IsSeparator e.2.2)
    (tl : List Char) (htl : StopsScan tl) (hne : l ≠ []) :
    MakePath (renderWith l ++ tl) [] = some (l.map (fun e => e.1)) := by
  have hstart : StartsNumber (renderWith l ++ tl) := by
    cases l with
    | nil => exact absurd rfl hne
    | cons e l => exact renderWith_startsNumber e l tl
  unfold MakePath
  simp only [List.length_nil, gt_iff_lt, lt_self_iff_false, false_and, decide_False,
    Bool.false_eq_true, if_false]
  rw [SkipWhiteSpace_startsNumber hstart,
    makePathLoop_render l hpts hsep tl htl hne _ (by
      have := renderWith_length l
      rw [List.length_append]; omega)]
  rfl

/-! ## MakePath reads back the text of a list of points (claims C15, C16, C17) -/

theorem isSeparator_comma : IsSeparator [','] := by decide

theorem isSeparator_space : IsSeparator [' '] := by decide

/-- Claim C15: parsing undoes printing.  For every list of points whose
coordinates fit `int64_t`, `MakePath` with the default skip characters reads the
canonical text of the list (decimal `x`, a comma, decimal `y`, a leading `'-'` for
negatives, one space between points) back to exactly that list. -/
theorem MakePath_showPath (pts : List Point64) (h : ∀ p ∈ pts, p.InRange) :
    MakePath (showPath pts) [] = some pts := by
  cases pts with
  | nil => rfl
  | cons p ps =>
    have hr := MakePath_render ((p :: ps).map (fun q => (q, [','], [' '])))
      (by
        intro e he
        obtain ⟨q, hq, rfl⟩ := List.mem_map.mp he
        exact h q hq)
      (by
        intro e he
        obtain ⟨q, _, rfl⟩ := List.mem_map.mp he
        exact ⟨isSeparator_comma, isSeparator_space⟩)
      [] (Or.inl rfl) (by simp)
    rw [List.append_nil, List.map_map,
      show ((fun e : Point64 × List Char × List Char => e.1) ∘ fun q => (q, [','], [' '])) = id
        from rfl, List.map_id] at hr
    exact hr

/-- The witness of claim C15: the scenario of the spec, the text
`"0,0 10,0 10,10 0,10"`. -/
theorem MakePath_showPath_witness :
    showPath [⟨0, 0⟩, ⟨10, 0⟩, ⟨10, 10⟩, ⟨0, 10⟩] = "0,0 10,0 10,10 0,10".toList ∧
      (∀ p ∈ ([⟨0, 0⟩, ⟨10, 0⟩, ⟨10, 10⟩, ⟨0, 10⟩] : List Point64), p.InRange) ∧
      MakePath (showPath [⟨0, 0⟩, ⟨10, 0⟩, ⟨10, 10⟩, ⟨0, 10⟩]) [] =
        some [⟨0, 0⟩, ⟨10, 0⟩, ⟨10, 10⟩, ⟨0, 10⟩] :=
  ⟨by decide, by decide, MakePath_showPath _ (by decide)⟩

theorem SkipWhiteSpace_append (ws s : List Char) (hws : ∀ c ∈ ws, leSpace c) :
    SkipWhiteSpace (ws ++ s) = SkipWhiteSpace s := by
  induction ws with
  | nil => rfl
  | cons c cs ih =>
    rw [List.cons_append, SkipWhiteSpace, if_pos (hws c (List.mem_cons_self _ _)),
      ih (fun c' hc' => hws c' (List.mem_cons_of_mem _ hc'))]

/-- Claim C16 (amended): `MakePath` with the default skip characters reads a list
of points whose coordinates fit `int64_t`, written in decimal, when the text
starts with any run of whitespace characters (space, tab, newline, carriage
return) and the two coordinates of a point, and consecutive points, are separated
by a non-empty run of space characters that may contain a single comma. -/
theorem MakePath_separators (ws : List Char) (l : List (Point64 × List Char × List Char))
    (hws : ∀ c ∈ ws, c = ' ' ∨ c = '\t' ∨ c = '\n' ∨ c = '\r')
    (hpts : ∀ e ∈ l, e.1.InRange)
    (hsep : ∀ e ∈ l, IsSeparator e.2.1 ∧ IsSeparator e.2.2) :
    MakePath (ws ++ renderWith l) [] = some (l.map (fun e => e.1)) := by
  have hle : ∀ c ∈ ws, leSpace c := by
    intro c hc
    rcases hws c hc with h | h | h | h <;> subst h <;> decide
  unfold MakePath
  simp only [List.length_nil, gt_iff_lt, lt_self_iff_false, false_and, decide_False,
    Bool.false_eq_true, if_false]
  rw [SkipWhiteSpace_append ws _ hle]
  cases l with
  | nil => rfl
  | cons e l =>
    have hstart := renderWith_startsNumber e l []
    rw [List.append_nil] at hstart
    have hr := makePathLoop_render (e :: l) hpts hsep [] (Or.inl rfl) (List.cons_ne_nil _ _)
      ((ws ++ renderWith (e :: l)).length + 1) (by
        have := renderWith_length (e :: l)
        rw [List.length_append]; omega) []
    rw [List.append_nil] at hr
    rw [SkipWhiteSpace_startsNumber hstart, hr]
    rfl

/-- The witness of claim C16 (amended): the text `"\n\t1 , 2   -3  4"`. -/
theorem MakePath_separators_witness :
    ['\n', '\t'] ++
        renderWith [(⟨1, 2⟩, [' ', ',', ' '], [' ', ' ', ' ']), (⟨-3, 4⟩, [' ', ' '], [' '])] =
        "\n\t1 , 2   -3  4".toList ∧
      (∀ e ∈ ([(⟨1, 2⟩, [' ', ',', ' '], [' ', ' ', ' ']), (⟨-3, 4⟩, [' ', ' '], [' '])] :
          List (Point64 × List Char × List Char)), e.1.InRange) ∧
      (∀ e ∈ ([(⟨1, 2⟩, [' ', ',', ' '], [' ', ' ', ' ']), (⟨-3, 4⟩, [' ', ' '], [' '])] :
          List (Point64 × List Char × List Char)), IsSeparator e.2.1 ∧ IsSeparator e.2.2) ∧
      MakePath (['\n', '\t'] ++ renderWith
          [(⟨1, 2⟩, [' ', ',', ' '], [' ', ' ', ' ']), (⟨-3, 4⟩, [' ', ' '], [' '])]) [] =
        some [⟨1, 2⟩, ⟨-3, 4⟩] :=
  ⟨by decide, by decide, by decide,
    MakePath_separators _ _ (by decide) (by decide) (by decide)⟩

/-- Claim C16 as stated fails: in the text `"1\t2"` the two coordinates of the
point `(1,2)` are separated by a tab, a non-empty run of whitespace, and `MakePath`
returns the empty path: `SkipSpacesWithOptionalComma` steps over spaces and one
comma only, so the second `GetInt` finds the tab and reads no number. -/
theorem MakePath_tab_separator :
    renderWith [(⟨1, 2⟩, ['\t'], [' '])] = "1\t2".toList ∧
      (∀ e ∈ ([(⟨1, 2⟩, ['\t'], [' '])] : List (Point64 × List Char × List Char)),
        e.1.InRange ∧ IsWhitespaceSeparator e.2.1 ∧ IsWhitespaceSeparator e.2.2) ∧
      MakePath (renderWith [(⟨1, 2⟩, ['\t'], [' '])]) [] = some [] ∧
      MakePath (renderWith [(⟨1, 2⟩, ['\t'], [' '])]) [] ≠ some [⟨1, 2⟩] := by
  decide

/-- Claim C17 (amended): `MakePath` returns the points read before the first text
it cannot parse.  For every list `pts` of points whose coordinates fit `int64_t`
and every text `t` whose first character is not a digit, `'-'`, a space or a
comma, and, when `pts` is empty, is a printable ASCII character (code above 32),
`MakePath` on the canonical text of `pts` followed by one space and `t` returns
exactly `pts`. -/
theorem MakePath_stops (pts : List Point64) (hpts : ∀ p ∈ pts, p.InRange) (t : List Char)
    (ht : ∀ c ∈ t.head?, ¬ IsDigit c ∧ c ≠ '-' ∧ c ≠ ' ' ∧ c ≠ ',')
    (hfirst : pts ≠ [] ∨ ∀ c ∈ t.head?, 32 < c.toNat ∧ c.toNat < 128) :
    MakePath (showPath pts ++ ' ' :: t) [] = some pts := by
  cases pts with
  | nil =>
    have h32 : ∀ c ∈ t.head?, 32 < c.toNat ∧ c.toNat < 128 := by
      rcases hfirst with h | h
      · exact absurd rfl h
      · exact h
    unfold MakePath
    simp only [List.length_nil, gt_iff_lt, lt_self_iff_false, false_and, decide_False,
      Bool.false_eq_true, if_false]
    rw [show showPath [] ++ ' ' :: t = ' ' :: t from rfl, SkipWhiteSpace,
      if_pos (by decide)]
    cases t with
    | nil => rfl
    | cons c t =>
      have hc := ht c (by simp)
      have hc32 := h32 c (by simp)
      rw [SkipWhiteSpace, if_neg (by unfold leSpace; omega)]
      exact makePathLoop_stop c t hc.1 hc.2.1 _ _
  | cons p ps =>
    have hr := MakePath_render ((p :: ps).map (fun q => (q, [','], [' '])))
      (by
        intro e he
        obtain ⟨q, hq, rfl⟩ := List.mem_map.mp he
        exact hpts q hq)
      (by
        intro e he
        obtain ⟨q, _, rfl⟩ := List.mem_map.mp he
        exact ⟨isSeparator_comma, isSeparator_space⟩)
      (' ' :: t) (Or.inr ⟨t, rfl, ht⟩) (by simp)
    rw [List.map_map,
      show ((fun e : Point64 × List Char × List Char => e.1) ∘ fun q => (q, [','], [' '])) = id
        from rfl, List.map_id] at hr
    exact hr

/-- The witness of claim C17 (amended): the text `"1,2 -3,4 x5,6"`, and the text
`" x1,2"` for the empty list. -/
theorem MakePath_stops_witness :
    showPath [⟨1, 2⟩, ⟨-3, 4⟩] ++ ' ' :: "x5,6".toList = "1,2 -3,4 x5,6".toList ∧
      MakePath (showPath [⟨1, 2⟩, ⟨-3, 4⟩] ++ ' ' :: "x5,6".toList) [] =
        some [⟨1, 2⟩, ⟨-3, 4⟩] :=
  ⟨by decide, MakePath_stops _ (by decide) _ (by decide) (Or.inl (by decide))⟩

/-- Claim C17 as stated fails: for the empty list of points and `t = "\t1,2"`,
whose first character is a tab, the text is `" \t1,2"`; the `SkipWhiteSpace` that
opens `MakePath` steps over every character up to the space, the tab included,
and the point `(1,2)` of `t` is read. -/
theorem MakePath_reads_past_tab :
    (∀ c ∈ ("\t1,2".toList).head?, ¬ IsDigit c ∧ c ≠ '-' ∧ c ≠ ' ' ∧ c ≠ ',') ∧
      showPath [] ++ ' ' :: "\t1,2".toList = " \t1,2".toList ∧
      MakePath (showPath [] ++ ' ' :: "\t1,2".toList) [] = some [⟨1, 2⟩] ∧
      MakePath (showPath [] ++ ' ' :: "\t1,2".toList) [] ≠ some [] := by
  decide

/-! ## MakePath always returns -/

theorem getDigits_length (s : List Char) : ∀ val, (getDigits s val).2.length ≤ s.length := by
  induction s with
  | nil => intro val; simp [getDigits]
  | cons c cs ih =>
    intro val
    rw [getDigits]
    split_ifs
    · exact Nat.le_succ_of_le (ih _)
    · exact Nat.le_refl _

theorem GetInt_length_le (s : List Char) : (GetInt s).2.2.length ≤ s.length := by
  unfold GetInt
  simp only []
  split_ifs
  · exact Nat.le_trans (getDigits_length _ _) (by simp)
  · exact getDigits_length _ _

theorem GetInt_length_lt (s : List Char) (h : (GetInt s).1 = true) :
    (GetInt s).2.2.length < s.length := by
  unfold GetInt at h ⊢
  simp only [decide_eq_true_eq] at h ⊢
  split_ifs at h ⊢
  · have h1 := getDigits_length s.tail 0
    have h2 : s.tail.length ≤ s.length := by simp
    omega
  · have h1 := getDigits_length s 0
    omega

theorem SkipWhiteSpace_length (s : List Char) : (SkipWhiteSpace s).length ≤ s.length := by
  induction s with
  | nil => simp [SkipWhiteSpace]
  | cons c cs ih =>
    rw [SkipWhiteSpace]
    split_ifs
    · exact Nat.le_succ_of_le ih
    · exact Nat.le_refl _

theorem SkipSpacesWithOptionalComma_length (s : List Char) :
    ∀ comma_seen, (SkipSpacesWithOptionalComma s comma_seen).length ≤ s.length := by
  induction s with
  | nil => intro b; simp [SkipSpacesWithOptionalComma]
  | cons c cs ih =>
    intro b
    rw [SkipSpacesWithOptionalComma]
    split_ifs
    · exact Nat.le_succ_of_le (ih _)
    · exact Nat.le_refl _
    · exact Nat.le_succ_of_le (ih _)
    · exact Nat.le_refl _

theorem SkipUserDefinedChars_length (s : List Char) :
    ∀ buff, (SkipUserDefinedChars s buff).length ≤ s.length := by
  induction s with
  | nil => intro b; simp [SkipUserDefinedChars]
  | cons c cs ih =>
    intro b
    rw [SkipUserDefinedChars]
    split_ifs
    · exact Nat.le_succ_of_le (ih _)
    · cases has_one_match c b with
      | none => exact Nat.le_refl _
      | some b' => exact Nat.le_succ_of_le (ih _)

/-- The loop of `MakePath` ends within `s_iter.size() + 1` rounds: every round that
does not leave it reads at least one digit. -/
theorem makePathLoop_total (user_defined_skip : Bool) (skip_chars : List Char) :
    ∀ (fuel : Nat) (s_iter : List Char) (result : Path64), s_iter.length < fuel →
      ∃ r, makePathLoop user_defined_skip skip_chars fuel s_iter result = some r := by
  intro fuel
  induction fuel with
  | zero => intro s r h; omega
  | succ fuel ih =>
    intro s r h
    rw [makePathLoop]
    by_cases h0 : s = []
    · rw [if_pos h0]; exact ⟨_, rfl⟩
    · rw [if_neg h0]
      simp only []
      by_cases hx : (GetInt s).1 = false
      · rw [if_pos hx]; exact ⟨_, rfl⟩
      · rw [if_neg hx]
        by_cases hy : (GetInt (SkipSpacesWithOptionalComma (GetInt s).2.2 false)).1 = false
        · rw [if_pos hy]; exact ⟨_, rfl⟩
        · rw [if_neg hy]
          apply ih
          have h1 := GetInt_length_lt s (by simpa using hx)
          have h2 := SkipSpacesWithOptionalComma_length (GetInt s).2.2 false
          have h3 := GetInt_length_le (SkipSpacesWithOptionalComma (GetInt s).2.2 false)
          have h4 := SkipSpacesWithOptionalComma_length
            (GetInt (SkipSpacesWithOptionalComma (GetInt s).2.2 false)).2.2 false
          have h5 := SkipUserDefinedChars_length
            (GetInt (SkipSpacesWithOptionalComma (GetInt s).2.2 false)).2.2 skip_chars
          split_ifs <;> omega

/-- `MakePath` returns a path for every text and every string of skip characters. -/
theorem MakePath_total (s skip_chars : List Char) : ∃ r, MakePath s skip_chars = some r := by
  unfold MakePath
  apply makePathLoop_total
  have h1 := SkipWhiteSpace_length s
  have h2 := SkipUserDefinedChars_length s skip_chars
  split_ifs <;> omega

end Clipper2Lib
